import Mathlib

/-!
# noansi: the escape-sequence interpreter

A shallow embedding of `noansi.c` (cp437 + DOS ANSI to ascii + mIRC colours).

* `achar_t` is the packed 32-bit cell of the source, kept as a natural number
  with the source's masks and shifts.
* `read_ansi` reads its input with `fgetc`; here the input is the list of the
  bytes `fgetc` returns (each below 256) and end of file is the end of the list
  (once `fgetc` has returned `EOF` it keeps returning `EOF`).
* The nested loops of `read_ansi` are unrolled into a machine that consumes one
  byte at a time: `Mode.ground` is the head of the outer loop, `Mode.esc` is the
  `fgetc` that follows an ESC byte, `Mode.csi` is the head of the inner loop with
  the per-sequence locals.
* `doerror` aborts the process (`errors` is never changed from 0); it is the
  `Step.fatal` result.  A store outside `screen[NROWS][NCOLS]` is undefined
  behaviour in C; it is the `Step.oob` result.
-/

namespace Noansi

/-! ## Constants and the packed cell -/

def NCOLS : Nat := 80
def NROWS : Nat := 1024
def MAXSEQLEN : Nat := 64

def aBLACK : Nat := 0
def aRED : Nat := 1
def aGREEN : Nat := 2
def aYELLOW : Nat := 3
def aBLUE : Nat := 4
def aMAGENTA : Nat := 5
def aCYAN : Nat := 6
def aWHITE : Nat := 7

def ACF_BOLD : Nat := 0x10000
def ACF_UNDERLINE : Nat := 0x20000
def ACF_BLINK : Nat := 0x40000
def ACF_INVERSE : Nat := 0x80000
def ACF_BGBOLD : Nat := 0x100000
def ACF_UNCHANGED : Nat := 0x200000

/-- The type `u_int32_t achar_t`: bits 0-7 character, 8-11 fg, 12-15 bg, the rest flags. -/
abbrev achar_t := Nat

def AC (chr fg bg flags : Nat) : achar_t :=
  (chr &&& 0xff) ||| ((fg &&& 0xf) <<< 8) ||| ((bg &&& 0xf) <<< 12) ||| (flags &&& 0xffff0000)

def ACCHAR (x : achar_t) : Nat := x &&& 0xff
def ACREST (x : achar_t) : Nat := x &&& 0xffffff00
def ACFG (x : achar_t) : Nat := (x >>> 8) &&& 0xf
def ACBG (x : achar_t) : Nat := (x >>> 12) &&& 0xf
def ACFLAGS (x : achar_t) : Nat := x &&& 0xffff0000

/-- The macro `MAX(x,y) ((x) > (y) ? (x) : (y))`. -/
def MAX {α : Type} [LT α] [DecidableRel (fun a b : α => a < b)] (x y : α) : α :=
  if y < x then x else y

/-- The macro `MIN(x,y) ((x) > (y) ? (y) : (x))`. -/
def MIN {α : Type} [LT α] [DecidableRel (fun a b : α => a < b)] (x y : α) : α :=
  if y < x then y else x

def default_fg : Nat := aWHITE
def default_bg : Nat := aBLACK
def default_ch : Nat := 32
def default_char : achar_t := AC 32 aWHITE aBLACK ACF_UNCHANGED

/-- Range of `unsigned int`. -/
def UINT : Nat := 4294967296
/-- Range of `unsigned char`. -/
def UCHAR : Nat := 256

/-- The globals `expandtab` and `includez`; `main` only ever stores 0 or 1 in them.
`expandtab = true` is `expandtab == 1`, `includez = false` is `includez == 0`
(stop reading at the EOF marker 0x1a). -/
structure Config where
  expandtab : Bool
  includez : Bool
  deriving DecidableEq, Repr

/-! ## handle_sgr and clear_screen -/

/-- The three variables `handle_sgr` updates through its pointers. -/
structure Rendition where
  curfg : Nat
  curbg : Nat
  curflags : Nat
  deriving DecidableEq, Repr

def handle_sgr (sgrcode : Int) (r : Rendition) : Rendition :=
  if sgrcode = 0 then { curflags := 0, curfg := default_fg, curbg := default_bg }
  else if sgrcode = 1 then { r with curflags := ACF_BOLD }
  else if sgrcode = 4 then { r with curflags := ACF_UNDERLINE }
  else if sgrcode = 5 then { r with curflags := ACF_BLINK }
  else if sgrcode = 7 then { r with curflags := ACF_INVERSE }
  else if 30 ≤ sgrcode ∧ sgrcode ≤ 37 then { r with curfg := (sgrcode - 30).toNat }
  else if sgrcode = 39 then { r with curfg := default_fg }
  else if 40 ≤ sgrcode ∧ sgrcode ≤ 47 then { r with curbg := (sgrcode - 40).toNat }
  else if sgrcode = 8 ∨ sgrcode = 48 ∨ sgrcode = 53 ∨ sgrcode = 55 then r
  else r  -- warning on stderr, ignored

/-- The array `achar_t screen[NROWS][NCOLS]`, indexed by row then column. -/
abbrev Screen := Nat → Nat → achar_t

def clear_screen (screen : Screen) : Screen :=
  fun i j => if i < NROWS ∧ j < NCOLS then default_char else screen i j

/-- The store `screen[x][y] = v`. -/
def screen_set (screen : Screen) (x y : Nat) (v : achar_t) : Screen :=
  fun i j => if i = x ∧ j = y then v else screen i j

/-! ## read_ansi -/

/-- The `doerror` calls of `read_ansi`, one constructor per message. -/
inductive Fatal
  /-- "EOF reached after ESC, aborting" -/
  | eof_after_esc
  /-- "unknown sequence EOF 0x%d": ESC followed by a byte other than `[` -/
  | unknown_sequence (d : Nat)
  /-- "reached max sequence length" -/
  | max_sequence_length
  /-- "number too large" -/
  | number_too_large
  /-- "invalid sequence CSI ... ; ?" -/
  | ques_after_param
  /-- "invalid CSI ? ... m" and its siblings for J H A B C D -/
  | ques_form (d : Nat)
  /-- "expected 1 param for CSI ... J" and "expected 0-1 parameters" for A B C D -/
  | param_count (d : Nat)
  /-- "unknown parameter p = %d for CSI p J" -/
  | unknown_param
  /-- "expected CSI ? 7 h" and "unknown sequence: CSI %d %d %d h" -/
  | mode_set
  /-- "invalid CSI s form" (also printed for u) -/
  | save_restore_form (d : Nat)
  /-- "CSI u before a CSI s" -/
  | restore_before_save
  /-- "unknown sequence CSI <params> 0x%x" -/
  | unknown_csi (d : Nat)
  deriving DecidableEq, Repr

/-- The locals of `read_ansi` that live across iterations of the outer loop. -/
structure Term where
  screen : Screen
  /-- `unsigned int x`: the row -/
  x : Nat
  /-- `unsigned char y`: the column -/
  y : Nat
  /-- `unsigned char savedx` -/
  savedx : Nat
  /-- `unsigned char savedy` -/
  savedy : Nat
  curbg : Nat
  curfg : Nat
  curflags : Nat
  wrapping : Nat

/-- The locals declared inside the outer loop, alive during one CSI sequence.
`nbuf` holds the `bidx` characters stored so far, so `bidx` is `nbuf.length`. -/
structure Seq where
  params : Nat → Int
  np : Nat
  nbuf : List Nat
  quesflag : Nat
  semicount : Nat
  curseqlen : Nat

inductive Mode
  | ground
  | esc
  | csi (l : Seq)

structure Machine where
  t : Term
  mode : Mode

inductive Step
  /-- the loops go on to the next `fgetc` -/
  | next (m : Machine)
  /-- the function executed `return` -/
  | ret (t : Term)
  /-- the function called `doerror`, which aborts -/
  | fatal (e : Fatal)
  /-- a store outside the array -/
  | oob

def Seq.init : Seq :=
  { params := fun _ => -1, np := 0, nbuf := [], quesflag := 0, semicount := 0, curseqlen := 0 }

def Term.init (screen : Screen) : Term :=
  { screen := screen, x := 0, y := 0, savedx := 255, savedy := 255,
    curbg := aBLACK, curfg := aWHITE, curflags := 0, wrapping := 1 }

def isdigit (d : Nat) : Bool := 48 ≤ d && d ≤ 57

/-- The function `atoi` on a buffer that holds only digits before its terminator. -/
def atoi (nbuf : List Nat) : Int :=
  nbuf.foldl (fun (acc : Int) (d : Nat) => acc * 10 + ((d : Int) - 48)) 0

/-- Conversion of an `int` to `unsigned char`. -/
def to_uchar (v : Int) : Nat := (v % 256).toNat

/-- Conversion of an `int` to `unsigned int`. -/
def to_uint (v : Int) : Nat := (v % 4294967296).toNat

/-- Lines 156-180: a byte other than ESC read at the head of the outer loop. -/
def plain_byte (cfg : Config) (t : Term) (c : Nat) : Step :=
  if c = 0xa then
    .next ⟨{ t with x := MIN (NROWS - 1) ((t.x + 1) % UINT), y := 0 }, .ground⟩
  else if c = 0xd then
    .next ⟨{ t with y := 0 }, .ground⟩
  else if c = 0x9 ∧ cfg.expandtab = true then
    .next ⟨{ t with y := MIN (NCOLS - 1) ((t.y + 8) &&& 0xf8) % UCHAR }, .ground⟩
  else if c = 0x1a ∧ cfg.includez = false then
    .ret t
  else if t.x < NROWS ∧ t.y < NCOLS then
    let screen := screen_set t.screen t.x t.y (AC c t.curfg t.curbg t.curflags)
    if t.wrapping ≠ 0 then
      let y1 := (t.y + 1) % UCHAR
      .next ⟨{ t with screen := screen,
                      x := MIN (NROWS - 1) ((t.x + y1 / NCOLS) % UINT),
                      y := y1 % NCOLS }, .ground⟩
    else
      .next ⟨{ t with screen := screen, y := MIN (NCOLS - 1) (t.y + 1) % UCHAR }, .ground⟩
  else .oob

/-- Lines 181-189: the byte read right after ESC. -/
def esc_byte (cfg : Config) (t : Term) (d : Nat) : Step :=
  if d ≠ 91 then .fatal (.unknown_sequence d)
  else if d = 0x1a ∧ cfg.includez = false then .ret t
  else .next ⟨t, .csi Seq.init⟩

/-- Lines 206-210: a pending digit run becomes the next parameter, if a slot is free. -/
def store_param (l : Seq) : Seq :=
  if 0 < l.nbuf.length ∧ l.np < 3 then
    { l with params := fun i => if i = l.np then atoi l.nbuf else l.params i,
             np := l.np + 1, nbuf := [] }
  else l

/-- The `for` loop of case 'm'. -/
def sgr_params (params : Nat → Int) (np : Nat) (r : Rendition) : Rendition :=
  (List.range np).foldl (fun r i => handle_sgr (params i) r) r

def Term.rendition (t : Term) : Rendition :=
  { curfg := t.curfg, curbg := t.curbg, curflags := t.curflags }

def Term.set_rendition (t : Term) (r : Rendition) : Term :=
  { t with curfg := r.curfg, curbg := r.curbg, curflags := r.curflags }

/-- The value given to `unsigned char delta` in cases A, B, C, D (with `np <= 1`). -/
def csi_delta (l : Seq) : Nat :=
  if l.np = 1 then to_uchar (l.params 0) else 1

/-- Lines 212-218, `case '?'`. -/
def case_ques (t : Term) (l : Seq) : Step :=
  if l.np ≠ 0 then .fatal .ques_after_param
  else .next ⟨t, .csi { l with quesflag := 1 }⟩

/-- Lines 219-221, `case ';'`. -/
def case_semi (t : Term) (l : Seq) : Step :=
  .next ⟨t, .csi { l with semicount := l.semicount + 1 }⟩

/-- Lines 222-234, `case 'm'`: set graphics (SGR) attributes. -/
def case_m (t : Term) (l : Seq) : Step :=
  if l.quesflag ≠ 0 then .fatal (.ques_form 109)
  else if l.np = 0 then .next ⟨t.set_rendition (handle_sgr 0 t.rendition), .ground⟩
  else .next ⟨t.set_rendition (sgr_params l.params l.np t.rendition), .ground⟩

/-- Lines 235-250, `case 'J'`: erase the display, only `CSI 2 J`. -/
def case_J (t : Term) (l : Seq) : Step :=
  if l.quesflag ≠ 0 then .fatal (.ques_form 74)
  else if l.np ≠ 1 then .fatal (.param_count 74)
  else if l.params 0 ≠ 2 then .fatal .unknown_param
  else .next ⟨{ t with screen := clear_screen t.screen, x := 0, y := 0 }, .ground⟩

/-- Lines 251-262, `case 'h'`: only `CSI ? 7 h`. -/
def case_h (t : Term) (l : Seq) : Step :=
  if l.quesflag ≠ 0 then
    if l.np ≠ 1 ∨ l.params 0 ≠ 7 then .fatal .mode_set
    else .next ⟨{ t with wrapping := 1 }, .ground⟩
  else .fatal .mode_set

/-- Lines 263-282, `case 'H'`: CUP, set the position. -/
def case_H (t : Term) (l : Seq) : Step :=
  if l.quesflag ≠ 0 then .fatal (.ques_form 72)
  else if l.np = 0 then .next ⟨{ t with x := 0, y := 0 }, .ground⟩
  else if l.np = 1 then
    if l.semicount = 0 then
      .next ⟨{ t with x := to_uint (MAX 0 (MIN (l.params 0 - 1) ((NROWS : Int) - 1))),
                      y := 0 }, .ground⟩
    else
      .next ⟨{ t with x := 0,
                      y := to_uchar (MAX 0 (MIN (l.params 0 - 1) ((NCOLS : Int) - 1))) },
             .ground⟩
  else if l.np = 2 then
    .next ⟨{ t with x := to_uint (MAX 0 (MIN (l.params 0 - 1) ((NROWS : Int) - 1))),
                    y := to_uchar (MAX 0 (MIN (l.params 1 - 1) ((NCOLS : Int) - 1))) },
           .ground⟩
  else .next ⟨t, .ground⟩

/-- Lines 283-290, `case 's'`: save the cursor position. -/
def case_s (t : Term) (l : Seq) : Step :=
  if l.quesflag ≠ 0 ∨ l.np ≠ 0 then .fatal (.save_restore_form 115)
  else .next ⟨{ t with savedx := t.x % UCHAR, savedy := t.y % UCHAR }, .ground⟩

/-- Lines 291-302, `case 'u'`: restore the cursor position. -/
def case_u (t : Term) (l : Seq) : Step :=
  if l.quesflag ≠ 0 ∨ l.np ≠ 0 then .fatal (.save_restore_form 117)
  else if t.savedx = 255 ∨ t.savedy = 255 then .fatal .restore_before_save
  else .next ⟨{ t with x := t.savedx, y := t.savedy }, .ground⟩

/-- Lines 303-321, `case 'A'`: move up. -/
def case_A (t : Term) (l : Seq) : Step :=
  if l.quesflag ≠ 0 then .fatal (.ques_form 65)
  else if l.np > 1 then .fatal (.param_count 65)
  else
    let delta := csi_delta l
    .next ⟨{ t with x := if delta > t.x then 0 else t.x - delta }, .ground⟩

/-- Lines 322-336, `case 'B'`: move down. -/
def case_B (t : Term) (l : Seq) : Step :=
  if l.quesflag ≠ 0 then .fatal (.ques_form 66)
  else if l.np > 1 then .fatal (.param_count 66)
  else
    let delta := csi_delta l
    .next ⟨{ t with x := MIN (NROWS - 1) ((t.x + delta) % UINT) }, .ground⟩

/-- Lines 337-351, `case 'C'`: move forward. -/
def case_C (t : Term) (l : Seq) : Step :=
  if l.quesflag ≠ 0 then .fatal (.ques_form 67)
  else if l.np > 1 then .fatal (.param_count 67)
  else
    let delta := csi_delta l
    .next ⟨{ t with y := MIN (NCOLS - 1) (t.y + delta) % UCHAR }, .ground⟩

/-- Lines 352-370, `case 'D'`: move back. -/
def case_D (t : Term) (l : Seq) : Step :=
  if l.quesflag ≠ 0 then .fatal (.ques_form 68)
  else if l.np > 1 then .fatal (.param_count 68)
  else
    let delta := csi_delta l
    .next ⟨{ t with y := if delta > t.y then 0 else t.y - delta }, .ground⟩

/-- Lines 211-376: the `switch (d)` on a byte that is not a digit. -/
def csi_switch (t : Term) (l : Seq) (d : Nat) : Step :=
  if d = 63 then case_ques t l
  else if d = 59 then case_semi t l
  else if d = 109 then case_m t l
  else if d = 74 then case_J t l
  else if d = 104 then case_h t l
  else if d = 72 then case_H t l
  else if d = 115 then case_s t l
  else if d = 117 then case_u t l
  else if d = 65 then case_A t l
  else if d = 66 then case_B t l
  else if d = 67 then case_C t l
  else if d = 68 then case_D t l
  else .fatal (.unknown_csi d)

/-- Lines 190-210: one iteration of the inner loop, up to the `switch`. -/
def csi_byte (cfg : Config) (t : Term) (l : Seq) (d : Nat) : Step :=
  let curseqlen := l.curseqlen + 1
  if curseqlen = MAXSEQLEN then .fatal .max_sequence_length
  else if d = 0x1a ∧ cfg.includez = false then .ret t
  else if isdigit d = true then
    if l.nbuf.length = 4 then .fatal .number_too_large
    else .next ⟨t, .csi { l with curseqlen := curseqlen, nbuf := l.nbuf ++ [d] }⟩
  else csi_switch t (store_param { l with curseqlen := curseqlen }) d

/-- One `fgetc` that returned the byte `b`. -/
def step (cfg : Config) (m : Machine) (b : Nat) : Step :=
  match m.mode with
  | .ground => if b ≠ 27 then plain_byte cfg m.t b else .next ⟨m.t, .esc⟩
  | .esc => esc_byte cfg m.t b
  | .csi l => csi_byte cfg m.t l b

/-- The bytes of `input` read one after the other, from the machine state `m`. -/
def run (cfg : Config) : Machine → List Nat → Step
  | m, [] => .next m
  | m, b :: bs =>
    match step cfg m b with
    | .next m1 => run cfg m1 bs
    | r => r

/-- How a call of `read_ansi` ends. -/
inductive Outcome
  /-- the function returned, leaving these values -/
  | returned (t : Term)
  /-- the process aborted in `doerror` -/
  | fatal (e : Fatal)
  /-- a store outside the array -/
  | oob

/-- What happens when `fgetc` returns `EOF`: right after ESC it is an error; at the
head of the outer loop the loop ends; in the inner loop the inner loop ends, and the
outer loop, reading `EOF` again, ends too. -/
def at_eof (m : Machine) : Outcome :=
  match m.mode with
  | .ground => .returned m.t
  | .esc => .fatal .eof_after_esc
  | .csi _ => .returned m.t

/-- How `read_ansi` ends once the run over the input has ended. -/
def finish : Step → Outcome
  | .next m => at_eof m
  | .ret t => .returned t
  | .fatal e => .fatal e
  | .oob => .oob

def read_ansi (cfg : Config) (input : List Nat) (screen : Screen) : Outcome :=
  finish (run cfg ⟨Term.init screen, .ground⟩ input)

/-! ## cp437_to_ascii, normalize, output_mirc and main -/

def mWHITE : Nat := 0
def mBLACK : Nat := 1
def mBLUE : Nat := 2
def mGREEN : Nat := 3
def mRED : Nat := 4
def mBROWN : Nat := 5
def mPURPLE : Nat := 6
def mORANGE : Nat := 7
def mYELLOW : Nat := 8
def mLTGREEN : Nat := 9
def mTEAL : Nat := 10
def mCYAN : Nat := 11
def mLTBLUE : Nat := 12
def mPINK : Nat := 13
def mGREY : Nat := 14
def mLTGREY : Nat := 15

/-- The table `sgr_to_mirc[]`; `sgr_to_mirc[k]` is `sgr_to_mirc.getD k 0`. -/
def sgr_to_mirc : List Nat :=
  [mBLACK, mRED, mGREEN, mYELLOW, mBLUE, mPURPLE, mCYAN, mLTGREY,
   mGREY, mPINK, mLTGREEN, mYELLOW, mLTBLUE, mPINK, mTEAL, mWHITE]

/-- The table `cp437_to_ascii_map[]`, sixteen entries a line from 0x00 to 0xf0;
`cp437_to_ascii_map[k]` is `cp437_to_ascii_map.getD k 0`. -/
def cp437_to_ascii_map : List Nat :=
  [
   32, 64, 64, 42, 120, 65, 42, 42, 42, 111, 42, 54, 81, 102, 77, 42,
   62, 60, 36, 33, 80, 83, 95, 36, 94, 118, 62, 60, 95, 45, 65, 118,
   32, 33, 34, 35, 36, 37, 38, 39, 40, 41, 42, 43, 44, 45, 46, 47,
   48, 49, 50, 51, 52, 53, 54, 55, 56, 57, 58, 59, 60, 61, 62, 63,
   64, 65, 66, 67, 68, 69, 70, 71, 72, 73, 74, 75, 76, 77, 78, 79,
   80, 81, 82, 83, 84, 85, 86, 87, 88, 89, 90, 91, 92, 93, 94, 95,
   96, 97, 98, 99, 100, 101, 102, 103, 104, 105, 106, 107, 108, 109, 110, 111,
   112, 113, 114, 115, 116, 117, 118, 119, 120, 121, 122, 123, 124, 125, 126, 94,
   67, 117, 101, 97, 97, 97, 97, 99, 101, 101, 101, 105, 105, 105, 65, 65,
   69, 37, 65, 111, 111, 111, 117, 117, 121, 79, 85, 99, 76, 89, 80, 102,
   97, 105, 111, 117, 110, 78, 126, 94, 63, 43, 43, 88, 75, 33, 60, 62,
   35, 64, 35, 124, 43, 43, 43, 43, 43, 43, 124, 43, 43, 43, 43, 43,
   43, 43, 43, 43, 45, 43, 43, 43, 43, 43, 43, 43, 43, 61, 43, 43,
   43, 43, 43, 43, 43, 43, 43, 43, 43, 43, 43, 32, 109, 124, 124, 34,
   97, 66, 114, 110, 69, 113, 117, 114, 73, 48, 42, 111, 42, 48, 69, 110,
   61, 43, 62, 60, 108, 106, 37, 61, 42, 46, 46, 106, 110, 50, 35, 32
  ]

/-- The body of the loops of `cp437_to_ascii`: what becomes of one cell. -/
def cp437_cell (c : achar_t) : achar_t :=
  let oldchar := ACCHAR c
  let rest :=
    if oldchar = 0x02 ∨ oldchar = 0xb2 ∨ oldchar = 0xdb then
      (ACREST c ^^^ ACF_BGBOLD) ^^^ ACF_INVERSE
    else if oldchar = 0xb1 then ACREST c ^^^ ACF_BOLD
    else ACREST c
  rest ||| cp437_to_ascii_map.getD oldchar 0

def cp437_to_ascii (screen : Screen) : Screen :=
  fun i j => if i < NROWS ∧ j < NCOLS then cp437_cell (screen i j) else screen i j

/-- The body of the loops of `normalize`: what becomes of one cell. -/
def normalize_cell (c : achar_t) : achar_t :=
  if c = default_char then c
  else
    let flags := ACFLAGS c
    let ch := ACCHAR c
    let fgcolor := if flags &&& ACF_BOLD ≠ 0 then ACFG c ||| 8 else ACFG c
    let bgcolor := if flags &&& ACF_BGBOLD ≠ 0 then ACBG c ||| 8 else ACBG c
    if flags &&& ACF_INVERSE ≠ 0 then AC ch bgcolor fgcolor 0
    else AC ch fgcolor bgcolor 0

def normalize (screen : Screen) : Screen :=
  fun i j => if i < NROWS ∧ j < NCOLS then normalize_cell (screen i j) else screen i j

/-- What `printf` writes for `%02d`: at least two decimal digits. -/
def fmt02d (n : Nat) : List Nat :=
  if n < 10 then [48, 48 + n] else (Nat.toDigits 10 n).map Char.toNat

/-- Lines 502-509 of `output_mirc`: the mIRC foreground colour of a cell. -/
def cell_fg (c : achar_t) : Nat :=
  if c = default_char then sgr_to_mirc.getD default_fg 0 else sgr_to_mirc.getD (ACFG c) 0

/-- Lines 502-509 of `output_mirc`: the mIRC background colour of a cell. -/
def cell_bg (c : achar_t) : Nat :=
  if c = default_char then sgr_to_mirc.getD default_bg 0 else sgr_to_mirc.getD (ACBG c) 0

/-- Lines 510-524 of `output_mirc`: the bytes `printf` writes before the glyph of a
cell of colours `fgcolor`, `bgcolor` when the variables hold `curfg`, `curbg`. -/
def color_escape (curfg curbg fgcolor bgcolor : Nat) : List Nat :=
  if curfg ≠ fgcolor ∨ curbg ≠ bgcolor then
    if curbg ≠ bgcolor then [3] ++ fmt02d fgcolor ++ [44] ++ fmt02d bgcolor
    else [3] ++ fmt02d fgcolor
  else []

/-- Lines 499-528 of `output_mirc`: the loop over the cells of a row, from the values
`curfg`, `curbg`; after each cell the two variables hold the colours of that cell. -/
def put_cells (curfg curbg : Nat) : List achar_t → List Nat
  | [] => []
  | c :: cs =>
    color_escape curfg curbg (cell_fg c) (cell_bg c) ++ [ACCHAR c] ++
      put_cells (cell_fg c) (cell_bg c) cs

/-- Lines 492-498 of `output_mirc`: the scan `for(j = NCOLS-1; j >= 0; j--)` that
stops at the last cell of the row other than `default_char`; with `n` columns left
to look at the result is `stopidx + 1`, the number of cells to print. -/
def stop_count (row : Nat → achar_t) : Nat → Nat
  | 0 => 0
  | n + 1 => if row n ≠ default_char then n + 1 else stop_count row n

/-- Lines 490-531 of `output_mirc`: the bytes written for one row. -/
def output_row (row : Nat → achar_t) : List Nat :=
  put_cells 65535 65535 ((List.range (stop_count row NCOLS)).map row) ++ [10]

/-- The test of lines 481-486: the row has a cell other than `default_char`. -/
def row_used (screen : Screen) (i : Nat) : Bool :=
  (List.range NCOLS).any (fun j => decide (screen i j ≠ default_char))

/-- Lines 480-487 of `output_mirc`: the value of `i` after the loop
`for(i = NROWS-1; i >= 0 && lasti == 0; i--)`, with `n` rows left to look at: the
loop stops after the decrement that follows the first used row it meets. -/
def last_scan (screen : Screen) : Nat → Int
  | 0 => -1
  | n + 1 => if row_used screen n = true then (n : Int) - 1 else last_scan screen n

/-- The loop `for(i = colstart; i < lasti; i++)` with `n` rows left to print from `i`. -/
def output_rows (screen : Screen) : Nat → Nat → List Nat
  | _, 0 => []
  | i, n + 1 => output_row (screen i) ++ output_rows screen (i + 1) n

/-- The bytes `output_mirc` writes on stdout. -/
def output_mirc (screen : Screen) (colstart colend : Nat) : List Nat :=
  let lasti := MIN (colend : Int) (last_scan screen NROWS + 2)
  output_rows screen colstart (lasti.toNat - colstart)

/-- The body of `main` after the options are read: the bytes written on stdout, or
`none` when `read_ansi` does not return.  The array is cleared before it is used, so
what it held does not matter. -/
def main (cfg : Config) (colstart colend : Nat) (input : List Nat) : Option (List Nat) :=
  match read_ansi cfg input (clear_screen (fun _ _ => 0)) with
  | .returned t => some (output_mirc (normalize (cp437_to_ascii t.screen)) colstart colend)
  | _ => none

/-! ## Vocabulary of the statements -/

/-- The values the rendition variables take. -/
def Rendition.Inv (r : Rendition) : Prop :=
  r.curfg ≤ 7 ∧ r.curbg ≤ 7 ∧
  (r.curflags = 0 ∨ r.curflags = ACF_BOLD ∨ r.curflags = ACF_UNDERLINE ∨
   r.curflags = ACF_BLINK ∨ r.curflags = ACF_INVERSE)

/-- The invariant of the outer-loop variables of `read_ansi`. -/
def Term.Inv (t : Term) : Prop :=
  t.x ≤ 1023 ∧ t.y ≤ 79 ∧ t.savedx ≤ 255 ∧ (t.savedy ≤ 79 ∨ t.savedy = 255) ∧
  t.wrapping = 1 ∧ t.rendition.Inv

/-- The machine states `read_ansi` passes through on some input, whatever the array
it is given holds. -/
def Reachable (cfg : Config) (m : Machine) : Prop :=
  ∃ (screen : Screen) (input : List Nat), run cfg ⟨Term.init screen, .ground⟩ input = .next m

/-- A step result keeps the invariant and is not an out-of-bounds store. -/
def Step.Safe : Step → Prop
  | .next m => m.t.Inv
  | .ret t => t.Inv
  | .fatal _ => True
  | .oob => False

/-- A byte that does not end a CSI sequence: a digit, `;` or `?`. -/
def is_param_byte (d : Nat) : Bool := isdigit d || d == 59 || d == 63

/-- The decimal digits (as ASCII bytes) of a number below 10000, without leading zeros. -/
def decimal (n : Nat) : List Nat :=
  if n < 10 then [48 + n]
  else if n < 100 then [48 + n / 10, 48 + n % 10]
  else if n < 1000 then [48 + n / 100, 48 + n / 10 % 10, 48 + n % 10]
  else [48 + n / 1000 % 10, 48 + n / 100 % 10, 48 + n / 10 % 10, 48 + n % 10]

/-- A screen to run the examples on. -/
def blank : Screen := fun _ _ => default_char

/-- Following the spec's words: a flag set as the five independent style flags. -/
def flag_set (bold underline blink inverse bgbold : Bool) : Nat :=
  (if bold then ACF_BOLD else 0) ||| (if underline then ACF_UNDERLINE else 0) |||
  (if blink then ACF_BLINK else 0) ||| (if inverse then ACF_INVERSE else 0) |||
  (if bgbold then ACF_BGBOLD else 0)

/-- Following the spec's words: f1 = fg + 8 if Bold else fg; b1 = bg + 8 if BgBold else
bg; the resolved pair (fg', bg') is (b1, f1) if Inverse else (f1, b1). -/
def resolved_colors (fg bg : Nat) (bold inverse bgbold : Bool) : Nat × Nat :=
  let f1 := if bold then fg + 8 else fg
  let b1 := if bgbold then bg + 8 else bg
  if inverse then (b1, f1) else (f1, b1)

/-- The bytes written before the glyph of column `j` of a row, as the claim describes
them: the escape `color_escape` gives for the colours of the cell at column `j - 1`
(the start values 65535, 65535 at column 0) and the colours of the cell at column `j`. -/
def escape_at (row : Nat → achar_t) (j : Nat) : List Nat :=
  if j = 0 then color_escape 65535 65535 (cell_fg (row 0)) (cell_bg (row 0))
  else color_escape (cell_fg (row (j - 1))) (cell_bg (row (j - 1)))
    (cell_fg (row j)) (cell_bg (row j))

/-- Every cell of the grid is `default_char` or holds a byte of `input` written with
the default rendition (fg 7, bg 0, no flags). -/
def PlainScreen (input : List Nat) (screen : Screen) : Prop :=
  ∀ i j, i < NROWS → j < NCOLS →
    screen i j = default_char ∨ ∃ b, b ∈ input ∧ screen i j = AC b 7 0 0

/-- Following the claim's words, "the interpreter wrote it": the byte `b`, read in the
state `m`, goes to the store `screen[x][y] = AC(c, curfg, curbg, curflags)` of line 170,
the only store into the array besides `clear_screen`: it is read at the head of the
outer loop and is none of ESC, line feed, carriage return, an expanded tab, and the
EOF marker. -/
def is_write (cfg : Config) (m : Machine) (b : Nat) : Bool :=
  match m.mode with
  | .ground => decide (b ≠ 27 ∧ b ≠ 0xa ∧ b ≠ 0xd ∧ ¬ (b = 0x9 ∧ cfg.expandtab = true) ∧
      ¬ (b = 0x1a ∧ cfg.includez = false))
  | _ => false

/-- Following the claim's words, "the last clear": the byte `b`, read in the state `m`,
is the `J` of an accepted `CSI 2 J`, the only call of `clear_screen` in `read_ansi`. -/
def is_clear (cfg : Config) (m : Machine) (b : Nat) : Bool :=
  match m.mode, step cfg m b with
  | .csi _, .next _ => b == 74
  | _, _ => false

/-- The cells written since the last clear, after the byte `b` was read in the state
`m`, from those written before. -/
def mark (cfg : Config) (m : Machine) (b : Nat) (w : Nat → Nat → Bool) : Nat → Nat → Bool :=
  if is_clear cfg m b = true then fun _ _ => false
  else if is_write cfg m b = true then fun i j => if i = m.t.x ∧ j = m.t.y then true else w i j
  else w

/-- The cells written since the last clear once `input` was read from the state `m`,
along the steps of `run`. -/
def written (cfg : Config) : Machine → List Nat → (Nat → Nat → Bool) → Nat → Nat → Bool
  | _, [], w => w
  | m, b :: bs, w =>
    match step cfg m b with
    | .next m1 => written cfg m1 bs (mark cfg m b w)
    | _ => w

/-- The cells written since the last clear when `read_ansi` has read `input`; the array
is cleared before the call. -/
def never_written (cfg : Config) (input : List Nat) (screen : Screen) (i j : Nat) : Prop :=
  written cfg ⟨Term.init screen, .ground⟩ input (fun _ _ => false) i j = false

/-- The array agrees with the record `w` of the written cells: a cell of the grid not
written holds `default_char`, a written one holds a cell without the flag
`ACF_UNCHANGED` (bit 21). -/
def Tracks (w : Nat → Nat → Bool) (screen : Screen) : Prop :=
  ∀ i j, i < NROWS → j < NCOLS →
    if w i j = true then (screen i j).testBit 21 = false else screen i j = default_char

/-! ## The sequences that end in `h` (claim C18) -/

/-- Following the claim's words, a sequence `ESC [ ps h` that "carries the `?`
private-mode flag and exactly one parameter equal to 7", with the conditions under which
its bytes are read up to the `h`: `ps` is a run of `;` and `?` bytes with at least one
`?`, then one to four digits of value 7, then a run of `;` bytes, and `ps` has at
most 62 bytes, so that `h` is at most the 63rd byte after `ESC [`. -/
def ModeSetForm (ps : List Nat) : Prop :=
  ∃ pre ds post : List Nat, ps = pre ++ ds ++ post ∧
    (∀ p ∈ pre, p = 59 ∨ p = 63) ∧ 63 ∈ pre ∧
    (∀ d ∈ ds, isdigit d = true) ∧ 1 ≤ ds.length ∧ ds.length ≤ 4 ∧ atoi ds = 7 ∧
    (∀ p ∈ post, p = 59) ∧ ps.length ≤ 62

/-- What the locals of the inner loop hold after the parameter bytes `q` of a sequence:
no digit read yet; inside the first run of digits; after the first run of digits and
bytes `;`; or a second parameter begun or stored. -/
def SeqPhase (q : List Nat) (l : Seq) : Prop :=
  ((∀ p ∈ q, p = 59 ∨ p = 63) ∧ l.np = 0 ∧ l.nbuf = [] ∧ (l.quesflag ≠ 0 ↔ 63 ∈ q)) ∨
  (∃ pre ds : List Nat, q = pre ++ ds ∧ (∀ p ∈ pre, p = 59 ∨ p = 63) ∧
    (∀ d ∈ ds, isdigit d = true) ∧ 1 ≤ ds.length ∧ ds.length ≤ 4 ∧
    l.np = 0 ∧ l.nbuf = ds ∧ (l.quesflag ≠ 0 ↔ 63 ∈ pre)) ∨
  (∃ pre ds post : List Nat, q = pre ++ ds ++ post ∧ (∀ p ∈ pre, p = 59 ∨ p = 63) ∧
    (∀ d ∈ ds, isdigit d = true) ∧ 1 ≤ ds.length ∧ ds.length ≤ 4 ∧
    (∀ p ∈ post, p = 59) ∧
    l.np = 1 ∧ l.nbuf = [] ∧ l.params 0 = atoi ds ∧ (l.quesflag ≠ 0 ↔ 63 ∈ pre)) ∨
  (2 ≤ l.np ∨ (l.np = 1 ∧ l.nbuf ≠ []))

/-! ## The text on the grid (claim C15) -/

/-- Following the words of claim C15, "the bytes written to that row (input lines
longer than 80 bytes continuing on the next row)": a sheet of 1024 rows of 80 places,
the place of the pen, and the byte last written in each place. -/
structure Sheet where
  row : Nat
  col : Nat
  cells : Nat → Nat → Option Nat

def Sheet.start : Sheet := { row := 0, col := 0, cells := fun _ _ => none }

theorem MIN_nat (x y : Nat) : MIN x y = min x y := by
  unfold MIN; split_ifs <;> omega

theorem MIN_int (x y : Int) : MIN x y = min x y := by
  unfold MIN; split_ifs <;> omega

theorem MAX_int (x y : Int) : MAX x y = max x y := by
  unfold MAX; split_ifs <;> omega

theorem ACCHAR_AC (chr fg bg flags : Nat) : ACCHAR (AC chr fg bg flags) = chr % 256 := by
  unfold ACCHAR AC
  apply Nat.eq_of_testBit_eq
  intro i
  rw [show (0xffff0000 : Nat) = (2 ^ 16 - 1) <<< 16 by decide, show chr % 256 = chr % 2 ^ 8 by norm_num,
    show (0xff : Nat) = 2 ^ 8 - 1 by norm_num, show (0xf : Nat) = 2 ^ 4 - 1 by norm_num]
  simp only [Nat.testBit_and, Nat.testBit_or, Nat.testBit_shiftLeft, Nat.testBit_two_pow_sub_one, Nat.testBit_mod_two_pow]
  by_cases h : i < 8
  · have : ¬ (i ≥ 12) := by omega
    have : ¬ (i ≥ 16) := by omega
    simp [*]
  · simp [h]

theorem ACFG_AC (chr fg bg flags : Nat) : ACFG (AC chr fg bg flags) = fg % 16 := by
  unfold ACFG AC
  apply Nat.eq_of_testBit_eq
  intro i
  rw [show (0xffff0000 : Nat) = (2 ^ 16 - 1) <<< 16 by decide, show fg % 16 = fg % 2 ^ 4 by norm_num,
    show (0xff : Nat) = 2 ^ 8 - 1 by norm_num, show (0xf : Nat) = 2 ^ 4 - 1 by norm_num]
  simp only [Nat.testBit_and, Nat.testBit_or, Nat.testBit_shiftLeft, Nat.testBit_shiftRight,
    Nat.testBit_two_pow_sub_one, Nat.testBit_mod_two_pow]
  by_cases h : i < 4
  · have : ¬ (8 + i < 8) := by omega
    have : ¬ (8 + i ≥ 12) := by omega
    have : ¬ (8 + i ≥ 16) := by omega
    simp [*]
  · simp [h]

theorem ACBG_AC (chr fg bg flags : Nat) : ACBG (AC chr fg bg flags) = bg % 16 := by
  unfold ACBG AC
  apply Nat.eq_of_testBit_eq
  intro i
  rw [show (0xffff0000 : Nat) = (2 ^ 16 - 1) <<< 16 by decide, show bg % 16 = bg % 2 ^ 4 by norm_num,
    show (0xff : Nat) = 2 ^ 8 - 1 by norm_num, show (0xf : Nat) = 2 ^ 4 - 1 by norm_num]
  simp only [Nat.testBit_and, Nat.testBit_or, Nat.testBit_shiftLeft, Nat.testBit_shiftRight,
    Nat.testBit_two_pow_sub_one, Nat.testBit_mod_two_pow]
  by_cases h : i < 4
  · have : ¬ (12 + i < 8) := by omega
    have : ¬ (12 + i - 8 < 4) := by omega
    have : ¬ (12 + i ≥ 16) := by omega
    simp [*]
  · simp [h]

theorem ACFLAGS_AC (chr fg bg flags : Nat) :
    ACFLAGS (AC chr fg bg flags) = flags &&& 0xffff0000 := by
  unfold ACFLAGS AC
  apply Nat.eq_of_testBit_eq
  intro i
  rw [show (0xffff0000 : Nat) = (2 ^ 16 - 1) <<< 16 by decide,
    show (0xff : Nat) = 2 ^ 8 - 1 by norm_num, show (0xf : Nat) = 2 ^ 4 - 1 by norm_num]
  simp only [Nat.testBit_and, Nat.testBit_or, Nat.testBit_shiftLeft, Nat.testBit_shiftRight,
    Nat.testBit_two_pow_sub_one, Nat.testBit_mod_two_pow]
  by_cases h : i ≥ 16
  · have : ¬ (i < 8) := by omega
    have : ¬ (i - 8 < 4) := by omega
    have : ¬ (i - 12 < 4) := by omega
    simp [*]
  · simp [h]

/-! ## The invariant -/

theorem handle_sgr_inv (code : Int) (r : Rendition) (h : r.Inv) : (handle_sgr code r).Inv := by
  obtain ⟨h1, h2, h3⟩ := h
  unfold handle_sgr
  split_ifs <;> simp_all [Rendition.Inv, default_fg, default_bg, aWHITE, aBLACK]

theorem foldl_sgr_inv (params : Nat → Int) (is : List Nat) (r : Rendition) (h : r.Inv) :
    (is.foldl (fun r i => handle_sgr (params i) r) r).Inv := by
  induction is generalizing r with
  | nil => simpa using h
  | cons i is ih => exact ih _ (handle_sgr_inv _ _ h)

theorem sgr_params_inv (params : Nat → Int) (np : Nat) (r : Rendition) (h : r.Inv) :
    (sgr_params params np r).Inv :=
  foldl_sgr_inv params _ r h

theorem init_inv (screen : Screen) : (Term.init screen).Inv := by
  simp [Term.Inv, Term.init, Term.rendition, Rendition.Inv, aWHITE, aBLACK]

theorem plain_byte_safe (cfg : Config) (t : Term) (c : Nat) (h : t.Inv) :
    (plain_byte cfg t c).Safe := by
  have h0 := h
  obtain ⟨hx, hy, hsx, hsy, hw, hr⟩ := h
  unfold plain_byte
  simp only [NROWS, NCOLS, UINT, UCHAR, MIN_nat]
  split_ifs <;> simp only [Step.Safe] <;> first
    | exact h0
    | omega
    | (refine ⟨?_, ?_, hsx, hsy, hw, hr⟩ <;> simp only [] <;> omega)

theorem case_m_safe (t : Term) (l : Seq) (h : t.Inv) : (case_m t l).Safe := by
  obtain ⟨hx, hy, hsx, hsy, hw, hr⟩ := h
  unfold case_m
  split_ifs <;> simp only [Step.Safe]
  · exact ⟨hx, hy, hsx, hsy, hw, handle_sgr_inv 0 _ hr⟩
  · exact ⟨hx, hy, hsx, hsy, hw, sgr_params_inv _ _ _ hr⟩

theorem case_J_safe (t : Term) (l : Seq) (h : t.Inv) : (case_J t l).Safe := by
  obtain ⟨hx, hy, hsx, hsy, hw, hr⟩ := h
  unfold case_J
  split_ifs <;> simp only [Step.Safe]
  exact ⟨by simp, by simp, hsx, hsy, hw, hr⟩

theorem case_h_safe (t : Term) (l : Seq) (h : t.Inv) : (case_h t l).Safe := by
  obtain ⟨hx, hy, hsx, hsy, hw, hr⟩ := h
  unfold case_h
  split_ifs <;> simp only [Step.Safe]
  exact ⟨hx, hy, hsx, hsy, rfl, hr⟩

theorem case_H_safe (t : Term) (l : Seq) (h : t.Inv) : (case_H t l).Safe := by
  have h0 := h
  obtain ⟨hx, hy, hsx, hsy, hw, hr⟩ := h
  unfold case_H
  simp only [NROWS, NCOLS, to_uint, to_uchar, MIN_int, MAX_int]
  split_ifs <;> simp only [Step.Safe] <;> first
    | exact h0
    | (refine ⟨?_, ?_, hsx, hsy, hw, hr⟩ <;> simp only [] <;> omega)

theorem case_s_safe (t : Term) (l : Seq) (h : t.Inv) : (case_s t l).Safe := by
  obtain ⟨hx, hy, hsx, hsy, hw, hr⟩ := h
  unfold case_s
  simp only [UCHAR]
  split_ifs <;> simp only [Step.Safe]
  refine ⟨hx, hy, ?_, ?_, hw, hr⟩ <;> simp only [] <;> omega

theorem case_u_safe (t : Term) (l : Seq) (h : t.Inv) : (case_u t l).Safe := by
  obtain ⟨hx, hy, hsx, hsy, hw, hr⟩ := h
  unfold case_u
  split_ifs <;> simp only [Step.Safe]
  refine ⟨?_, ?_, hsx, hsy, hw, hr⟩ <;> simp only [] <;> omega

theorem csi_delta_lt (l : Seq) : csi_delta l < 256 := by
  unfold csi_delta to_uchar
  split_ifs <;> omega

theorem case_A_safe (t : Term) (l : Seq) (h : t.Inv) : (case_A t l).Safe := by
  obtain ⟨hx, hy, hsx, hsy, hw, hr⟩ := h
  unfold case_A
  split_ifs <;> simp only [Step.Safe]
  refine ⟨?_, hy, hsx, hsy, hw, hr⟩
  simp only []
  split_ifs <;> omega

theorem case_B_safe (t : Term) (l : Seq) (h : t.Inv) : (case_B t l).Safe := by
  obtain ⟨hx, hy, hsx, hsy, hw, hr⟩ := h
  unfold case_B
  simp only [NROWS, UINT, MIN_nat]
  split_ifs <;> simp only [Step.Safe]
  refine ⟨?_, hy, hsx, hsy, hw, hr⟩
  simp only []
  omega

theorem case_C_safe (t : Term) (l : Seq) (h : t.Inv) : (case_C t l).Safe := by
  obtain ⟨hx, hy, hsx, hsy, hw, hr⟩ := h
  unfold case_C
  simp only [NCOLS, UCHAR, MIN_nat]
  split_ifs <;> simp only [Step.Safe]
  refine ⟨hx, ?_, hsx, hsy, hw, hr⟩
  simp only []
  omega

theorem case_D_safe (t : Term) (l : Seq) (h : t.Inv) : (case_D t l).Safe := by
  obtain ⟨hx, hy, hsx, hsy, hw, hr⟩ := h
  unfold case_D
  split_ifs <;> simp only [Step.Safe]
  refine ⟨hx, ?_, hsx, hsy, hw, hr⟩
  simp only []
  split_ifs <;> omega

theorem case_ques_safe (t : Term) (l : Seq) (h : t.Inv) : (case_ques t l).Safe := by
  unfold case_ques
  split_ifs <;> simp only [Step.Safe]
  exact h

theorem csi_switch_safe (t : Term) (l : Seq) (d : Nat) (h : t.Inv) :
    (csi_switch t l d).Safe := by
  unfold csi_switch
  by_cases h1 : d = 63
  · rw [if_pos h1]; exact case_ques_safe t l h
  rw [if_neg h1]
  by_cases h2 : d = 59
  · rw [if_pos h2]; exact h
  rw [if_neg h2]
  by_cases h3 : d = 109
  · rw [if_pos h3]; exact case_m_safe t l h
  rw [if_neg h3]
  by_cases h4 : d = 74
  · rw [if_pos h4]; exact case_J_safe t l h
  rw [if_neg h4]
  by_cases h5 : d = 104
  · rw [if_pos h5]; exact case_h_safe t l h
  rw [if_neg h5]
  by_cases h6 : d = 72
  · rw [if_pos h6]; exact case_H_safe t l h
  rw [if_neg h6]
  by_cases h7 : d = 115
  · rw [if_pos h7]; exact case_s_safe t l h
  rw [if_neg h7]
  by_cases h8 : d = 117
  · rw [if_pos h8]; exact case_u_safe t l h
  rw [if_neg h8]
  by_cases h9 : d = 65
  · rw [if_pos h9]; exact case_A_safe t l h
  rw [if_neg h9]
  by_cases h10 : d = 66
  · rw [if_pos h10]; exact case_B_safe t l h
  rw [if_neg h10]
  by_cases h11 : d = 67
  · rw [if_pos h11]; exact case_C_safe t l h
  rw [if_neg h11]
  by_cases h12 : d = 68
  · rw [if_pos h12]; exact case_D_safe t l h
  rw [if_neg h12]
  trivial

theorem step_safe (cfg : Config) (m : Machine) (b : Nat) (h : m.t.Inv) :
    (step cfg m b).Safe := by
  unfold step
  split
  · split_ifs
    · exact plain_byte_safe cfg _ b h
    · exact h
  · unfold esc_byte
    split_ifs <;> simp only [Step.Safe] <;> exact h
  · unfold csi_byte
    simp only []
    split_ifs <;> simp only [Step.Safe] <;> first
      | exact h
      | exact csi_switch_safe _ _ _ h

theorem run_safe (cfg : Config) (input : List Nat) (m : Machine) (h : m.t.Inv) :
    (run cfg m input).Safe := by
  induction input generalizing m with
  | nil => exact h
  | cons b bs ih =>
    have hs := step_safe cfg m b h
    unfold run
    split
    · next m1 hm1 => rw [hm1] at hs; exact ih m1 hs
    · next r hr => exact hs

theorem reachable_inv (cfg : Config) (m : Machine) (h : Reachable cfg m) : m.t.Inv := by
  obtain ⟨screen, input, hrun⟩ := h
  have := run_safe cfg input ⟨Term.init screen, .ground⟩ (init_inv screen)
  rw [hrun] at this
  exact this

/-! ## C1: the plain-byte write step -/

theorem flags_mask (r : Rendition) (h : r.Inv) : r.curflags &&& 0xffff0000 = r.curflags := by
  obtain ⟨_, _, h3⟩ := h
  rcases h3 with h3 | h3 | h3 | h3 | h3 <;> rw [h3] <;> decide

theorem step_plain (cfg : Config) (t : Term) (b : Nat) (hinv : t.Inv)
    (hesc : b ≠ 0x1b) (hlf : b ≠ 0x0a) (hcr : b ≠ 0x0d)
    (htab : ¬ (b = 0x09 ∧ cfg.expandtab = true))
    (heof : ¬ (b = 0x1a ∧ cfg.includez = false)) :
    step cfg ⟨t, .ground⟩ b = .next ⟨{ t with
      screen := screen_set t.screen t.x t.y (AC b t.curfg t.curbg t.curflags),
      x := if t.y < 79 then t.x else min (t.x + 1) 1023,
      y := if t.y < 79 then t.y + 1 else 0 }, .ground⟩ := by
  obtain ⟨hx, hy, -, -, hw, -⟩ := hinv
  have hx1 : MIN (NROWS - 1) ((t.x + (t.y + 1) % UCHAR / NCOLS) % UINT) =
      if t.y < 79 then t.x else min (t.x + 1) 1023 := by
    simp only [MIN_nat, NROWS, NCOLS, UINT, UCHAR]
    split_ifs <;> omega
  have hy1 : (t.y + 1) % UCHAR % NCOLS = if t.y < 79 then t.y + 1 else 0 := by
    simp only [NCOLS, UCHAR]
    split_ifs <;> omega
  simp only [step, plain_byte]
  rw [if_pos hesc, if_neg hlf, if_neg hcr, if_neg htab, if_neg heof,
    if_pos (by simp only [NROWS, NCOLS]; omega), if_pos (by omega), hx1, hy1]

/-- C1: in every reachable state at the head of the outer loop, with cursor
`(t.x, t.y)` and rendition `(t.curfg, t.curbg, t.curflags)`, a byte `b` that is not
ESC, LF, CR, not TAB with tab expansion on and not 0x1a with stop-on-EOF on is stored
at the cursor as the cell with glyph `b`, colours `curfg`, `curbg` and flags `curflags`;
every other cell and the rendition are unchanged; the cursor moves to `(x, y+1)` when
`y < 79` and to `(min (x+1) 1023, 0)` when `y = 79`. -/
theorem plain_byte_write (cfg : Config) (t : Term) (b : Nat)
    (hreach : Reachable cfg ⟨t, .ground⟩) (hb : b < 256)
    (hesc : b ≠ 0x1b) (hlf : b ≠ 0x0a) (hcr : b ≠ 0x0d)
    (htab : ¬ (b = 0x09 ∧ cfg.expandtab = true))
    (heof : ¬ (b = 0x1a ∧ cfg.includez = false)) :
    ∃ t1 : Term, step cfg ⟨t, .ground⟩ b = .next ⟨t1, .ground⟩ ∧
      t1.screen t.x t.y = AC b t.curfg t.curbg t.curflags ∧
      ACCHAR (t1.screen t.x t.y) = b ∧ ACFG (t1.screen t.x t.y) = t.curfg ∧
      ACBG (t1.screen t.x t.y) = t.curbg ∧ ACFLAGS (t1.screen t.x t.y) = t.curflags ∧
      (∀ i j, ¬ (i = t.x ∧ j = t.y) → t1.screen i j = t.screen i j) ∧
      t1.curfg = t.curfg ∧ t1.curbg = t.curbg ∧ t1.curflags = t.curflags ∧
      t1.savedx = t.savedx ∧ t1.savedy = t.savedy ∧ t1.wrapping = t.wrapping ∧
      t.x ≤ 1023 ∧ t.y ≤ 79 ∧
      (t.y < 79 → t1.x = t.x ∧ t1.y = t.y + 1) ∧
      (t.y = 79 → t1.x = min (t.x + 1) 1023 ∧ t1.y = 0) := by
  have hinv : t.Inv := reachable_inv cfg _ hreach
  have hstep := step_plain cfg t b hinv hesc hlf hcr htab heof
  obtain ⟨hx, hy, hsx, hsy, hw, hr⟩ := hinv
  have hfl := flags_mask _ hr
  obtain ⟨hfg, hbg, -⟩ := hr
  simp only [Term.rendition] at hfg hbg hfl
  refine ⟨_, hstep, ?_, ?_, ?_, ?_, ?_, ?_, rfl, rfl, rfl, rfl, rfl, rfl, hx, hy, ?_, ?_⟩
  · simp [screen_set]
  · simp only [screen_set, and_self, if_true, ACCHAR_AC]; omega
  · simp only [screen_set, and_self, if_true, ACFG_AC]; omega
  · simp only [screen_set, and_self, if_true, ACBG_AC]; omega
  · simp only [screen_set, and_self, if_true, ACFLAGS_AC]; exact hfl
  · intro i j hij
    simp only [screen_set, if_neg hij]
  · intro hlt
    simp only [if_pos hlt, and_self]
  · intro heq
    simp only [heq, lt_irrefl, if_false, and_self]

/-- C1 at the first byte `A` of an input: the byte is stored at `(0, 0)` with the
initial rendition and the cursor moves to `(0, 1)`. -/
theorem plain_byte_write_witness :
    ∃ t1 : Term, step ⟨false, false⟩ ⟨Term.init blank, .ground⟩ 65 = .next ⟨t1, .ground⟩ ∧
      t1.screen 0 0 = AC 65 7 0 0 ∧ t1.x = 0 ∧ t1.y = 1 := by
  obtain ⟨t1, h1, h2, -, -, -, -, -, -, -, -, -, -, -, -, -, h3, -⟩ :=
    plain_byte_write ⟨false, false⟩ (Term.init blank) 65 ⟨blank, [], rfl⟩
      (by decide) (by decide) (by decide) (by decide) (by decide) (by decide)
  exact ⟨t1, h1, h2, (h3 (by decide)).1, (h3 (by decide)).2⟩

/-! ## C2: the SGR table -/

/-- C2: `handle_sgr` follows the SGR table for every integer code and every prior
rendition: 0 resets to fg 7, bg 0, no flags; 1, 4, 5, 7 replace the flags by Bold,
Underline, Blink, Inverse alone; 30..37 set fg to code-30; 39 sets fg to 7; 40..47 set
bg to code-40; every other code changes nothing. -/
theorem handle_sgr_table (code : Int) (r : Rendition) :
    (code = 0 → handle_sgr code r = { curfg := 7, curbg := 0, curflags := 0 }) ∧
    (code = 1 → handle_sgr code r = { r with curflags := ACF_BOLD }) ∧
    (code = 4 → handle_sgr code r = { r with curflags := ACF_UNDERLINE }) ∧
    (code = 5 → handle_sgr code r = { r with curflags := ACF_BLINK }) ∧
    (code = 7 → handle_sgr code r = { r with curflags := ACF_INVERSE }) ∧
    (30 ≤ code ∧ code ≤ 37 → handle_sgr code r = { r with curfg := (code - 30).toNat }) ∧
    (code = 39 → handle_sgr code r = { r with curfg := 7 }) ∧
    (40 ≤ code ∧ code ≤ 47 → handle_sgr code r = { r with curbg := (code - 40).toNat }) ∧
    (code ≠ 0 ∧ code ≠ 1 ∧ code ≠ 4 ∧ code ≠ 5 ∧ code ≠ 7 ∧ ¬ (30 ≤ code ∧ code ≤ 37) ∧
      code ≠ 39 ∧ ¬ (40 ≤ code ∧ code ≤ 47) → handle_sgr code r = r) := by
  refine ⟨?_, ?_, ?_, ?_, ?_, ?_, ?_, ?_, ?_⟩
  · intro h; subst h; rfl
  · intro h; subst h; rfl
  · intro h; subst h; rfl
  · intro h; subst h; rfl
  · intro h; subst h; rfl
  · intro h
    unfold handle_sgr
    rw [if_neg (by omega), if_neg (by omega), if_neg (by omega), if_neg (by omega),
      if_neg (by omega), if_pos h]
  · intro h; subst h; rfl
  · intro h
    unfold handle_sgr
    rw [if_neg (by omega), if_neg (by omega), if_neg (by omega), if_neg (by omega),
      if_neg (by omega), if_neg (by omega), if_neg (by omega), if_pos h]
  · rintro ⟨h0, h1, h4, h5, h7, h30, h39, h40⟩
    unfold handle_sgr
    rw [if_neg h0, if_neg h1, if_neg h4, if_neg h5, if_neg h7, if_neg h30, if_neg h39,
      if_neg h40]
    split_ifs <;> rfl

/-- C2 at the codes 8, 48, 53, 55 and 31 with a bold green-on-blue rendition. -/
theorem handle_sgr_table_witness :
    handle_sgr 8 ⟨2, 4, ACF_BOLD⟩ = ⟨2, 4, ACF_BOLD⟩ ∧
    handle_sgr 48 ⟨2, 4, ACF_BOLD⟩ = ⟨2, 4, ACF_BOLD⟩ ∧
    handle_sgr 53 ⟨2, 4, ACF_BOLD⟩ = ⟨2, 4, ACF_BOLD⟩ ∧
    handle_sgr 55 ⟨2, 4, ACF_BOLD⟩ = ⟨2, 4, ACF_BOLD⟩ ∧
    handle_sgr 31 ⟨2, 4, ACF_BOLD⟩ = ⟨1, 4, ACF_BOLD⟩ :=
  ⟨(handle_sgr_table 8 _).2.2.2.2.2.2.2.2 (by decide),
   (handle_sgr_table 48 _).2.2.2.2.2.2.2.2 (by decide),
   (handle_sgr_table 53 _).2.2.2.2.2.2.2.2 (by decide),
   (handle_sgr_table 55 _).2.2.2.2.2.2.2.2 (by decide),
   (handle_sgr_table 31 ⟨2, 4, ACF_BOLD⟩).2.2.2.2.2.1 (by decide)⟩

/-! ## Running over a sequence -/

theorem run_cons (cfg : Config) (m : Machine) (b : Nat) (bs : List Nat) :
    run cfg m (b :: bs) = match step cfg m b with
      | .next m1 => run cfg m1 bs
      | r => r := by
  rw [run]

theorem run_next (cfg : Config) (m m1 : Machine) (b : Nat) (bs : List Nat)
    (h : step cfg m b = .next m1) : run cfg m (b :: bs) = run cfg m1 bs := by
  rw [run_cons, h]

theorem run_fatal (cfg : Config) (m : Machine) (b : Nat) (bs : List Nat) (e : Fatal)
    (h : step cfg m b = .fatal e) : run cfg m (b :: bs) = .fatal e := by
  rw [run_cons, h]

theorem run_ret (cfg : Config) (m : Machine) (b : Nat) (bs : List Nat) (t : Term)
    (h : step cfg m b = .ret t) : run cfg m (b :: bs) = .ret t := by
  rw [run_cons, h]

theorem run_append_next (cfg : Config) (m m1 : Machine) (as bs : List Nat)
    (h : run cfg m as = .next m1) : run cfg m (as ++ bs) = run cfg m1 bs := by
  induction as generalizing m with
  | nil => simp only [run, Step.next.injEq] at h; subst h; rfl
  | cons a as ih =>
    rw [List.cons_append]
    rw [run_cons] at h ⊢
    cases hs : step cfg m a with
    | next m2 => rw [hs] at h; exact ih m2 h
    | ret t => rw [hs] at h; exact absurd h (by simp)
    | fatal e => rw [hs] at h; exact absurd h (by simp)
    | oob => rw [hs] at h; exact absurd h (by simp)

theorem run_append_fatal (cfg : Config) (m : Machine) (as bs : List Nat) (e : Fatal)
    (h : run cfg m as = .fatal e) : run cfg m (as ++ bs) = .fatal e := by
  induction as generalizing m with
  | nil => simp [run] at h
  | cons a as ih =>
    rw [List.cons_append]
    rw [run_cons] at h ⊢
    cases hs : step cfg m a with
    | next m2 => rw [hs] at h; exact ih m2 h
    | ret t => rw [hs] at h; exact absurd h (by simp)
    | fatal e1 => rw [hs] at h; exact h
    | oob => rw [hs] at h; exact absurd h (by simp)

theorem run_esc_csi (cfg : Config) (t : Term) (bs : List Nat) :
    run cfg ⟨t, .ground⟩ (27 :: 91 :: bs) = run cfg ⟨t, .csi Seq.init⟩ bs := rfl

theorem isdigit_ne_eof (d : Nat) (h : isdigit d = true) : d ≠ 26 := by
  unfold isdigit at h
  simp only [Bool.and_eq_true, decide_eq_true_eq] at h
  omega

theorem run_digits (cfg : Config) (t : Term) (ds : List Nat) (l : Seq) (rest : List Nat)
    (hd : ∀ d ∈ ds, isdigit d = true) (hlen : l.nbuf.length + ds.length ≤ 4)
    (hseq : l.curseqlen + ds.length < 64) :
    run cfg ⟨t, .csi l⟩ (ds ++ rest) =
      run cfg
        ⟨t, .csi { l with curseqlen := l.curseqlen + ds.length, nbuf := l.nbuf ++ ds }⟩
        rest := by
  induction ds generalizing l with
  | nil => simp
  | cons d ds ih =>
    have hdig : isdigit d = true := hd d (List.mem_cons_self _ _)
    simp only [List.length_cons] at hlen hseq
    have hstep : step cfg ⟨t, .csi l⟩ d =
        .next ⟨t, .csi { l with curseqlen := l.curseqlen + 1, nbuf := l.nbuf ++ [d] }⟩ := by
      simp only [step, csi_byte, MAXSEQLEN]
      rw [if_neg (by omega), if_neg (fun h => isdigit_ne_eof d hdig h.1), if_pos hdig,
        if_neg (by omega)]
    rw [List.cons_append, run_next cfg _ _ d _ hstep,
      ih _ (fun x hx => hd x (List.mem_cons_of_mem _ hx))
        (by simp only [List.length_append, List.length_singleton]; omega)
        (by simp only []; omega)]
    simp only [List.length_cons, List.append_assoc, List.singleton_append]
    congr 4
    omega

theorem step_csi_command (cfg : Config) (t : Term) (l : Seq) (d : Nat)
    (hseq : l.curseqlen + 1 ≠ 64) (hz : d ≠ 26) (hd : isdigit d = false) :
    step cfg ⟨t, .csi l⟩ d =
      csi_switch t (store_param { l with curseqlen := l.curseqlen + 1 }) d := by
  simp only [step, csi_byte, MAXSEQLEN]
  rw [if_neg hseq, if_neg (fun h => hz h.1), if_neg (by simp [hd])]

theorem decimal_digits (n : Nat) (h : n ≤ 9999) : ∀ d ∈ decimal n, isdigit d = true := by
  intro d hd
  unfold decimal at hd
  unfold isdigit
  simp only [Bool.and_eq_true, decide_eq_true_eq]
  split_ifs at hd <;> simp only [List.mem_cons, List.mem_singleton, List.not_mem_nil, or_false] at hd <;> omega

theorem decimal_length (n : Nat) : 1 ≤ (decimal n).length ∧ (decimal n).length ≤ 4 := by
  unfold decimal
  split_ifs <;> simp

theorem atoi_decimal (n : Nat) (h : n ≤ 9999) : atoi (decimal n) = n := by
  unfold decimal atoi
  split_ifs <;> simp only [List.foldl_cons, List.foldl_nil] <;> push_cast <;> omega

theorem run_param_command (cfg : Config) (t : Term) (l : Seq) (ds : List Nat) (d : Nat)
    (rest : List Nat) (hd : ∀ x ∈ ds, isdigit x = true) (h1 : 1 ≤ ds.length)
    (h4 : ds.length ≤ 4) (hbuf : l.nbuf = []) (hnp : l.np < 3)
    (hseq : l.curseqlen + ds.length + 1 < 64) (hz : d ≠ 26) (hnd : isdigit d = false) :
    run cfg ⟨t, .csi l⟩ (ds ++ d :: rest) =
      match csi_switch t
        { l with curseqlen := l.curseqlen + ds.length + 1,
                 params := fun i => if i = l.np then atoi ds else l.params i,
                 np := l.np + 1, nbuf := [] } d with
      | .next m1 => run cfg m1 rest
      | r => r := by
  rw [run_digits cfg t ds l _ hd (by rw [hbuf]; simpa using h4) (by omega), run_cons,
    step_csi_command cfg t _ d (by simp only []; omega) hz hnd]
  have hs : store_param { l with curseqlen := l.curseqlen + ds.length + 1, nbuf := l.nbuf ++ ds } =
      { l with curseqlen := l.curseqlen + ds.length + 1,
               params := fun i => if i = l.np then atoi ds else l.params i,
               np := l.np + 1, nbuf := [] } := by
    unfold store_param
    rw [if_pos (by simp only [hbuf, List.nil_append]; omega)]
    simp only [hbuf, List.nil_append]
  rw [hs]

theorem clamp_row (n : Nat) :
    to_uint (MAX 0 (MIN ((n : Int) - 1) ((NROWS : Int) - 1))) = min (n - 1) 1023 := by
  simp only [to_uint, MAX_int, MIN_int, NROWS]
  omega

theorem clamp_col (n : Nat) :
    to_uchar (MAX 0 (MIN ((n : Int) - 1) ((NCOLS : Int) - 1))) = min (n - 1) 79 := by
  simp only [to_uchar, MAX_int, MIN_int, NCOLS]
  omega

/-! ## The length of a sequence -/

theorem store_param_curseqlen (l : Seq) : (store_param l).curseqlen = l.curseqlen := by
  unfold store_param
  split_ifs <;> rfl

/-- The 64th byte read in a sequence, whatever it is, aborts with "reached max sequence
length". -/
theorem step_at_limit (cfg : Config) (t : Term) (l : Seq) (b : Nat)
    (h : l.curseqlen + 1 = 64) : step cfg ⟨t, .csi l⟩ b = .fatal .max_sequence_length := by
  simp only [step, csi_byte, MAXSEQLEN]
  rw [if_pos h]

/-- No case of the `switch` raises "reached max sequence length". -/
theorem csi_switch_ne_limit (t : Term) (l : Seq) (d : Nat) :
    csi_switch t l d ≠ .fatal .max_sequence_length := by
  intro h
  unfold csi_switch at h
  by_cases h1 : d = 63
  · rw [if_pos h1] at h; unfold case_ques at h; split_ifs at h; cases h
  rw [if_neg h1] at h
  by_cases h2 : d = 59
  · rw [if_pos h2] at h; unfold case_semi at h; cases h
  rw [if_neg h2] at h
  by_cases h3 : d = 109
  · rw [if_pos h3] at h; unfold case_m at h; split_ifs at h; cases h
  rw [if_neg h3] at h
  by_cases h4 : d = 74
  · rw [if_pos h4] at h; unfold case_J at h; split_ifs at h <;> cases h
  rw [if_neg h4] at h
  by_cases h5 : d = 104
  · rw [if_pos h5] at h; unfold case_h at h; split_ifs at h <;> cases h
  rw [if_neg h5] at h
  by_cases h6 : d = 72
  · rw [if_pos h6] at h; unfold case_H at h; split_ifs at h; cases h
  rw [if_neg h6] at h
  by_cases h7 : d = 115
  · rw [if_pos h7] at h; unfold case_s at h; split_ifs at h; cases h
  rw [if_neg h7] at h
  by_cases h8 : d = 117
  · rw [if_pos h8] at h; unfold case_u at h; split_ifs at h <;> cases h
  rw [if_neg h8] at h
  by_cases h9 : d = 65
  · rw [if_pos h9] at h; unfold case_A at h; simp only [] at h; split_ifs at h <;> cases h
  rw [if_neg h9] at h
  by_cases h10 : d = 66
  · rw [if_pos h10] at h; unfold case_B at h; simp only [] at h; split_ifs at h <;> cases h
  rw [if_neg h10] at h
  by_cases h11 : d = 67
  · rw [if_pos h11] at h; unfold case_C at h; simp only [] at h; split_ifs at h <;> cases h
  rw [if_neg h11] at h
  by_cases h12 : d = 68
  · rw [if_pos h12] at h; unfold case_D at h; simp only [] at h; split_ifs at h <;> cases h
  rw [if_neg h12] at h
  cases h

/-- A byte before the 64th does not raise "reached max sequence length". -/
theorem step_below_limit (cfg : Config) (t : Term) (l : Seq) (b : Nat)
    (h : l.curseqlen + 1 ≠ 64) : step cfg ⟨t, .csi l⟩ b ≠ .fatal .max_sequence_length := by
  simp only [step, csi_byte, MAXSEQLEN]
  rw [if_neg h]
  split_ifs
  · intro hc; cases hc
  · intro hc; cases hc
  · intro hc; cases hc
  · exact csi_switch_ne_limit _ _ _

/-- One parameter byte before the 64th: an error other than "reached max sequence
length", or the sequence goes on with one more byte counted. -/
theorem step_param_cases (cfg : Config) (t : Term) (l : Seq) (p : Nat)
    (hp : is_param_byte p = true) (h : l.curseqlen + 1 ≠ 64) :
    (∃ e, step cfg ⟨t, .csi l⟩ p = .fatal e ∧ e ≠ .max_sequence_length) ∨
    (∃ l1 : Seq, step cfg ⟨t, .csi l⟩ p = .next ⟨t, .csi l1⟩ ∧
      l1.curseqlen = l.curseqlen + 1) := by
  have hne := step_below_limit cfg t l p h
  simp only [step, csi_byte, MAXSEQLEN] at hne ⊢
  rw [if_neg h] at hne ⊢
  have hp26 : p ≠ 26 := by
    intro h; subst h; simp [is_param_byte, isdigit] at hp
  rw [if_neg (fun h => hp26 h.1)] at hne ⊢
  by_cases hdig : isdigit p = true
  · rw [if_pos hdig]
    by_cases h4 : l.nbuf.length = 4
    · rw [if_pos h4]
      exact Or.inl ⟨_, rfl, by decide⟩
    · rw [if_neg h4]
      exact Or.inr ⟨_, rfl, rfl⟩
  · rw [if_neg hdig] at hne ⊢
    have hp2 : p = 59 ∨ p = 63 := by
      simp only [is_param_byte, Bool.or_eq_true, beq_iff_eq] at hp
      rcases hp with (hp | hp) | hp
      · exact absurd hp hdig
      · exact Or.inl hp
      · exact Or.inr hp
    rcases hp2 with rfl | rfl
    · refine Or.inr ⟨_, rfl, ?_⟩
      simp only [store_param_curseqlen]
    · have hsw : ∀ l1 : Seq, csi_switch t l1 63 = case_ques t l1 := fun _ => rfl
      rw [hsw] at hne ⊢
      unfold case_ques at hne ⊢
      by_cases hnp : (store_param { l with curseqlen := l.curseqlen + 1 }).np ≠ 0
      · rw [if_pos hnp]
        exact Or.inl ⟨_, rfl, by decide⟩
      · rw [if_neg hnp]
        refine Or.inr ⟨_, rfl, ?_⟩
        simp only [store_param_curseqlen]

/-- Parameter bytes that stay below the 64th byte: an error other than "reached max
sequence length", or the sequence goes on with all of them counted. -/
theorem run_param_cases (cfg : Config) (t : Term) (ps : List Nat) (l : Seq)
    (hps : ∀ p ∈ ps, is_param_byte p = true) (hlen : l.curseqlen + ps.length < 64) :
    (∃ e, run cfg ⟨t, .csi l⟩ ps = .fatal e ∧ e ≠ .max_sequence_length) ∨
    (∃ l1 : Seq, run cfg ⟨t, .csi l⟩ ps = .next ⟨t, .csi l1⟩ ∧
      l1.curseqlen = l.curseqlen + ps.length) := by
  induction ps generalizing l with
  | nil => exact Or.inr ⟨l, rfl, rfl⟩
  | cons p ps ih =>
    simp only [List.length_cons] at hlen
    rcases step_param_cases cfg t l p (hps p (List.mem_cons_self _ _)) (by omega) with
      ⟨e, he, hne⟩ | ⟨l1, hl1, hc1⟩
    · exact Or.inl ⟨e, run_fatal cfg _ p _ e he, hne⟩
    · rw [run_next cfg _ _ p _ hl1]
      rcases ih l1 (fun x hx => hps x (List.mem_cons_of_mem _ hx)) (by omega) with
        ⟨e, he, hne⟩ | ⟨l2, hl2, hc2⟩
      · exact Or.inl ⟨e, he, hne⟩
      · exact Or.inr ⟨l2, hl2, by rw [hc2, hc1]; simp only [List.length_cons]; omega⟩

theorem run_append_cases (cfg : Config) (m : Machine) (as bs : List Nat) :
    run cfg m (as ++ bs) =
      match run cfg m as with
      | .next m1 => run cfg m1 bs
      | r => r := by
  induction as generalizing m with
  | nil => rfl
  | cons a as ih =>
    rw [List.cons_append, run_cons, run_cons]
    cases step cfg m a with
    | next m2 => exact ih m2
    | ret t => rfl
    | fatal e => rfl
    | oob => rfl

/-- Parameter bytes read in a sequence: an error, or the sequence goes on with all of
them counted, fewer than 64. -/
theorem run_param_total (cfg : Config) (t : Term) (ps : List Nat) (l : Seq)
    (hps : ∀ p ∈ ps, is_param_byte p = true) (hl : l.curseqlen < 64) :
    (∃ e, run cfg ⟨t, .csi l⟩ ps = .fatal e) ∨
    (∃ l1 : Seq, run cfg ⟨t, .csi l⟩ ps = .next ⟨t, .csi l1⟩ ∧
      l1.curseqlen = l.curseqlen + ps.length ∧ l1.curseqlen < 64) := by
  induction ps generalizing l with
  | nil => exact Or.inr ⟨l, rfl, rfl, hl⟩
  | cons p ps ih =>
    by_cases h64 : l.curseqlen + 1 = 64
    · exact Or.inl ⟨_, run_fatal cfg _ p _ _ (step_at_limit cfg t l p h64)⟩
    rcases step_param_cases cfg t l p (hps p (List.mem_cons_self _ _)) h64 with
      ⟨e, he, _⟩ | ⟨l1, hl1, hc1⟩
    · exact Or.inl ⟨e, run_fatal cfg _ p _ e he⟩
    · rw [run_next cfg _ _ p _ hl1]
      rcases ih l1 (fun x hx => hps x (List.mem_cons_of_mem _ hx)) (by omega) with
        ⟨e, he⟩ | ⟨l2, hl2, hc2, hlt⟩
      · exact Or.inl ⟨e, he⟩
      · exact Or.inr ⟨l2, hl2, by rw [hc2, hc1]; simp only [List.length_cons]; omega, hlt⟩

theorem store_param_empty (l : Seq) (h : l.nbuf = []) : store_param l = l := by
  unfold store_param
  rw [if_neg (by rw [h]; simp)]

/-- Bytes `;` read with no digits pending only count. -/
theorem run_semis (cfg : Config) (t : Term) (k : Nat) (rest : List Nat) (l : Seq)
    (hbuf : l.nbuf = []) (hseq : l.curseqlen + k < 64) :
    ∃ l1 : Seq, run cfg ⟨t, .csi l⟩ (List.replicate k 59 ++ rest) =
        run cfg ⟨t, .csi l1⟩ rest ∧
      l1.nbuf = [] ∧ l1.np = l.np ∧ l1.params = l.params ∧ l1.quesflag = l.quesflag ∧
      l1.curseqlen = l.curseqlen + k ∧ l1.semicount = l.semicount + k := by
  induction k generalizing l with
  | zero => exact ⟨l, rfl, hbuf, rfl, rfl, rfl, rfl, rfl⟩
  | succ k ih =>
    have hstep : step cfg ⟨t, .csi l⟩ 59 =
        .next ⟨t, .csi { l with curseqlen := l.curseqlen + 1,
                                semicount := l.semicount + 1 }⟩ := by
      rw [step_csi_command cfg t l 59 (by omega) (by decide) (by decide),
        store_param_empty { l with curseqlen := l.curseqlen + 1 } hbuf]
      rfl
    rw [List.replicate_succ, List.cons_append, run_next cfg _ _ 59 _ hstep]
    obtain ⟨l1, h1, h2, h3, h4, h5, h6, h7⟩ :=
      ih { l with curseqlen := l.curseqlen + 1, semicount := l.semicount + 1 } hbuf
        (by simp only []; omega)
    exact ⟨l1, h1, h2, h3, h4, h5, by rw [h6]; simp only []; omega,
      by rw [h7]; simp only []; omega⟩

/-- The case `H` with one parameter stored: the row when no `;` was counted, the column
otherwise. -/
theorem case_H_one (t : Term) (l : Seq) (hq : l.quesflag = 0) (hnp : l.np = 1) :
    case_H t l =
      if l.semicount = 0 then
        .next ⟨{ t with x := to_uint (MAX 0 (MIN (l.params 0 - 1) ((NROWS : Int) - 1))),
                        y := 0 }, .ground⟩
      else
        .next ⟨{ t with x := 0,
                        y := to_uchar (MAX 0 (MIN (l.params 0 - 1) ((NCOLS : Int) - 1))) },
               .ground⟩ := by
  unfold case_H
  rw [if_neg (by simp [hq]), if_neg (by omega), if_pos hnp]

/-! ## C3: cursor position -/

/-- C3 at `CSI 5 ; H`: the parameter 5 stands before the `;`, where `CSI row ; col H`
has its row, and the claim gives row 4, column 0, as for `CSI 5 H` and `CSI 5 ; 1 H`;
the code gives row 0, column 4, as for `CSI ; 5 H`. -/
theorem cup_trailing_semicolon :
    (∃ t : Term, read_ansi ⟨false, false⟩ [27, 91, 53, 59, 72] blank = .returned t ∧
      (t.x, t.y) = (0, 4) ∧ (t.x, t.y) ≠ (4, 0)) ∧
    (∃ t : Term, read_ansi ⟨false, false⟩ [27, 91, 53, 72] blank = .returned t ∧
      (t.x, t.y) = (4, 0)) ∧
    (∃ t : Term, read_ansi ⟨false, false⟩ [27, 91, 53, 59, 49, 72] blank = .returned t ∧
      (t.x, t.y) = (4, 0)) ∧
    (∃ t : Term, read_ansi ⟨false, false⟩ [27, 91, 59, 53, 72] blank = .returned t ∧
      (t.x, t.y) = (0, 4)) :=
  ⟨⟨_, rfl, rfl, by decide⟩, ⟨_, rfl, rfl⟩, ⟨_, rfl, rfl⟩, ⟨_, rfl, rfl⟩⟩

/-- What holds of the claim C3: `CSI H` puts the cursor at (0, 0); `CSI r ; c H` at
`(min (r-1) 1023, min (c-1) 79)` (truncated subtraction, so 0 counts as 1); with one
parameter `n`, `CSI n H`, which has no `;`, sets row `min (n-1) 1023` and column 0,
while a sequence with `k1` bytes `;` before the parameter and `k2` after it, at least
one in all, sets row 0 and column `min (n-1) 79`.  Nothing else in the state
changes. -/
theorem cursor_position (cfg : Config) (t : Term) (n r c k1 k2 : Nat)
    (hn : n ≤ 9999) (hr : r ≤ 9999) (hc : c ≤ 9999) (hk : 0 < k1 + k2) (hlen : k1 + k2 ≤ 58) :
    run cfg ⟨t, .ground⟩ [27, 91, 72] = .next ⟨{ t with x := 0, y := 0 }, .ground⟩ ∧
    run cfg ⟨t, .ground⟩ ([27, 91] ++ decimal r ++ [59] ++ decimal c ++ [72]) =
      .next ⟨{ t with x := min (r - 1) 1023, y := min (c - 1) 79 }, .ground⟩ ∧
    run cfg ⟨t, .ground⟩ ([27, 91] ++ decimal n ++ [72]) =
      .next ⟨{ t with x := min (n - 1) 1023, y := 0 }, .ground⟩ ∧
    run cfg ⟨t, .ground⟩
        ([27, 91] ++ List.replicate k1 59 ++ decimal n ++ List.replicate k2 59 ++ [72]) =
      .next ⟨{ t with x := 0, y := min (n - 1) 79 }, .ground⟩ := by
  have hnl := decimal_length n
  have hrl := decimal_length r
  have hcl := decimal_length c
  refine ⟨rfl, ?_, ?_, ?_⟩
  · simp only [List.append_assoc, List.cons_append, List.nil_append]
    rw [run_esc_csi, run_param_command cfg t Seq.init (decimal r) 59 _ (decimal_digits r hr)
      hrl.1 hrl.2 rfl (by decide) (by simp only [Seq.init]; omega) (by decide) (by decide)]
    simp only [csi_switch, case_semi, Seq.init]
    simp only [reduceIte, Nat.reduceEqDiff]
    rw [run_param_command cfg t _ (decimal c) 72 [] (decimal_digits c hc)
      hcl.1 hcl.2 rfl (by simp) (by simp only []; omega) (by decide) (by decide)]
    simp [csi_switch, case_H, atoi_decimal r hr, atoi_decimal c hc, clamp_row, clamp_col, run]
  · simp only [List.append_assoc, List.cons_append, List.nil_append]
    rw [run_esc_csi, run_param_command cfg t Seq.init (decimal n) 72 [] (decimal_digits n hn)
      hnl.1 hnl.2 rfl (by decide) (by simp only [Seq.init]; omega) (by decide) (by decide)]
    simp [csi_switch, case_H, Seq.init, atoi_decimal n hn, clamp_row, run]
  · have hH : ∀ l : Seq, csi_switch t l 72 = case_H t l := fun _ => rfl
    have hS : ∀ l : Seq, csi_switch t l 59 = case_semi t l := fun _ => rfl
    rw [List.append_assoc, List.append_assoc, List.append_assoc]
    show run cfg ⟨t, .ground⟩ (27 :: 91 :: (List.replicate k1 59 ++
      (decimal n ++ (List.replicate k2 59 ++ [72])))) = _
    rw [run_esc_csi]
    obtain ⟨l1, e1, b1, np1, p1, q1, c1, s1⟩ := run_semis cfg t k1
      (decimal n ++ (List.replicate k2 59 ++ [72])) Seq.init rfl
      (by simp only [Seq.init]; omega)
    rw [e1]
    have hnp1 : l1.np = 0 := np1
    have hq1 : l1.quesflag = 0 := q1
    have hs1 : l1.semicount = k1 := by rw [s1]; simp [Seq.init]
    have hc1 : l1.curseqlen = k1 := by rw [c1]; simp [Seq.init]
    cases k2 with
    | zero =>
      rw [List.replicate_zero, List.nil_append,
        run_param_command cfg t l1 (decimal n) 72 [] (decimal_digits n hn) hnl.1 hnl.2 b1
          (by omega) (by omega) (by decide) (by decide), hH,
        case_H_one _ _ (by simp only []; exact hq1) (by simp only []; omega),
        if_neg (by simp only []; omega)]
      simp only [hnp1, if_true, atoi_decimal n hn, clamp_col, run]
    | succ k =>
      rw [List.replicate_succ, List.cons_append,
        run_param_command cfg t l1 (decimal n) 59 _ (decimal_digits n hn) hnl.1 hnl.2 b1
          (by omega) (by omega) (by decide) (by decide), hS]
      simp only [case_semi]
      obtain ⟨l2, e2, b2, np2, p2, q2, c2, s2⟩ := run_semis cfg t k [72]
        { l1 with curseqlen := l1.curseqlen + (decimal n).length + 1,
                  params := fun i => if i = l1.np then atoi (decimal n) else l1.params i,
                  np := l1.np + 1, nbuf := [], semicount := l1.semicount + 1 } rfl
        (by simp only []; omega)
      rw [e2, run_cons, step_csi_command cfg t l2 72 (by rw [c2]; simp only []; omega)
        (by decide) (by decide),
        store_param_empty { l2 with curseqlen := l2.curseqlen + 1 } b2, hH,
        case_H_one _ _ (by simp only []; rw [q2]; exact hq1)
          (by simp only []; rw [np2]; simp only []; omega),
        if_neg (by simp only []; rw [s2]; simp only []; omega)]
      simp only [p2, hnp1, if_true, atoi_decimal n hn, clamp_col, run]

/-- The amended description at the parameters 5, 3 and 7: `CSI 5 H` gives (4, 0),
`CSI ; 5 H`, `CSI 5 ; H` and `CSI ; ; 5 ; H` give (0, 4), `CSI 3 ; 7 H` gives (2, 6). -/
theorem cursor_position_witness :
    run ⟨false, false⟩ ⟨Term.init blank, .ground⟩ [27, 91, 53, 72] =
      .next ⟨{ Term.init blank with x := 4, y := 0 }, .ground⟩ ∧
    run ⟨false, false⟩ ⟨Term.init blank, .ground⟩ [27, 91, 59, 53, 72] =
      .next ⟨{ Term.init blank with x := 0, y := 4 }, .ground⟩ ∧
    run ⟨false, false⟩ ⟨Term.init blank, .ground⟩ [27, 91, 53, 59, 72] =
      .next ⟨{ Term.init blank with x := 0, y := 4 }, .ground⟩ ∧
    run ⟨false, false⟩ ⟨Term.init blank, .ground⟩ [27, 91, 59, 59, 53, 59, 72] =
      .next ⟨{ Term.init blank with x := 0, y := 4 }, .ground⟩ ∧
    run ⟨false, false⟩ ⟨Term.init blank, .ground⟩ [27, 91, 51, 59, 55, 72] =
      .next ⟨{ Term.init blank with x := 2, y := 6 }, .ground⟩ :=
  have h := cursor_position ⟨false, false⟩ (Term.init blank) 5 3 7 1 0
    (by decide) (by decide) (by decide) (by decide) (by decide)
  ⟨h.2.2.1, h.2.2.2,
   (cursor_position ⟨false, false⟩ (Term.init blank) 5 3 7 0 1
    (by decide) (by decide) (by decide) (by decide) (by decide)).2.2.2,
   (cursor_position ⟨false, false⟩ (Term.init blank) 5 3 7 2 1
    (by decide) (by decide) (by decide) (by decide) (by decide)).2.2.2, h.2.1⟩

/-! ## What the relative moves and the save slot do in general -/

theorem to_uchar_nat (n : Nat) : to_uchar (n : Int) = n % 256 := by
  unfold to_uchar
  omega

/-- What `CSI n A`, `CSI n B`, `CSI n C`, `CSI n D` do for `n ≤ 9999` with the cursor in
the grid: the move is by `n % 256`, the value `unsigned char delta` receives, and
saturates at the edges of the grid.  For `n ≤ 255` this is the move by `n`. -/
theorem relative_moves (cfg : Config) (t : Term) (n : Nat) (hn : n ≤ 9999)
    (hx : t.x ≤ 1023) (hy : t.y ≤ 79) :
    run cfg ⟨t, .ground⟩ ([27, 91] ++ decimal n ++ [65]) =
      .next ⟨{ t with x := t.x - n % 256 }, .ground⟩ ∧
    run cfg ⟨t, .ground⟩ ([27, 91] ++ decimal n ++ [66]) =
      .next ⟨{ t with x := min 1023 (t.x + n % 256) }, .ground⟩ ∧
    run cfg ⟨t, .ground⟩ ([27, 91] ++ decimal n ++ [67]) =
      .next ⟨{ t with y := min 79 (t.y + n % 256) }, .ground⟩ ∧
    run cfg ⟨t, .ground⟩ ([27, 91] ++ decimal n ++ [68]) =
      .next ⟨{ t with y := t.y - n % 256 }, .ground⟩ := by
  have hnl := decimal_length n
  have hA : (if n % 256 > t.x then 0 else t.x - n % 256) = t.x - n % 256 := by
    split_ifs <;> omega
  have hB : MIN (NROWS - 1) ((t.x + n % 256) % UINT) = min 1023 (t.x + n % 256) := by
    simp only [MIN_nat, NROWS, UINT]; omega
  have hC : MIN (NCOLS - 1) (t.y + n % 256) % UCHAR = min 79 (t.y + n % 256) := by
    simp only [MIN_nat, NCOLS, UCHAR]; omega
  have hD : (if n % 256 > t.y then 0 else t.y - n % 256) = t.y - n % 256 := by
    split_ifs <;> omega
  simp only [List.append_assoc, List.cons_append, List.nil_append]
  refine ⟨?_, ?_, ?_, ?_⟩
  · rw [run_esc_csi, run_param_command cfg t Seq.init (decimal n) 65 [] (decimal_digits n hn)
      hnl.1 hnl.2 rfl (by decide) (by simp only [Seq.init]; omega) (by decide) (by decide)]
    simp [csi_switch, case_A, csi_delta, Seq.init, atoi_decimal n hn, to_uchar_nat, run, hA]
  · rw [run_esc_csi, run_param_command cfg t Seq.init (decimal n) 66 [] (decimal_digits n hn)
      hnl.1 hnl.2 rfl (by decide) (by simp only [Seq.init]; omega) (by decide) (by decide)]
    simp [csi_switch, case_B, csi_delta, Seq.init, atoi_decimal n hn, to_uchar_nat, run, hB]
  · rw [run_esc_csi, run_param_command cfg t Seq.init (decimal n) 67 [] (decimal_digits n hn)
      hnl.1 hnl.2 rfl (by decide) (by simp only [Seq.init]; omega) (by decide) (by decide)]
    simp [csi_switch, case_C, csi_delta, Seq.init, atoi_decimal n hn, to_uchar_nat, run, hC]
  · rw [run_esc_csi, run_param_command cfg t Seq.init (decimal n) 68 [] (decimal_digits n hn)
      hnl.1 hnl.2 rfl (by decide) (by simp only [Seq.init]; omega) (by decide) (by decide)]
    simp [csi_switch, case_D, csi_delta, Seq.init, atoi_decimal n hn, to_uchar_nat, run, hD]

/-- What `CSI s` and `CSI u` do: `CSI s` stores the row modulo 256 and the column;
`CSI u` aborts when the stored row or column is 255 and otherwise makes them the
cursor.  So a cursor saved on a row up to 254 comes back as it was. -/
theorem save_restore (cfg : Config) (t : Term) :
    run cfg ⟨t, .ground⟩ [27, 91, 115] =
      .next ⟨{ t with savedx := t.x % 256, savedy := t.y % 256 }, .ground⟩ ∧
    (t.savedx = 255 ∨ t.savedy = 255 →
      run cfg ⟨t, .ground⟩ [27, 91, 117] = .fatal .restore_before_save) ∧
    (¬ (t.savedx = 255 ∨ t.savedy = 255) →
      run cfg ⟨t, .ground⟩ [27, 91, 117] =
        .next ⟨{ t with x := t.savedx, y := t.savedy }, .ground⟩) := by
  refine ⟨rfl, ?_, ?_⟩
  · intro h
    rw [run_esc_csi, run_cons, step_csi_command cfg t _ 117 (by decide) (by decide) (by decide)]
    simp [store_param, Seq.init, csi_switch, case_u, h, run]
  · intro h
    rw [run_esc_csi, run_cons, step_csi_command cfg t _ 117 (by decide) (by decide) (by decide)]
    simp [store_param, Seq.init, csi_switch, case_u, h, run]

/-! ## C4: relative cursor moves -/

/-- C4 at `CSI 300 B` from the initial state: the parameter goes through the
`unsigned char delta`, so the cursor moves down 300 mod 256 = 44 rows, to row 44,
where the saturating move of the claim gives row 300. -/
theorem cursor_down_300 :
    ∃ t : Term, read_ansi ⟨false, false⟩ [27, 91, 51, 48, 48, 66] blank = .returned t ∧
      (t.x, t.y) = (44, 0) ∧ min 1023 (0 + 300) = 300 :=
  ⟨_, rfl, rfl, by decide⟩

/-! ## C5: save and restore -/

/-- C5 at row 300 and at row 255: after `CSI 301 H`, `CSI s` keeps the row in the
`unsigned char savedx` as 300 mod 256 = 44 and `CSI u` puts the cursor on row 44; after
`CSI 256 H` the saved row is 255, the value that stands for "nothing saved", and
`CSI u` aborts with "CSI u before a CSI s". -/
theorem save_restore_row_300 :
    (∃ t : Term,
      read_ansi ⟨false, false⟩ [27, 91, 51, 48, 49, 72, 27, 91, 115, 27, 91, 117] blank =
        .returned t ∧ (t.x, t.y) = (44, 0)) ∧
    (∃ t : Term,
      read_ansi ⟨false, false⟩ [27, 91, 51, 48, 49, 72, 27, 91, 115] blank =
        .returned t ∧ (t.x, t.y) = (300, 0)) ∧
    (∃ t : Term,
      read_ansi ⟨false, false⟩ [27, 91, 50, 53, 54, 72, 27, 91, 115] blank =
        .returned t ∧ (t.x, t.y) = (255, 0)) ∧
    read_ansi ⟨false, false⟩ [27, 91, 50, 53, 54, 72, 27, 91, 115, 27, 91, 117] blank =
      .fatal .restore_before_save :=
  ⟨⟨_, rfl, rfl⟩, ⟨_, rfl, rfl⟩, ⟨_, rfl, rfl⟩, rfl⟩

/-! ## C6: erase display -/

/-- C6: from every state at the head of the outer loop (the reachable ones among
them), `CSI 2 J` succeeds, leaves every cell of the 1024 x 80 grid equal to
`default_char`, puts the cursor at (0, 0) and changes nothing else, the rendition
included.  A `J` that finds a parameter count other than 1, or a first parameter other
than 2, aborts: so do `CSI J`, `CSI n J` for `n ≠ 2` and `CSI a ; b J`. -/
theorem erase_display (cfg : Config) (t : Term) :
    run cfg ⟨t, .ground⟩ [27, 91, 50, 74] =
      .next ⟨{ t with screen := clear_screen t.screen, x := 0, y := 0 }, .ground⟩ ∧
    (∀ i j, i < 1024 → j < 80 → clear_screen t.screen i j = default_char) ∧
    (∀ l : Seq, (store_param { l with curseqlen := l.curseqlen + 1 }).np ≠ 1 ∨
        (store_param { l with curseqlen := l.curseqlen + 1 }).params 0 ≠ 2 →
      ∃ e, step cfg ⟨t, .csi l⟩ 74 = .fatal e) ∧
    run cfg ⟨t, .ground⟩ [27, 91, 74] = .fatal (.param_count 74) ∧
    (∀ n, n ≤ 9999 → n ≠ 2 →
      run cfg ⟨t, .ground⟩ ([27, 91] ++ decimal n ++ [74]) = .fatal .unknown_param) ∧
    (∀ a b, a ≤ 9999 → b ≤ 9999 →
      run cfg ⟨t, .ground⟩ ([27, 91] ++ decimal a ++ [59] ++ decimal b ++ [74]) =
        .fatal (.param_count 74)) := by
  refine ⟨rfl, ?_, ?_, rfl, ?_, ?_⟩
  · intro i j hi hj
    simp only [clear_screen, NROWS, NCOLS]
    rw [if_pos ⟨hi, hj⟩]
  · intro l hl
    simp only [step, csi_byte, MAXSEQLEN]
    by_cases hseq : l.curseqlen + 1 = 64
    · exact ⟨_, if_pos hseq⟩
    rw [if_neg hseq, if_neg (fun h => absurd h.1 (by decide)), if_neg (by decide)]
    have hsw : ∀ l1 : Seq, csi_switch t l1 74 = case_J t l1 := fun _ => rfl
    rw [hsw]
    unfold case_J
    by_cases hq : (store_param { l with curseqlen := l.curseqlen + 1 }).quesflag ≠ 0
    · exact ⟨_, if_pos hq⟩
    rw [if_neg hq]
    by_cases hnp : (store_param { l with curseqlen := l.curseqlen + 1 }).np ≠ 1
    · exact ⟨_, if_pos hnp⟩
    rw [if_neg hnp]
    have h2 : (store_param { l with curseqlen := l.curseqlen + 1 }).params 0 ≠ 2 := by
      rcases hl with hl | hl
      · exact absurd hl hnp
      · exact hl
    exact ⟨_, if_pos h2⟩
  · intro n hn hn2
    have hnl := decimal_length n
    simp only [List.append_assoc, List.cons_append, List.nil_append]
    rw [run_esc_csi, run_param_command cfg t Seq.init (decimal n) 74 [] (decimal_digits n hn)
      hnl.1 hnl.2 rfl (by decide) (by simp only [Seq.init]; omega) (by decide) (by decide)]
    have hn2i : ¬ ((n : Int) = 2) := by omega
    simp [csi_switch, case_J, Seq.init, atoi_decimal n hn, hn2i]
  · intro a b ha hb
    have hal := decimal_length a
    have hbl := decimal_length b
    simp only [List.append_assoc, List.cons_append, List.nil_append]
    rw [run_esc_csi, run_param_command cfg t Seq.init (decimal a) 59 _ (decimal_digits a ha)
      hal.1 hal.2 rfl (by decide) (by simp only [Seq.init]; omega) (by decide) (by decide)]
    simp only [csi_switch, case_semi, Seq.init]
    simp only [reduceIte, Nat.reduceEqDiff]
    rw [run_param_command cfg t _ (decimal b) 74 [] (decimal_digits b hb)
      hbl.1 hbl.2 rfl (by simp) (by simp only []; omega) (by decide) (by decide)]
    simp [csi_switch, case_J]

/-- C6 on a screen that holds an `A` at (0, 0), cursor at (0, 1): `CSI 2 J` leaves the
cell (0, 0) equal to `default_char` and the cursor at (0, 0); `CSI 3 J` aborts. -/
theorem erase_display_witness :
    (∃ t1 : Term,
      run ⟨false, false⟩
        ⟨{ Term.init (screen_set blank 0 0 (AC 65 7 0 0)) with y := 1 }, .ground⟩
        [27, 91, 50, 74] = .next ⟨t1, .ground⟩ ∧
      t1.screen 0 0 = default_char ∧ (t1.x, t1.y) = (0, 0)) ∧
    run ⟨false, false⟩
      ⟨{ Term.init (screen_set blank 0 0 (AC 65 7 0 0)) with y := 1 }, .ground⟩
      ([27, 91] ++ decimal 3 ++ [74]) = .fatal .unknown_param :=
  have h := erase_display ⟨false, false⟩
    { Term.init (screen_set blank 0 0 (AC 65 7 0 0)) with y := 1 }
  ⟨⟨_, h.1, h.2.1 0 0 (by decide) (by decide), rfl⟩, h.2.2.2.2.1 3 (by decide) (by decide)⟩

/-! ## C7: the cursor stays in the grid -/

/-- C7: on every input, under every configuration and whatever the array holds at
the start, every state passed through has its cursor inside the grid, row at most 1023
and column at most 79, and no step stores outside `screen[1024][80]`: neither the run
nor `read_ansi` ends in `oob`, and the cursor `read_ansi` returns with is in the
grid. -/
theorem cursor_in_grid (cfg : Config) (screen : Screen) (input : List Nat) :
    (∀ m, run cfg ⟨Term.init screen, .ground⟩ input = .next m →
      m.t.x ≤ 1023 ∧ m.t.y ≤ 79) ∧
    (∀ m b, run cfg ⟨Term.init screen, .ground⟩ input = .next m → step cfg m b ≠ .oob) ∧
    run cfg ⟨Term.init screen, .ground⟩ input ≠ .oob ∧
    read_ansi cfg input screen ≠ .oob ∧
    (∀ t, read_ansi cfg input screen = .returned t → t.x ≤ 1023 ∧ t.y ≤ 79) := by
  have hsafe := run_safe cfg input ⟨Term.init screen, .ground⟩ (init_inv screen)
  refine ⟨?_, ?_, ?_, ?_, ?_⟩
  · intro m hm
    rw [hm] at hsafe
    exact ⟨hsafe.1, hsafe.2.1⟩
  · intro m b hm hu
    rw [hm] at hsafe
    have := step_safe cfg m b hsafe
    rw [hu] at this
    exact this
  · intro hu
    rw [hu] at hsafe
    exact hsafe
  · unfold read_ansi
    cases hr : run cfg ⟨Term.init screen, .ground⟩ input with
    | next m => 
      simp only [finish, at_eof]
      split <;> simp
    | ret t => simp [finish]
    | fatal e => simp [finish]
    | oob => rw [hr] at hsafe; exact absurd hsafe (by simp [Step.Safe])
  · intro t ht
    unfold read_ansi at ht
    cases hr : run cfg ⟨Term.init screen, .ground⟩ input with
    | next m =>
      rw [hr] at hsafe ht
      simp only [finish, at_eof] at ht
      split at ht <;> simp only [Outcome.returned.injEq, reduceCtorEq] at ht
      · subst ht; exact ⟨hsafe.1, hsafe.2.1⟩
      · subst ht; exact ⟨hsafe.1, hsafe.2.1⟩
    | ret t1 =>
      rw [hr] at hsafe ht
      simp only [finish, Outcome.returned.injEq] at ht
      subst ht; exact ⟨hsafe.1, hsafe.2.1⟩
    | fatal e => rw [hr] at ht; simp [finish] at ht
    | oob => rw [hr] at ht; simp [finish] at ht

/-! ## C8: only the supported subset is accepted -/

theorem finish_fatal (s : Step) (e : Fatal) (h : s = .fatal e) : finish s = .fatal e := by
  rw [h]; rfl

theorem read_ansi_fatal (cfg : Config) (screen : Screen) (pre post : List Nat) (m : Machine)
    (hpre : run cfg ⟨Term.init screen, .ground⟩ pre = .next m)
    (hpost : ∃ e, run cfg m post = .fatal e) :
    ∃ e, read_ansi cfg (pre ++ post) screen = .fatal e := by
  obtain ⟨e, he⟩ := hpost
  refine ⟨e, ?_⟩
  unfold read_ansi
  rw [run_append_next cfg _ m pre post hpre, he]
  rfl

theorem store_param_quesflag (l : Seq) : (store_param l).quesflag = l.quesflag := by
  unfold store_param
  split_ifs <;> rfl

theorem step_param_byte (cfg : Config) (t : Term) (l : Seq) (p : Nat)
    (hp : is_param_byte p = true) :
    (∃ e, step cfg ⟨t, .csi l⟩ p = .fatal e) ∨
    (∃ l1 : Seq, step cfg ⟨t, .csi l⟩ p = .next ⟨t, .csi l1⟩ ∧
      (l.quesflag ≠ 0 ∨ p = 63 → l1.quesflag ≠ 0)) := by
  simp only [step, csi_byte, MAXSEQLEN]
  by_cases hseq : l.curseqlen + 1 = 64
  · exact Or.inl ⟨_, if_pos hseq⟩
  rw [if_neg hseq]
  have hp26 : p ≠ 26 := by
    intro h; subst h; simp [is_param_byte, isdigit] at hp
  rw [if_neg (fun h => hp26 h.1)]
  by_cases hdig : isdigit p = true
  · rw [if_pos hdig]
    by_cases h4 : l.nbuf.length = 4
    · exact Or.inl ⟨_, if_pos h4⟩
    · rw [if_neg h4]
      refine Or.inr ⟨_, rfl, ?_⟩
      rintro (h | h)
      · exact h
      · subst h; simp [isdigit] at hdig
  · rw [if_neg hdig]
    have hp2 : p = 59 ∨ p = 63 := by
      simp only [is_param_byte, Bool.or_eq_true, beq_iff_eq] at hp
      rcases hp with (hp | hp) | hp
      · exact absurd hp hdig
      · exact Or.inl hp
      · exact Or.inr hp
    rcases hp2 with rfl | rfl
    · refine Or.inr ⟨_, rfl, ?_⟩
      rintro (h | h)
      · simpa [store_param_quesflag] using h
      · exact absurd h (by decide)
    · have hsw : ∀ l1 : Seq, csi_switch t l1 63 = case_ques t l1 := fun _ => rfl
      rw [hsw]
      unfold case_ques
      by_cases hnp : (store_param { l with curseqlen := l.curseqlen + 1 }).np ≠ 0
      · exact Or.inl ⟨_, if_pos hnp⟩
      · rw [if_neg hnp]
        exact Or.inr ⟨_, rfl, fun _ => by simp⟩

theorem run_param_bytes (cfg : Config) (t : Term) (ps rest : List Nat) (l : Seq)
    (hps : ∀ p ∈ ps, is_param_byte p = true) :
    (∃ e, run cfg ⟨t, .csi l⟩ (ps ++ rest) = .fatal e) ∨
    (∃ l1 : Seq, run cfg ⟨t, .csi l⟩ (ps ++ rest) = run cfg ⟨t, .csi l1⟩ rest ∧
      (l.quesflag ≠ 0 ∨ 63 ∈ ps → l1.quesflag ≠ 0)) := by
  induction ps generalizing l with
  | nil =>
    refine Or.inr ⟨l, rfl, ?_⟩
    rintro (h | h)
    · exact h
    · simp at h
  | cons p ps ih =>
    rw [List.cons_append]
    rcases step_param_byte cfg t l p (hps p (List.mem_cons_self _ _)) with ⟨e, he⟩ | ⟨l1, hl1, hq1⟩
    · exact Or.inl ⟨e, run_fatal cfg _ p _ e he⟩
    · rw [run_next cfg _ _ p _ hl1]
      rcases ih l1 (fun x hx => hps x (List.mem_cons_of_mem _ hx)) with ⟨e, he⟩ | ⟨l2, hl2, hq2⟩
      · exact Or.inl ⟨e, he⟩
      · refine Or.inr ⟨l2, hl2, ?_⟩
        intro h
        apply hq2
        rcases h with h | h
        · exact Or.inl (hq1 (Or.inl h))
        · rcases List.mem_cons.mp h with h | h
          · exact Or.inl (hq1 (Or.inr h.symm))
          · exact Or.inr h

theorem step_unknown_command (cfg : Config) (t : Term) (l : Seq) (d : Nat)
    (hp : is_param_byte d = false)
    (hd : d ∉ [109, 74, 104, 72, 115, 117, 65, 66, 67, 68])
    (hz : ¬ (d = 26 ∧ cfg.includez = false)) :
    ∃ e, step cfg ⟨t, .csi l⟩ d = .fatal e := by
  simp only [step, csi_byte, MAXSEQLEN]
  by_cases hseq : l.curseqlen + 1 = 64
  · exact ⟨_, if_pos hseq⟩
  rw [if_neg hseq, if_neg hz]
  simp only [is_param_byte, Bool.or_eq_false_iff, beq_eq_false_iff_ne] at hp
  obtain ⟨⟨hdig, h59⟩, h63⟩ := hp
  rw [if_neg (by simp [hdig])]
  simp only [List.mem_cons, List.mem_singleton, List.not_mem_nil, or_false, not_or] at hd
  obtain ⟨h1, h2, h3, h4, h5, h6, h7, h8, h9, h10⟩ := hd
  refine ⟨.unknown_csi d, ?_⟩
  unfold csi_switch
  rw [if_neg h63, if_neg h59, if_neg h1, if_neg h2, if_neg h3, if_neg h4, if_neg h5, if_neg h6,
    if_neg h7, if_neg h8, if_neg h9, if_neg h10]

theorem step_private_command (cfg : Config) (t : Term) (l : Seq) (d : Nat)
    (hq : l.quesflag ≠ 0) (hd : d ∈ [74, 109, 72, 115, 117, 65, 66, 67, 68]) :
    ∃ e, step cfg ⟨t, .csi l⟩ d = .fatal e := by
  simp only [step, csi_byte, MAXSEQLEN]
  by_cases hseq : l.curseqlen + 1 = 64
  · exact ⟨_, if_pos hseq⟩
  rw [if_neg hseq]
  have hq1 : (store_param { l with curseqlen := l.curseqlen + 1 }).quesflag ≠ 0 := by
    rw [store_param_quesflag]; exact hq
  simp only [List.mem_cons, List.mem_singleton, List.not_mem_nil, or_false] at hd
  rcases hd with rfl | rfl | rfl | rfl | rfl | rfl | rfl | rfl | rfl
  · rw [if_neg (fun h => absurd h.1 (by decide)), if_neg (by decide)]
    exact ⟨_, (if_pos hq1 : case_J t _ = _)⟩
  · rw [if_neg (fun h => absurd h.1 (by decide)), if_neg (by decide)]
    exact ⟨_, (if_pos hq1 : case_m t _ = _)⟩
  · rw [if_neg (fun h => absurd h.1 (by decide)), if_neg (by decide)]
    exact ⟨_, (if_pos hq1 : case_H t _ = _)⟩
  · rw [if_neg (fun h => absurd h.1 (by decide)), if_neg (by decide)]
    exact ⟨_, (if_pos (Or.inl hq1) : case_s t _ = _)⟩
  · rw [if_neg (fun h => absurd h.1 (by decide)), if_neg (by decide)]
    exact ⟨_, (if_pos (Or.inl hq1) : case_u t _ = _)⟩
  · rw [if_neg (fun h => absurd h.1 (by decide)), if_neg (by decide)]
    exact ⟨_, (if_pos hq1 : case_A t _ = _)⟩
  · rw [if_neg (fun h => absurd h.1 (by decide)), if_neg (by decide)]
    exact ⟨_, (if_pos hq1 : case_B t _ = _)⟩
  · rw [if_neg (fun h => absurd h.1 (by decide)), if_neg (by decide)]
    exact ⟨_, (if_pos hq1 : case_C t _ = _)⟩
  · rw [if_neg (fun h => absurd h.1 (by decide)), if_neg (by decide)]
    exact ⟨_, (if_pos hq1 : case_D t _ = _)⟩

/-- C8 as stated fails: with stop-on-EOF on, the byte 0x1a after `ESC [` is not a
digit, `;` or `?` and is none of the ten command letters, and `read_ansi` returns
instead of aborting. -/
theorem csi_eof_marker_returns :
    is_param_byte 26 = false ∧ 26 ∉ [109, 74, 104, 72, 115, 117, 65, 66, 67, 68] ∧
    read_ansi ⟨false, false⟩ [27, 91, 26] blank = .returned (Term.init blank) :=
  ⟨by decide, by decide, rfl⟩

/-- C8, amended: after any input `pre` that leaves `read_ansi` at the head of its outer
loop, under every configuration: (1) `ESC [`, parameter bytes `ps` (digits, `;`, `?`)
and a byte `d` that is no parameter byte, none of m J h H s u A B C D, and not 0x1a
while stop-on-EOF is on, abort; (2) `ESC [`, parameter bytes with a `?` among them and
one of J m H s u A B C D abort; (3) ESC followed by a byte other than `[` aborts;
(4) with stop-on-EOF on, `ESC [`, parameter bytes and the byte 0x1a abort when the
parameter bytes alone abort or 0x1a is the 64th byte of the sequence, and otherwise
`read_ansi` returns with the state it had before the ESC, whatever follows. -/
theorem csi_subset (cfg : Config) (screen : Screen) (pre : List Nat) (t : Term)
    (hpre : run cfg ⟨Term.init screen, .ground⟩ pre = .next ⟨t, .ground⟩) :
    (∀ ps d rest, (∀ p ∈ ps, is_param_byte p = true) → is_param_byte d = false →
      d ∉ [109, 74, 104, 72, 115, 117, 65, 66, 67, 68] →
      ¬ (d = 26 ∧ cfg.includez = false) →
      ∃ e, read_ansi cfg (pre ++ ([27, 91] ++ ps ++ [d] ++ rest)) screen = .fatal e) ∧
    (∀ ps d rest, (∀ p ∈ ps, is_param_byte p = true) → 63 ∈ ps →
      d ∈ [74, 109, 72, 115, 117, 65, 66, 67, 68] →
      ∃ e, read_ansi cfg (pre ++ ([27, 91] ++ ps ++ [d] ++ rest)) screen = .fatal e) ∧
    (∀ d rest, d ≠ 91 →
      ∃ e, read_ansi cfg (pre ++ ([27, d] ++ rest)) screen = .fatal e) ∧
    (∀ ps rest, (∀ p ∈ ps, is_param_byte p = true) → cfg.includez = false →
      ((∃ e, read_ansi cfg (pre ++ ([27, 91] ++ ps)) screen = .fatal e) ∨ ps.length = 63 →
        ∃ e, read_ansi cfg (pre ++ ([27, 91] ++ ps ++ [26] ++ rest)) screen = .fatal e) ∧
      ((∀ e, read_ansi cfg (pre ++ ([27, 91] ++ ps)) screen ≠ .fatal e) → ps.length ≠ 63 →
        read_ansi cfg (pre ++ ([27, 91] ++ ps ++ [26] ++ rest)) screen = .returned t)) := by
  refine ⟨?_, ?_, ?_, ?_⟩
  · intro ps d rest hps hp hd hz
    apply read_ansi_fatal cfg screen pre _ _ hpre
    simp only [List.append_assoc, List.cons_append, List.nil_append]
    rw [run_esc_csi]
    rcases run_param_bytes cfg t ps (d :: rest) Seq.init hps with ⟨e, he⟩ | ⟨l1, hl1, -⟩
    · exact ⟨e, he⟩
    · rw [hl1]
      obtain ⟨e, he⟩ := step_unknown_command cfg t l1 d hp hd hz
      exact ⟨e, run_fatal cfg _ d rest e he⟩
  · intro ps d rest hps h63 hd
    apply read_ansi_fatal cfg screen pre _ _ hpre
    simp only [List.append_assoc, List.cons_append, List.nil_append]
    rw [run_esc_csi]
    rcases run_param_bytes cfg t ps (d :: rest) Seq.init hps with ⟨e, he⟩ | ⟨l1, hl1, hq⟩
    · exact ⟨e, he⟩
    · rw [hl1]
      obtain ⟨e, he⟩ := step_private_command cfg t l1 d (hq (Or.inr h63)) hd
      exact ⟨e, run_fatal cfg _ d rest e he⟩
  · intro d rest hd
    apply read_ansi_fatal cfg screen pre _ _ hpre
    refine ⟨.unknown_sequence d, ?_⟩
    have h1 : step cfg ⟨t, .ground⟩ 27 = .next ⟨t, .esc⟩ := rfl
    have h2 : step cfg ⟨t, .esc⟩ d = .fatal (.unknown_sequence d) := by
      simp only [step, esc_byte]
      rw [if_pos hd]
    simp only [List.cons_append, List.nil_append]
    rw [run_next cfg _ _ 27 _ h1, run_fatal cfg _ d rest _ h2]
  · intro ps rest hps hz
    have hread : ∀ xs : List Nat, read_ansi cfg (pre ++ ([27, 91] ++ xs)) screen =
        finish (run cfg ⟨t, .csi Seq.init⟩ xs) := by
      intro xs
      unfold read_ansi
      rw [run_append_next cfg _ _ pre _ hpre]
      rfl
    rw [hread, List.append_assoc, List.append_assoc, hread, run_append_cases]
    rcases run_param_total cfg t ps Seq.init hps (by decide) with ⟨e, he⟩ | ⟨l1, hl1, hc1, hlt⟩
    · rw [he]
      exact ⟨fun _ => ⟨e, rfl⟩, fun h => absurd rfl (h e)⟩
    · rw [hl1]
      simp only [List.singleton_append]
      constructor
      · rintro (⟨e, he⟩ | h63)
        · simp only [finish, at_eof] at he
          cases he
        · rw [run_fatal cfg _ 26 rest _
            (step_at_limit cfg t l1 26 (by rw [hc1, h63]; rfl))]
          exact ⟨_, rfl⟩
      · intro _ h63
        have hstep : step cfg ⟨t, .csi l1⟩ 26 = .ret t := by
          simp only [step, csi_byte, MAXSEQLEN]
          rw [if_neg (by rw [hc1]; simp only [Seq.init]; omega), if_pos ⟨trivial, hz⟩]
        rw [run_ret cfg _ 26 rest t hstep]
        rfl

/-- C8 (amended) after the input `A`: `ESC [ 1 2 K`, `ESC [ ? 2 J` and `ESC c` abort,
and `ESC [ 1 ; 0x1a` followed by `B` returns with the state the input `A` leaves. -/
theorem csi_subset_witness :
    (∃ e, read_ansi ⟨false, false⟩ ([65] ++ ([27, 91] ++ [49, 50] ++ [75] ++ [66])) blank =
      .fatal e) ∧
    (∃ e, read_ansi ⟨false, false⟩ ([65] ++ ([27, 91] ++ [63, 50] ++ [74] ++ [])) blank =
      .fatal e) ∧
    (∃ e, read_ansi ⟨false, false⟩ ([65] ++ ([27, 99] ++ [66])) blank = .fatal e) ∧
    read_ansi ⟨false, false⟩ ([65] ++ ([27, 91] ++ [49, 59] ++ [26] ++ [66])) blank =
      read_ansi ⟨false, false⟩ [65] blank :=
  have h := csi_subset ⟨false, false⟩ blank [65] _ rfl
  ⟨h.1 [49, 50] 75 [66] (by decide) (by decide) (by decide) (by decide),
   h.2.1 [63, 50] 74 [] (by decide) (by decide) (by decide),
   h.2.2.1 99 [66] (by decide),
   ((h.2.2.2 [49, 59] [66] (by decide) rfl).2 (fun e h => Outcome.noConfusion h) (by decide)).trans rfl⟩

/-! ## C9: end of input inside an escape sequence -/

/-- C9 at the inputs `ESC [` and `ESC [ 1 ; 3 1`: the inner loop of `read_ansi` ends
at `EOF` without a `doerror`, the outer loop reads `EOF` again, and the function returns
with the state it had before the ESC, where the claim has a fatal error.  An input
that ends right after ESC does abort. -/
theorem eof_inside_csi (cfg : Config) (screen : Screen) :
    read_ansi cfg [27, 91] screen = .returned (Term.init screen) ∧
    read_ansi cfg [27, 91, 49, 59, 51, 49] screen = .returned (Term.init screen) ∧
    read_ansi cfg [27, 91, 63] screen = .returned (Term.init screen) ∧
    read_ansi cfg [27] screen = .fatal .eof_after_esc :=
  ⟨rfl, rfl, rfl, rfl⟩

/-! ## C10: the EOF marker -/

/-- C10: let `pre` leave `read_ansi` at the head of its outer loop in state `t`.
With stop-on-EOF on (and no 0x1a in `pre`), `pre ++ [0x1a] ++ post` is read
successfully and gives exactly the state, screen included, that `pre` alone gives,
whatever `post` is.  With stop-on-EOF off, the byte 0x1a is stored at the cursor like
any glyph, with the current rendition, no other cell changes, and the cursor
advances. -/
theorem eof_marker (cfg : Config) (screen : Screen) (pre post : List Nat) (t : Term)
    (hpre : run cfg ⟨Term.init screen, .ground⟩ pre = .next ⟨t, .ground⟩) :
    (cfg.includez = false → 26 ∉ pre →
      read_ansi cfg (pre ++ [26] ++ post) screen = .returned t ∧
      read_ansi cfg pre screen = .returned t) ∧
    (cfg.includez = true →
      ∃ t1 : Term, run cfg ⟨Term.init screen, .ground⟩ (pre ++ [26]) = .next ⟨t1, .ground⟩ ∧
        read_ansi cfg (pre ++ [26]) screen = .returned t1 ∧
        t1.screen t.x t.y = AC 26 t.curfg t.curbg t.curflags ∧
        ACCHAR (t1.screen t.x t.y) = 26 ∧
        (∀ i j, ¬ (i = t.x ∧ j = t.y) → t1.screen i j = t.screen i j) ∧
        t1.x = (if t.y < 79 then t.x else min (t.x + 1) 1023) ∧
        t1.y = (if t.y < 79 then t.y + 1 else 0)) := by
  refine ⟨?_, ?_⟩
  · intro hz _
    have hstep : step cfg ⟨t, .ground⟩ 26 = .ret t := by
      simp only [step, plain_byte]
      rw [if_pos (by decide), if_neg (by decide), if_neg (by decide),
        if_neg (fun h => absurd h.1 (by decide)), if_pos (by simp [hz])]
    refine ⟨?_, ?_⟩
    · unfold read_ansi
      rw [List.append_assoc, run_append_next cfg _ _ pre _ hpre, List.singleton_append,
        run_ret cfg _ 26 post t hstep]
      rfl
    · unfold read_ansi
      rw [hpre]
      rfl
  · intro hz
    have hinv : t.Inv := reachable_inv cfg ⟨t, .ground⟩ ⟨screen, pre, hpre⟩
    have hstep := step_plain cfg t 26 hinv (by decide) (by decide) (by decide)
      (fun h => absurd h.1 (by decide)) (fun h => by simp [hz] at h)
    have hrun : run cfg ⟨Term.init screen, .ground⟩ (pre ++ [26]) = .next ⟨{ t with
        screen := screen_set t.screen t.x t.y (AC 26 t.curfg t.curbg t.curflags),
        x := if t.y < 79 then t.x else min (t.x + 1) 1023,
        y := if t.y < 79 then t.y + 1 else 0 }, .ground⟩ := by
      rw [run_append_next cfg _ _ pre _ hpre, run_next cfg _ _ 26 [] hstep]
      rfl
    refine ⟨_, hrun, ?_, ?_, ?_, ?_, rfl, rfl⟩
    · unfold read_ansi
      rw [hrun]
      rfl
    · simp [screen_set]
    · simp only [screen_set, and_self, if_true, ACCHAR_AC]
    · intro i j hij
      simp only [screen_set, if_neg hij]

/-- C10 at `pre = "AB"`, `post = "C"` with stop-on-EOF on: only `A` and `B` are on the
screen and the cell (0, 2) still holds `default_char`; and with stop-on-EOF off the
byte 0x1a is stored at (0, 2). -/
theorem eof_marker_witness :
    (∃ t : Term, read_ansi ⟨false, false⟩ ([65, 66] ++ [26] ++ [67]) blank = .returned t ∧
      read_ansi ⟨false, false⟩ [65, 66] blank = .returned t ∧
      t.screen 0 2 = default_char) ∧
    (∃ t1 : Term, read_ansi ⟨false, true⟩ ([65, 66] ++ [26]) blank = .returned t1 ∧
      ACCHAR (t1.screen 0 2) = 26) :=
  have h1 := (eof_marker ⟨false, false⟩ blank [65, 66] [67] _ rfl).1 rfl (by decide)
  have h2 := (eof_marker ⟨false, true⟩ blank [65, 66] [] _ rfl).2 rfl
  ⟨⟨_, h1.1, h1.2, by decide⟩, h2.elim fun t1 h => ⟨t1, h.2.1, h.2.2.2.1⟩⟩

/-! ## The cp437 table and the cell transforms -/

set_option maxRecDepth 100000 in
theorem map_entries_lt : ∀ x ∈ cp437_to_ascii_map, x < 128 := by decide

theorem map_lt (k : Nat) : cp437_to_ascii_map.getD k 0 < 128 := by
  by_cases h : k < cp437_to_ascii_map.length
  · rw [List.getD_eq_getElem _ _ h]
    exact map_entries_lt _ (List.getElem_mem _)
  · rw [List.getD_eq_default _ _ (by omega)]
    decide

theorem testBit_low (m i : Nat) (hm : m < 256) (hi : 8 ≤ i) : m.testBit i = false :=
  Nat.testBit_lt_two_pow (lt_of_lt_of_le hm
    (le_trans (by norm_num : 256 ≤ 2 ^ 8) (Nat.pow_le_pow_right (by norm_num) hi)))

theorem testBit_flags (T i : Nat) (hT : T &&& 0xffff0000 = T) :
    T.testBit i = (T.testBit i && decide (16 ≤ i ∧ i < 32)) := by
  conv_lhs => rw [← hT]
  rw [show (0xffff0000 : Nat) = (2 ^ 16 - 1) <<< 16 by decide]
  simp only [Nat.testBit_and, Nat.testBit_shiftLeft, Nat.testBit_two_pow_sub_one]
  by_cases h16 : 16 ≤ i <;> by_cases h32 : i < 32 <;> simp [h16, h32] <;> omega

theorem testBit_ACREST (c j : Nat) :
    (ACREST c).testBit j = (c.testBit j && decide (8 ≤ j ∧ j < 32)) := by
  unfold ACREST
  rw [show (0xffffff00 : Nat) = (2 ^ 24 - 1) <<< 8 by decide]
  simp only [Nat.testBit_and, Nat.testBit_shiftLeft, Nat.testBit_two_pow_sub_one]
  by_cases h8 : 8 ≤ j <;> by_cases h32 : j < 32 <;> simp [h8, h32] <;> omega

/-- The bits of a cell rebuilt as `(ACREST c ^^^ T) ||| m` from flag bits `T` and a
character `m`. -/
theorem testBit_rebuilt (c T m i : Nat) (hT : T &&& 0xffff0000 = T) (hm : m < 256) :
    ((ACREST c ^^^ T) ||| m).testBit i =
      if i < 8 then m.testBit i
      else if i < 16 then c.testBit i
      else if i < 32 then (c.testBit i ^^ T.testBit i)
      else false := by
  have hTi := testBit_flags T i hT
  simp only [Nat.testBit_or, Nat.testBit_xor, testBit_ACREST]
  by_cases h8 : i < 8
  · rw [if_pos h8, hTi]
    simp [show ¬ (8 ≤ i) by omega, show ¬ (16 ≤ i) by omega]
  · rw [if_neg h8, testBit_low m i hm (by omega)]
    by_cases h16 : i < 16
    · rw [if_pos h16, hTi]
      simp [show 8 ≤ i by omega, show i < 32 by omega, show ¬ (16 ≤ i) by omega]
    · rw [if_neg h16]
      by_cases h32 : i < 32
      · rw [if_pos h32]
        simp [show 8 ≤ i by omega, h32]
      · rw [if_neg h32, hTi]
        simp [h32]

theorem ACCHAR_rebuilt (c T m : Nat) (hT : T &&& 0xffff0000 = T) (hm : m < 256) :
    ACCHAR ((ACREST c ^^^ T) ||| m) = m := by
  apply Nat.eq_of_testBit_eq
  intro i
  unfold ACCHAR
  rw [show (0xff : Nat) = 2 ^ 8 - 1 by norm_num, Nat.testBit_and, Nat.testBit_two_pow_sub_one,
    testBit_rebuilt c T m i hT hm]
  by_cases h8 : i < 8
  · simp [h8]
  · simp [h8, testBit_low m i hm (by omega)]

theorem ACFG_rebuilt (c T m : Nat) (hT : T &&& 0xffff0000 = T) (hm : m < 256) :
    ACFG ((ACREST c ^^^ T) ||| m) = ACFG c := by
  apply Nat.eq_of_testBit_eq
  intro i
  unfold ACFG
  rw [show (0xf : Nat) = 2 ^ 4 - 1 by norm_num]
  simp only [Nat.testBit_and, Nat.testBit_shiftRight, Nat.testBit_two_pow_sub_one,
    testBit_rebuilt c T m _ hT hm]
  by_cases h4 : i < 4
  · simp [h4, show ¬ (8 + i < 8) by omega, show 8 + i < 16 by omega]
  · simp [h4]

theorem ACBG_rebuilt (c T m : Nat) (hT : T &&& 0xffff0000 = T) (hm : m < 256) :
    ACBG ((ACREST c ^^^ T) ||| m) = ACBG c := by
  apply Nat.eq_of_testBit_eq
  intro i
  unfold ACBG
  rw [show (0xf : Nat) = 2 ^ 4 - 1 by norm_num]
  simp only [Nat.testBit_and, Nat.testBit_shiftRight, Nat.testBit_two_pow_sub_one,
    testBit_rebuilt c T m _ hT hm]
  by_cases h4 : i < 4
  · simp [h4, show ¬ (12 + i < 8) by omega, show 12 + i < 16 by omega]
  · simp [h4]

theorem ACFLAGS_rebuilt (c T m : Nat) (hT : T &&& 0xffff0000 = T) (hm : m < 256) :
    ACFLAGS ((ACREST c ^^^ T) ||| m) = ACFLAGS c ^^^ T := by
  apply Nat.eq_of_testBit_eq
  intro i
  have hTi := testBit_flags T i hT
  unfold ACFLAGS
  rw [show (0xffff0000 : Nat) = (2 ^ 16 - 1) <<< 16 by decide]
  simp only [Nat.testBit_and, Nat.testBit_xor, Nat.testBit_shiftLeft,
    Nat.testBit_two_pow_sub_one, testBit_rebuilt c T m _ hT hm]
  by_cases h16 : 16 ≤ i
  · by_cases h32 : i < 32
    · simp [h16, h32, show ¬ (i < 8) by omega, show ¬ (i < 16) by omega,
        show i - 16 < 16 by omega]
    · rw [hTi]
      simp [h16, h32, show ¬ (i < 8) by omega, show ¬ (i < 16) by omega,
        show ¬ (i - 16 < 16) by omega]
  · rw [hTi]
    simp [h16]

/-- The flag bits `cp437_to_ascii` flips, by the character of the cell. -/
theorem cp437_cell_eq (c : Nat) :
    cp437_cell c =
      (ACREST c ^^^
        (if ACCHAR c = 0x02 ∨ ACCHAR c = 0xb2 ∨ ACCHAR c = 0xdb then ACF_BGBOLD ||| ACF_INVERSE
         else if ACCHAR c = 0xb1 then ACF_BOLD else 0)) |||
      cp437_to_ascii_map.getD (ACCHAR c) 0 := by
  unfold cp437_cell
  simp only []
  split_ifs
  · rw [Nat.xor_assoc]
    rfl
  · rfl
  · rw [Nat.xor_zero]

theorem toggle_is_flags (g : Nat) :
    (if g = 0x02 ∨ g = 0xb2 ∨ g = 0xdb then ACF_BGBOLD ||| ACF_INVERSE
     else if g = 0xb1 then ACF_BOLD else 0) &&& 0xffff0000 =
    (if g = 0x02 ∨ g = 0xb2 ∨ g = 0xdb then ACF_BGBOLD ||| ACF_INVERSE
     else if g = 0xb1 then ACF_BOLD else 0) := by
  split_ifs <;> decide

/-! ## C11: the character-set translation -/

/-- C11 as stated fails: the glyph 0x02 is none of 0xb1, 0xb2, 0xdb and its cell does
not keep its flags: BgBold and Inverse are set on it. -/
theorem cp437_flags_glyph_02 :
    ACCHAR (AC 0x02 7 0 0) = 0x02 ∧ ACFLAGS (AC 0x02 7 0 0) = 0 ∧
    ACFLAGS (cp437_cell (AC 0x02 7 0 0)) = ACF_BGBOLD ||| ACF_INVERSE ∧
    ACFLAGS (cp437_cell (AC 0x02 7 0 0)) ≠ ACFLAGS (AC 0x02 7 0 0) := by
  decide

/-- C11, amended: `cp437_to_ascii` turns every cell of the grid, of glyph `g`, into the
cell of glyph `cp437_to_ascii_map[g]` with the same fg and bg; the flags are unchanged
for every glyph other than 0x02, 0xb1, 0xb2 and 0xdb; for 0x02, 0xb2 and 0xdb exactly
BgBold and Inverse are toggled; for 0xb1 exactly Bold is toggled. -/
theorem cp437_side_effects (screen : Screen) (i j : Nat) (hi : i < 1024) (hj : j < 80) :
    cp437_to_ascii screen i j = cp437_cell (screen i j) ∧
    ACCHAR (cp437_to_ascii screen i j) = cp437_to_ascii_map.getD (ACCHAR (screen i j)) 0 ∧
    ACFG (cp437_to_ascii screen i j) = ACFG (screen i j) ∧
    ACBG (cp437_to_ascii screen i j) = ACBG (screen i j) ∧
    (ACCHAR (screen i j) ≠ 0x02 ∧ ACCHAR (screen i j) ≠ 0xb1 ∧ ACCHAR (screen i j) ≠ 0xb2 ∧
        ACCHAR (screen i j) ≠ 0xdb →
      ACFLAGS (cp437_to_ascii screen i j) = ACFLAGS (screen i j)) ∧
    (ACCHAR (screen i j) = 0x02 ∨ ACCHAR (screen i j) = 0xb2 ∨ ACCHAR (screen i j) = 0xdb →
      ACFLAGS (cp437_to_ascii screen i j) =
        ACFLAGS (screen i j) ^^^ (ACF_BGBOLD ||| ACF_INVERSE)) ∧
    (ACCHAR (screen i j) = 0xb1 →
      ACFLAGS (cp437_to_ascii screen i j) = ACFLAGS (screen i j) ^^^ ACF_BOLD) := by
  have hcell : cp437_to_ascii screen i j = cp437_cell (screen i j) := by
    simp only [cp437_to_ascii, NROWS, NCOLS]
    rw [if_pos ⟨hi, hj⟩]
  have hm : cp437_to_ascii_map.getD (ACCHAR (screen i j)) 0 < 256 :=
    lt_trans (map_lt _) (by norm_num)
  have hT := toggle_is_flags (ACCHAR (screen i j))
  rw [hcell, cp437_cell_eq]
  refine ⟨rfl, ACCHAR_rebuilt _ _ _ hT hm, ACFG_rebuilt _ _ _ hT hm, ACBG_rebuilt _ _ _ hT hm,
    ?_, ?_, ?_⟩
  · rintro ⟨h02, hb1, hb2, hdb⟩
    rw [ACFLAGS_rebuilt _ _ _ hT hm, if_neg (by simp [h02, hb2, hdb]), if_neg hb1,
      Nat.xor_zero]
  · intro h
    rw [ACFLAGS_rebuilt _ _ _ hT hm, if_pos h]
  · intro h
    rw [ACFLAGS_rebuilt _ _ _ hT hm, if_neg (by rw [h]; decide), if_pos h]

/-- C11 (amended) on a screen that holds the solid block 0xdb, white on black, at
(0, 0): the cell becomes a space with BgBold and Inverse set. -/
theorem cp437_side_effects_witness :
    ACCHAR (cp437_to_ascii (screen_set blank 0 0 (AC 0xdb 7 0 0)) 0 0) = 32 ∧
    ACFLAGS (cp437_to_ascii (screen_set blank 0 0 (AC 0xdb 7 0 0)) 0 0) =
      ACF_BGBOLD ||| ACF_INVERSE :=
  have h := cp437_side_effects (screen_set blank 0 0 (AC 0xdb 7 0 0)) 0 0
    (by decide) (by decide)
  ⟨h.2.1.trans (by decide), (h.2.2.2.2.2.1 (by decide)).trans (by decide)⟩

/-! ## C12: attribute normalisation -/

theorem or_eight (n : Nat) (h : n ≤ 7) : n ||| 8 = n + 8 := by
  interval_cases n <;> rfl

theorem AC_mask (ch a b : Nat) : AC (ch % 256) (a % 16) (b % 16) 0 = AC ch a b 0 := by
  unfold AC
  rw [show (0xff : Nat) = 2 ^ 8 - 1 by norm_num, show (0xf : Nat) = 2 ^ 4 - 1 by norm_num]
  simp only [Nat.and_pow_two_sub_one_eq_mod, Nat.mod_mod]

theorem AC_zero_ne_default (ch a b : Nat) : AC ch a b 0 ≠ default_char := by
  intro h
  have h1 := congrArg ACFLAGS h
  rw [ACFLAGS_AC] at h1
  exact absurd h1 (by decide)

/-- A cell without flags is left as it is by `normalize`. -/
theorem normalize_cell_plain (ch a b : Nat) : normalize_cell (AC ch a b 0) = AC ch a b 0 := by
  unfold normalize_cell
  rw [if_neg (AC_zero_ne_default ch a b)]
  simp only [ACFLAGS_AC, ACCHAR_AC, ACFG_AC, ACBG_AC]
  rw [if_neg (by decide), if_neg (by decide), if_neg (by decide)]
  exact AC_mask ch a b

theorem normalize_cell_idem (c : Nat) :
    normalize_cell (normalize_cell c) = normalize_cell c := by
  by_cases hd : c = default_char
  · have h : normalize_cell c = c := by unfold normalize_cell; rw [if_pos hd]
    rw [h, h]
  · have h : ∃ ch a b, normalize_cell c = AC ch a b 0 := by
      unfold normalize_cell
      rw [if_neg hd]
      simp only []
      split_ifs <;> exact ⟨_, _, _, rfl⟩
    obtain ⟨ch, a, b, h⟩ := h
    rw [h, normalize_cell_plain]

theorem flag_set_mask (bold underline blink inverse bgbold : Bool) :
    flag_set bold underline blink inverse bgbold &&& 0xffff0000 =
      flag_set bold underline blink inverse bgbold := by
  cases bold <;> cases underline <;> cases blink <;> cases inverse <;> cases bgbold <;> decide

theorem flag_set_tests (bold underline blink inverse bgbold : Bool) :
    (flag_set bold underline blink inverse bgbold &&& ACF_BOLD ≠ 0 ↔ bold = true) ∧
    (flag_set bold underline blink inverse bgbold &&& ACF_BGBOLD ≠ 0 ↔ bgbold = true) ∧
    (flag_set bold underline blink inverse bgbold &&& ACF_INVERSE ≠ 0 ↔ inverse = true) ∧
    flag_set bold underline blink inverse bgbold ≠ ACF_UNCHANGED := by
  cases bold <;> cases underline <;> cases blink <;> cases inverse <;> cases bgbold <;> decide

/-- C12: for glyph `g`, colours `fg`, `bg` in 0..7 and any set of the five style
flags, `normalize` turns the cell into the cell of glyph `g`, no flags, and colours
`resolved_colors`: Bold adds 8 to fg, BgBold adds 8 to bg, Inverse swaps the two;
Underline and Blink do not enter.  `default_char` is left unchanged, and `normalize`
applied twice is `normalize` applied once, cell by cell and on the whole screen. -/
theorem normalize_resolves (g fg bg : Nat) (bold underline blink inverse bgbold : Bool)
    (hg : g < 256) (hfg : fg ≤ 7) (hbg : bg ≤ 7) :
    AC g fg bg (flag_set bold underline blink inverse bgbold) ≠ default_char ∧
    normalize_cell (AC g fg bg (flag_set bold underline blink inverse bgbold)) =
      AC g (resolved_colors fg bg bold inverse bgbold).1
        (resolved_colors fg bg bold inverse bgbold).2 0 ∧
    ACCHAR (normalize_cell (AC g fg bg (flag_set bold underline blink inverse bgbold))) = g ∧
    ACFG (normalize_cell (AC g fg bg (flag_set bold underline blink inverse bgbold))) =
      (resolved_colors fg bg bold inverse bgbold).1 ∧
    ACBG (normalize_cell (AC g fg bg (flag_set bold underline blink inverse bgbold))) =
      (resolved_colors fg bg bold inverse bgbold).2 ∧
    ACFLAGS (normalize_cell (AC g fg bg (flag_set bold underline blink inverse bgbold))) = 0 ∧
    normalize_cell default_char = default_char ∧
    (∀ c, normalize_cell (normalize_cell c) = normalize_cell c) ∧
    (∀ screen : Screen, normalize (normalize screen) = normalize screen) := by
  have hmask := flag_set_mask bold underline blink inverse bgbold
  obtain ⟨hB, hG, hI, hU⟩ := flag_set_tests bold underline blink inverse bgbold
  have hne : AC g fg bg (flag_set bold underline blink inverse bgbold) ≠ default_char := by
    intro h
    have h1 := congrArg ACFLAGS h
    rw [ACFLAGS_AC, hmask] at h1
    exact hU (h1.trans (by decide))
  have hval : normalize_cell (AC g fg bg (flag_set bold underline blink inverse bgbold)) =
      AC g (resolved_colors fg bg bold inverse bgbold).1
        (resolved_colors fg bg bold inverse bgbold).2 0 := by
    unfold normalize_cell
    rw [if_neg hne]
    simp only [ACFLAGS_AC, ACCHAR_AC, ACFG_AC, ACBG_AC, hmask, resolved_colors]
    rw [Nat.mod_eq_of_lt hg, Nat.mod_eq_of_lt (by omega : fg < 16),
      Nat.mod_eq_of_lt (by omega : bg < 16), or_eight fg hfg, or_eight bg hbg]
    cases bold <;> cases bgbold <;> cases inverse <;> simp_all
  have hlt : (resolved_colors fg bg bold inverse bgbold).1 < 16 ∧
      (resolved_colors fg bg bold inverse bgbold).2 < 16 := by
    unfold resolved_colors
    cases bold <;> cases bgbold <;> cases inverse <;> simp <;> omega
  refine ⟨hne, hval, ?_, ?_, ?_, ?_, ?_, normalize_cell_idem, ?_⟩
  · rw [hval, ACCHAR_AC, Nat.mod_eq_of_lt hg]
  · rw [hval, ACFG_AC, Nat.mod_eq_of_lt hlt.1]
  · rw [hval, ACBG_AC, Nat.mod_eq_of_lt hlt.2]
  · rw [hval, ACFLAGS_AC]; rfl
  · unfold normalize_cell; rw [if_pos rfl]
  · intro screen
    funext i j
    unfold normalize
    by_cases h : i < NROWS ∧ j < NCOLS
    · simp only [if_pos h]
      exact normalize_cell_idem _
    · simp only [if_neg h]

/-- C12 at a bold, underlined, inverse `A`, red on blue: the resolved cell is `A` with
foreground 4 (blue) and background 9 (bright red). -/
theorem normalize_resolves_witness :
    normalize_cell (AC 65 1 4 (flag_set true true false true false)) = AC 65 4 9 0 :=
  (normalize_resolves 65 1 4 true true false true false (by decide) (by decide)
    (by decide)).2.1

/-! ## The scans of output_mirc -/

theorem row_used_false (screen : Screen) (i : Nat)
    (h : ∀ j, j < NCOLS → screen i j = default_char) : row_used screen i = false := by
  unfold row_used
  rw [List.any_eq_false]
  intro j hj
  simp only [List.mem_range] at hj
  simp [h j hj]

theorem row_used_true (screen : Screen) (i j : Nat) (hj : j < NCOLS)
    (h : screen i j ≠ default_char) : row_used screen i = true := by
  unfold row_used
  rw [List.any_eq_true]
  exact ⟨j, List.mem_range.mpr hj, by simp [h]⟩

theorem last_scan_none (screen : Screen) (n : Nat)
    (h : ∀ i, i < n → row_used screen i = false) : last_scan screen n = -1 := by
  induction n with
  | zero => rfl
  | succ n ih =>
    unfold last_scan
    rw [if_neg (by rw [h n (by omega)]; decide)]
    exact ih (fun i hi => h i (by omega))

theorem last_scan_found (screen : Screen) (L n : Nat) (hL : L < n)
    (hu : row_used screen L = true)
    (h : ∀ i, L < i → i < n → row_used screen i = false) :
    last_scan screen n = (L : Int) - 1 := by
  induction n with
  | zero => omega
  | succ n ih =>
    unfold last_scan
    by_cases hn : L = n
    · subst hn
      rw [if_pos hu]
    · rw [if_neg (by rw [h n (by omega) (by omega)]; decide)]
      exact ih (by omega) (fun i h1 h2 => h i h1 (by omega))

theorem stop_count_none (row : Nat → achar_t) (n : Nat)
    (h : ∀ j, j < n → row j = default_char) : stop_count row n = 0 := by
  induction n with
  | zero => rfl
  | succ n ih =>
    unfold stop_count
    rw [if_neg (by simp [h n (by omega)])]
    exact ih (fun j hj => h j (by omega))

theorem stop_count_found (row : Nat → achar_t) (k n : Nat) (hk : k < n)
    (hu : row k ≠ default_char) (h : ∀ j, k < j → j < n → row j = default_char) :
    stop_count row n = k + 1 := by
  induction n with
  | zero => omega
  | succ n ih =>
    unfold stop_count
    by_cases hn : k = n
    · subst hn
      rw [if_pos hu]
    · rw [if_neg (by simp [h n (by omega) (by omega)])]
      exact ih (by omega) (fun j h1 h2 => h j h1 (by omega))

/-- The rows written by `output_mirc` when `L` is the last used row. -/
theorem output_mirc_found (screen : Screen) (L colstart colend : Nat) (hL : L < NROWS)
    (hu : row_used screen L = true)
    (h : ∀ i, L < i → i < NROWS → row_used screen i = false) :
    output_mirc screen colstart colend =
      output_rows screen colstart (min colend (L + 1) - colstart) := by
  unfold output_mirc
  rw [last_scan_found screen L NROWS hL hu h, MIN_int]
  have hl : (min (colend : Int) ((L : Int) - 1 + 2)).toNat = min colend (L + 1) := by omega
  simp only [hl]

/-- The rows written by `output_mirc` when no row is used. -/
theorem output_mirc_none (screen : Screen) (colstart colend : Nat)
    (h : ∀ i, i < NROWS → row_used screen i = false) :
    output_mirc screen colstart colend = output_rows screen colstart (min colend 1 - colstart) := by
  unfold output_mirc
  rw [last_scan_none screen NROWS h, MIN_int]
  have hl : (min (colend : Int) (-1 + 2)).toNat = min colend 1 := by omega
  simp only [hl]

theorem output_row_eq (row : Nat → achar_t) (k : Nat) (hk : stop_count row NCOLS = k) :
    output_row row = put_cells 65535 65535 ((List.range k).map row) ++ [10] := by
  unfold output_row
  rw [hk]

/-! ## C13: colour coalescing -/

theorem fmt02d_small (n : Nat) (h : n < 16) : fmt02d n = [48 + n / 10, 48 + n % 10] := by
  interval_cases n <;> rfl

theorem sgr_to_mirc_lt (k : Nat) : sgr_to_mirc.getD k 0 < 16 := by
  by_cases h : k < 16
  · interval_cases k <;> decide
  · rw [List.getD_eq_default _ _ (by simp only [sgr_to_mirc, List.length]; omega)]
    decide

theorem cell_fg_eq (c : achar_t) : cell_fg c = sgr_to_mirc.getD (ACFG c) 0 := by
  unfold cell_fg
  split_ifs with h
  · rw [h]; rfl
  · rfl

theorem cell_bg_eq (c : achar_t) : cell_bg c = sgr_to_mirc.getD (ACBG c) 0 := by
  unfold cell_bg
  split_ifs with h
  · rw [h]; rfl
  · rfl

theorem cell_fg_lt (c : achar_t) : cell_fg c < 16 := by
  rw [cell_fg_eq]; exact sgr_to_mirc_lt _

theorem cell_bg_lt (c : achar_t) : cell_bg c < 16 := by
  rw [cell_bg_eq]; exact sgr_to_mirc_lt _

theorem color_escape_same (f b : Nat) : color_escape f b f b = [] := by
  unfold color_escape
  rw [if_neg (by simp)]

theorem color_escape_bg (f b f1 b1 : Nat) (hf : f1 < 16) (hb : b1 < 16) (h : b ≠ b1) :
    color_escape f b f1 b1 =
      [3, 48 + f1 / 10, 48 + f1 % 10, 44, 48 + b1 / 10, 48 + b1 % 10] := by
  unfold color_escape
  rw [if_pos (Or.inr h), if_pos h, fmt02d_small f1 hf, fmt02d_small b1 hb]
  rfl

theorem color_escape_fg (f b f1 : Nat) (hf : f1 < 16) (h : f ≠ f1) :
    color_escape f b f1 b = [3, 48 + f1 / 10, 48 + f1 % 10] := by
  unfold color_escape
  rw [if_pos (Or.inl h), if_neg (by simp), fmt02d_small f1 hf]
  rfl

theorem color_escape_nil (f b f1 b1 : Nat) (hf : f1 < 16) (hb : b1 < 16)
    (h : color_escape f b f1 b1 = []) : f = f1 ∧ b = b1 := by
  by_cases hbb : b = b1
  · subst hbb
    by_cases hff : f = f1
    · exact ⟨hff, rfl⟩
    · rw [color_escape_fg f b f1 hf hff] at h
      exact absurd h (by simp)
  · rw [color_escape_bg f b f1 b1 hf hb hbb] at h
    exact absurd h (by simp)

theorem put_cells_from (row : Nat → achar_t) (n a : Nat) (ha : 1 ≤ a) :
    put_cells (cell_fg (row (a - 1))) (cell_bg (row (a - 1))) ((List.range' a n).map row) =
      (List.range' a n).flatMap (fun j => escape_at row j ++ [ACCHAR (row j)]) := by
  induction n generalizing a with
  | zero => rfl
  | succ n ih =>
    have hesc : escape_at row a = color_escape (cell_fg (row (a - 1))) (cell_bg (row (a - 1)))
        (cell_fg (row a)) (cell_bg (row a)) := by
      unfold escape_at
      rw [if_neg (by omega)]
    have hih := ih (a + 1) (by omega)
    rw [Nat.add_sub_cancel] at hih
    rw [List.range'_succ, List.map_cons, List.flatMap_cons, put_cells, hih, hesc]

theorem output_row_escapes (row : Nat → achar_t) :
    output_row row =
      (List.range (stop_count row NCOLS)).flatMap (fun j => escape_at row j ++ [ACCHAR (row j)])
        ++ [10] := by
  unfold output_row
  congr 1
  rw [List.range_eq_range']
  cases stop_count row NCOLS with
  | zero => rfl
  | succ n =>
    have h1 := put_cells_from row n 1 (Nat.le_refl 1)
    have hesc : escape_at row 0 =
        color_escape 65535 65535 (cell_fg (row 0)) (cell_bg (row 0)) := by
      unfold escape_at
      rw [if_pos rfl]
    rw [List.range'_succ, List.map_cons, List.flatMap_cons, put_cells, hesc]
    simp only [Nat.zero_add]
    rw [← h1]

/-- With no escape written strictly between two columns, the colours at the second
column's predecessor are those of the first column. -/
theorem colors_constant (row : Nat → achar_t) (j d : Nat)
    (h : ∀ i, j < i → i ≤ j + d → escape_at row i = []) :
    cell_fg (row (j + d)) = cell_fg (row j) ∧ cell_bg (row (j + d)) = cell_bg (row j) := by
  induction d with
  | zero => exact ⟨rfl, rfl⟩
  | succ d ih =>
    have h1 := ih (fun i hi1 hi2 => h i hi1 (by omega))
    have h2 := h (j + (d + 1)) (by omega) (Nat.le_refl _)
    unfold escape_at at h2
    rw [if_neg (by omega)] at h2
    have h3 := color_escape_nil _ _ _ _ (cell_fg_lt _) (cell_bg_lt _) h2
    have hidx : j + (d + 1) - 1 = j + d := by omega
    rw [hidx] at h3
    exact ⟨h3.1.symm.trans h1.1, h3.2.symm.trans h1.2⟩

theorem digits_inj (a b : Nat)
    (h : 48 + a / 10 = 48 + b / 10 ∧ 48 + a % 10 = 48 + b % 10) : a = b := by
  omega

/-- What a written escape tells: it is the combined form for the colours of the cell,
or the foreground-only form, written when the background did not change. -/
theorem escape_at_forms (row : Nat → achar_t) (j : Nat) (h : escape_at row j ≠ []) :
    escape_at row j = [3, 48 + cell_fg (row j) / 10, 48 + cell_fg (row j) % 10, 44,
      48 + cell_bg (row j) / 10, 48 + cell_bg (row j) % 10] ∨
    escape_at row j = [3, 48 + cell_fg (row j) / 10, 48 + cell_fg (row j) % 10] := by
  have hf := cell_fg_lt (row j)
  have hb := cell_bg_lt (row j)
  unfold escape_at at h ⊢
  by_cases h0 : j = 0
  · subst h0
    rw [if_pos rfl]
    exact Or.inl (color_escape_bg _ _ _ _ hf hb (by omega))
  · rw [if_neg h0] at h ⊢
    by_cases hbb : cell_bg (row (j - 1)) = cell_bg (row j)
    · rw [hbb] at h ⊢
      by_cases hff : cell_fg (row (j - 1)) = cell_fg (row j)
      · rw [hff, color_escape_same] at h
        exact absurd rfl h
      · exact Or.inr (color_escape_fg _ _ _ hf hff)
    · exact Or.inl (color_escape_bg _ _ _ _ hf hb hbb)

/-- C13, amended: the bytes of an emitted row are, column by column up to the last cell
that is not `default_char`, the escape `escape_at` and the glyph, then one 0x0a.  The
colours compared are the mIRC indices `sgr_to_mirc[fg]`, `sgr_to_mirc[bg]` of the
cells.  For a column `j ≥ 1` an escape is written exactly when the fg or bg index
differs from that of the cell at column `j - 1`, hence only if the fg or bg colour of
the cell differs; it is `0x03 ff,bb` when the bg index changed and `0x03 ff` when only
the fg index changed; cells of equal colours are not separated by an escape; and an
escape is never equal to the escape written before it in the row.  The table sends the
colours 3 and 11 to the same index, and 9 and 13. -/
theorem color_coalescing (row : Nat → achar_t) :
    output_row row =
      (List.range (stop_count row NCOLS)).flatMap
        (fun j => escape_at row j ++ [ACCHAR (row j)]) ++ [10] ∧
    (∀ c : achar_t, cell_fg c = sgr_to_mirc.getD (ACFG c) 0 ∧
      cell_bg c = sgr_to_mirc.getD (ACBG c) 0) ∧
    (∀ j, 1 ≤ j →
      (escape_at row j ≠ [] ↔
        (cell_fg (row j) ≠ cell_fg (row (j - 1)) ∨ cell_bg (row j) ≠ cell_bg (row (j - 1)))) ∧
      (escape_at row j ≠ [] →
        ACFG (row j) ≠ ACFG (row (j - 1)) ∨ ACBG (row j) ≠ ACBG (row (j - 1))) ∧
      (cell_bg (row j) ≠ cell_bg (row (j - 1)) →
        escape_at row j = [3, 48 + cell_fg (row j) / 10, 48 + cell_fg (row j) % 10, 44,
          48 + cell_bg (row j) / 10, 48 + cell_bg (row j) % 10]) ∧
      (cell_fg (row j) ≠ cell_fg (row (j - 1)) → cell_bg (row j) = cell_bg (row (j - 1)) →
        escape_at row j = [3, 48 + cell_fg (row j) / 10, 48 + cell_fg (row j) % 10]) ∧
      (ACFG (row j) = ACFG (row (j - 1)) → ACBG (row j) = ACBG (row (j - 1)) →
        escape_at row j = [])) ∧
    (∀ j k, j < k → escape_at row j ≠ [] → escape_at row k ≠ [] →
      (∀ i, j < i → i < k → escape_at row i = []) → escape_at row j ≠ escape_at row k) ∧
    (sgr_to_mirc.getD 3 0 = sgr_to_mirc.getD 11 0 ∧
      sgr_to_mirc.getD 9 0 = sgr_to_mirc.getD 13 0) := by
  refine ⟨output_row_escapes row, fun c => ⟨cell_fg_eq c, cell_bg_eq c⟩, ?_, ?_, by decide⟩
  · intro j hj
    have hesc : escape_at row j = color_escape (cell_fg (row (j - 1))) (cell_bg (row (j - 1)))
        (cell_fg (row j)) (cell_bg (row j)) := by
      unfold escape_at
      rw [if_neg (by omega)]
    have hsame : ACFG (row j) = ACFG (row (j - 1)) → ACBG (row j) = ACBG (row (j - 1)) →
        escape_at row j = [] := by
      intro h1 h2
      rw [hesc, cell_fg_eq (row j), cell_bg_eq (row j), cell_fg_eq (row (j - 1)),
        cell_bg_eq (row (j - 1)), h1, h2, color_escape_same]
    have hcomb : cell_bg (row j) ≠ cell_bg (row (j - 1)) →
        escape_at row j = [3, 48 + cell_fg (row j) / 10, 48 + cell_fg (row j) % 10, 44,
          48 + cell_bg (row j) / 10, 48 + cell_bg (row j) % 10] := by
      intro hb
      rw [hesc]
      exact color_escape_bg _ _ _ _ (cell_fg_lt _) (cell_bg_lt _) (fun h => hb h.symm)
    have hfg : cell_fg (row j) ≠ cell_fg (row (j - 1)) →
        cell_bg (row j) = cell_bg (row (j - 1)) →
        escape_at row j = [3, 48 + cell_fg (row j) / 10, 48 + cell_fg (row j) % 10] := by
      intro hf hb
      rw [hesc, ← hb]
      exact color_escape_fg _ _ _ (cell_fg_lt _) (fun h => hf h.symm)
    refine ⟨⟨?_, ?_⟩, ?_, hcomb, hfg, hsame⟩
    · intro hne
      by_contra hcon
      simp only [not_or, not_not] at hcon
      rw [hesc, hcon.1, hcon.2, color_escape_same] at hne
      exact hne rfl
    · intro hch
      by_cases hb : cell_bg (row j) = cell_bg (row (j - 1))
      · rcases hch with hf | hb1
        · rw [hfg hf hb]
          simp
        · exact absurd hb hb1
      · rw [hcomb hb]
        simp
    · intro hne
      by_contra hcon
      simp only [not_or, not_not] at hcon
      exact hne (hsame hcon.1 hcon.2)
  · intro j k hjk hj hk hgap heq
    obtain ⟨d, rfl⟩ : ∃ d, k = j + d + 1 := ⟨k - j - 1, by omega⟩
    have hcol := colors_constant row j d (fun i h1 h2 => hgap i h1 (by omega))
    have hesc : escape_at row (j + d + 1) =
        color_escape (cell_fg (row j)) (cell_bg (row j))
          (cell_fg (row (j + d + 1))) (cell_bg (row (j + d + 1))) := by
      unfold escape_at
      rw [if_neg (by omega), Nat.add_sub_cancel, hcol.1, hcol.2]
    have hfk := cell_fg_lt (row (j + d + 1))
    have hbk := cell_bg_lt (row (j + d + 1))
    by_cases hbb : cell_bg (row j) = cell_bg (row (j + d + 1))
    · by_cases hff : cell_fg (row j) = cell_fg (row (j + d + 1))
      · rw [hesc, hbb, hff, color_escape_same] at hk
        exact hk rfl
      · have hk3 : escape_at row (j + d + 1) = [3, 48 + cell_fg (row (j + d + 1)) / 10,
            48 + cell_fg (row (j + d + 1)) % 10] := by
          rw [hesc, hbb]
          exact color_escape_fg _ _ _ hfk hff
        rcases escape_at_forms row j hj with h6 | h3
        · rw [h6, hk3] at heq
          simp at heq
        · rw [h3, hk3] at heq
          simp only [List.cons.injEq, and_true, true_and] at heq
          exact hff (digits_inj _ _ heq)
    · have hk6 : escape_at row (j + d + 1) = [3, 48 + cell_fg (row (j + d + 1)) / 10,
          48 + cell_fg (row (j + d + 1)) % 10, 44, 48 + cell_bg (row (j + d + 1)) / 10,
          48 + cell_bg (row (j + d + 1)) % 10] := by
        rw [hesc]
        exact color_escape_bg _ _ _ _ hfk hbk hbb
      rcases escape_at_forms row j hj with h6 | h3
      · rw [h6, hk6] at heq
        simp only [List.cons.injEq, and_true, true_and] at heq
        exact hbb (digits_inj _ _ ⟨heq.2.2.1, heq.2.2.2⟩)
      · rw [h3, hk6] at heq
        simp at heq

/-! ## C14: the printed rows -/

/-- The rows `output_mirc` writes come one after the other in increasing order, one
line each, closed by one 0x0a. -/
theorem output_rows_lines (screen : Screen) (start n : Nat) :
    output_rows screen start n =
      (List.range' start n).flatMap (fun i => output_row (screen i)) ∧
    ∀ i, ∃ body, output_row (screen i) = body ++ [10] := by
  refine ⟨?_, fun i => ⟨_, rfl⟩⟩
  induction n generalizing start with
  | zero => rfl
  | succ n ih =>
    rw [output_rows, ih (start + 1), List.range'_succ, List.flatMap_cons]

/-- What `output_mirc` prints when the grid has a cell other than `default_char`: one
line for each row `i` with `start ≤ i < min end (L + 1)`, `L` the last used row. -/
theorem printed_rows (screen : Screen) (L colstart colend : Nat) (hL : L < NROWS)
    (hu : row_used screen L = true)
    (h : ∀ i, L < i → i < NROWS → row_used screen i = false) :
    output_mirc screen colstart colend =
      (List.range' colstart (min colend (L + 1) - colstart)).flatMap
        (fun i => output_row (screen i)) := by
  rw [output_mirc_found screen L colstart colend hL hu h]
  exact (output_rows_lines screen _ _).1

theorem blank_row_used (i : Nat) : row_used blank i = false :=
  row_used_false blank i (fun _ _ => rfl)

/-- C14 on the grid that holds no cell other than `default_char`, rows 0 to 80: the
scan leaves `i = -1`, `lasti` becomes `MIN(colend, i+2) = 1`, and row 0 is printed as
one empty line, where the claim has no output line at all.  It is what `main` prints
for the empty input. -/
theorem blank_grid_prints_a_line :
    last_scan blank NROWS = -1 ∧
    output_mirc blank 0 80 = [10] ∧
    main ⟨false, false⟩ 0 80 [] = some [10] := by
  have h1 : last_scan blank NROWS = -1 := last_scan_none blank NROWS (fun i _ => blank_row_used i)
  have h2 : ∀ screen : Screen, (∀ i j, i < NROWS → j < NCOLS → screen i j = default_char) →
      output_mirc screen 0 80 = [10] := by
    intro screen hs
    rw [output_mirc_none screen 0 80
      (fun i hi => row_used_false screen i (fun j hj => hs i j hi hj))]
    have hrow : output_row (screen 0) = [10] := by
      rw [output_row_eq (screen 0) 0 (stop_count_none _ _ (fun j hj => hs 0 j (by decide) hj))]
      rfl
    show output_row (screen 0) ++ [] = [10]
    rw [hrow]
    rfl
  refine ⟨h1, h2 blank (fun _ _ _ _ => rfl), ?_⟩
  have hr : read_ansi ⟨false, false⟩ [] (clear_screen (fun _ _ => 0)) =
      .returned (Term.init (clear_screen (fun _ _ => 0))) := rfl
  unfold main
  rw [hr]
  simp only [Option.some.injEq]
  apply h2
  intro i j hi hj
  simp only [normalize, cp437_to_ascii, Term.init, clear_screen, if_pos (And.intro hi hj)]
  decide

/-! ## The pipeline on a screen -/

theorem pipeline_cell (u : Screen) (i j : Nat) (hi : i < NROWS) (hj : j < NCOLS) :
    normalize (cp437_to_ascii u) i j = normalize_cell (cp437_cell (u i j)) := by
  simp only [normalize, cp437_to_ascii, if_pos (And.intro hi hj)]

theorem pipeline_default : normalize_cell (cp437_cell default_char) = default_char := by
  decide

/-- The output for a screen whose only used row is row 0, used up to column `k`. -/
theorem output_one_row (s : Screen) (k colend : Nat) (hk : k < NCOLS) (hce : 1 ≤ colend)
    (hlast : s 0 k ≠ default_char)
    (hcols : ∀ j, k < j → j < NCOLS → s 0 j = default_char)
    (hrows : ∀ i j, 0 < i → i < NROWS → j < NCOLS → s i j = default_char) :
    output_mirc s 0 colend = put_cells 65535 65535 ((List.range (k + 1)).map (s 0)) ++ [10] := by
  rw [output_mirc_found s 0 0 colend (by decide) (row_used_true s 0 k hk hlast)
    (fun i h1 h2 => row_used_false s i (fun j hj => hrows i j h1 h2 hj))]
  have h1 : min colend (0 + 1) - 0 = 1 := by omega
  rw [h1]
  show output_row (s 0) ++ [] = _
  rw [List.append_nil, output_row_eq (s 0) (k + 1) (stop_count_found (s 0) k NCOLS hk hlast hcols)]

/-! ## C13: the change of colour measured on the cells -/

/-- The output for a screen on which `read_ansi` stored two cells, at the start of row
0, and nothing else. -/
theorem output_two_cells (g : Screen) (a b : achar_t)
    (hb : normalize_cell (cp437_cell b) ≠ default_char) :
    output_mirc (normalize (cp437_to_ascii
        (screen_set (screen_set (clear_screen g) 0 0 a) 0 1 b))) 0 80 =
      put_cells 65535 65535 [normalize_cell (cp437_cell a), normalize_cell (cp437_cell b)] ++
        [10] := by
  rw [output_one_row _ 1 80 (by decide) (by decide)]
  · have h0 : normalize (cp437_to_ascii (screen_set (screen_set (clear_screen g) 0 0 a) 0 1 b))
        0 0 = normalize_cell (cp437_cell a) := by
      rw [pipeline_cell _ 0 0 (by decide) (by decide)]
      rfl
    have h1 : normalize (cp437_to_ascii (screen_set (screen_set (clear_screen g) 0 0 a) 0 1 b))
        0 1 = normalize_cell (cp437_cell b) := by
      rw [pipeline_cell _ 0 1 (by decide) (by decide)]
      rfl
    show put_cells 65535 65535 [_, _] ++ [10] = _
    rw [h0, h1]
  · rw [pipeline_cell _ 0 1 (by decide) (by decide)]
    exact hb
  · intro j h1 h2
    rw [pipeline_cell _ 0 j (by decide) h2]
    simp only [screen_set, clear_screen, NROWS, NCOLS] at h2 ⊢
    rw [if_neg (by omega), if_neg (by omega), if_pos (by omega)]
    exact pipeline_default
  · intro i j h0 h1 h2
    rw [pipeline_cell _ i j h1 h2]
    simp only [screen_set, clear_screen, NROWS, NCOLS] at h1 h2 ⊢
    rw [if_neg (by omega), if_neg (by omega), if_pos (by omega)]
    exact pipeline_default

/-- C13 as stated fails, the change being measured on the colours of the cells.
(1) `ESC [ 3 3 m A ESC [ 1 m B`: after the pipeline the cells of `A` and `B` have the
foregrounds 3 and 11 and the same background, so only the foreground changed, and no
escape is written before `B`, where the claim has the form `0x03 ff`.
(2) `ESC [ 1 ; 3 1 ; 4 0 m 0xdb ESC [ 3 5 ; 4 4 m 0xdb`: the cells have the colours
(8, 9) and (12, 13), so both changed, and the escape before the second glyph is the
foreground-only form `0x03 12`, where the claim has the combined form. -/
theorem coalescing_on_cell_colours :
    (∃ t : Term,
      read_ansi ⟨false, false⟩ [27, 91, 51, 51, 109, 65, 27, 91, 49, 109, 66]
        (clear_screen (fun _ _ => 0)) = .returned t ∧
      ACFG (normalize (cp437_to_ascii t.screen) 0 0) = 3 ∧
      ACFG (normalize (cp437_to_ascii t.screen) 0 1) = 11 ∧
      ACBG (normalize (cp437_to_ascii t.screen) 0 0) =
        ACBG (normalize (cp437_to_ascii t.screen) 0 1) ∧
      main ⟨false, false⟩ 0 80 [27, 91, 51, 51, 109, 65, 27, 91, 49, 109, 66] =
        some [3, 48, 56, 44, 48, 49, 65, 66, 10]) ∧
    (∃ t : Term,
      read_ansi ⟨false, false⟩
        [27, 91, 49, 59, 51, 49, 59, 52, 48, 109, 219, 27, 91, 51, 53, 59, 52, 52, 109, 219]
        (clear_screen (fun _ _ => 0)) = .returned t ∧
      (ACFG (normalize (cp437_to_ascii t.screen) 0 0),
        ACBG (normalize (cp437_to_ascii t.screen) 0 0)) = (8, 9) ∧
      (ACFG (normalize (cp437_to_ascii t.screen) 0 1),
        ACBG (normalize (cp437_to_ascii t.screen) 0 1)) = (12, 13) ∧
      main ⟨false, false⟩ 0 80
        [27, 91, 49, 59, 51, 49, 59, 52, 48, 109, 219, 27, 91, 51, 53, 59, 52, 52, 109, 219] =
        some [3, 49, 52, 44, 49, 51, 32, 3, 49, 50, 32, 10]) := by
  have hr1 : read_ansi ⟨false, false⟩ [27, 91, 51, 51, 109, 65, 27, 91, 49, 109, 66]
      (clear_screen (fun _ _ => 0)) = .returned { Term.init (screen_set (screen_set
        (clear_screen (fun _ _ => 0)) 0 0 (AC 65 3 0 0)) 0 1 (AC 66 3 0 ACF_BOLD)) with
        y := 2, curfg := 3, curflags := ACF_BOLD } := rfl
  have hr2 : read_ansi ⟨false, false⟩
      [27, 91, 49, 59, 51, 49, 59, 52, 48, 109, 219, 27, 91, 51, 53, 59, 52, 52, 109, 219]
      (clear_screen (fun _ _ => 0)) = .returned { Term.init (screen_set (screen_set
        (clear_screen (fun _ _ => 0)) 0 0 (AC 219 1 0 ACF_BOLD)) 0 1
        (AC 219 5 4 ACF_BOLD)) with
        y := 2, curfg := 5, curbg := 4, curflags := ACF_BOLD } := rfl
  refine ⟨⟨_, hr1, by decide, by decide, by decide, ?_⟩, ⟨_, hr2, by decide, by decide, ?_⟩⟩
  · unfold main
    rw [hr1]
    simp only [Option.some.injEq, Term.init]
    rw [output_two_cells (fun _ _ => 0) (AC 65 3 0 0) (AC 66 3 0 ACF_BOLD) (by decide)]
    decide
  · unfold main
    rw [hr2]
    simp only [Option.some.injEq, Term.init]
    rw [output_two_cells (fun _ _ => 0) (AC 219 1 0 ACF_BOLD) (AC 219 5 4 ACF_BOLD)
      (by decide)]
    decide

/-! ## C16: the bold red example -/

/-- C16: under the default configuration (rows 0 to 80) the input
`ESC [ 1 ; 3 1 m A ESC [ 0 m B` is read without error and the output is the one line
`0x03 13,01 A 0x03 15 B 0x0a`: `A` comes right after the escape that selects
`sgr_to_mirc[1+8]` = 13 as foreground (and `sgr_to_mirc[0]` = 01 as background), `B`
right after the escape that selects the default foreground `sgr_to_mirc[7]` = 15. -/
theorem bold_red_example :
    main ⟨false, false⟩ 0 80 [27, 91, 49, 59, 51, 49, 109, 65, 27, 91, 48, 109, 66] =
      some [3, 49, 51, 44, 48, 49, 65, 3, 49, 53, 66, 10] ∧
    [3, 49, 51, 44, 48, 49, 65, 3, 49, 53, 66, 10] =
      [3] ++ fmt02d (sgr_to_mirc.getD (1 + 8) 0) ++ [44] ++ fmt02d (sgr_to_mirc.getD 0 0) ++
        [65] ++ [3] ++ fmt02d (sgr_to_mirc.getD 7 0) ++ [66] ++ [10] := by
  refine ⟨?_, by decide⟩
  have hr : read_ansi ⟨false, false⟩ [27, 91, 49, 59, 51, 49, 109, 65, 27, 91, 48, 109, 66]
      (clear_screen (fun _ _ => 0)) = .returned { Term.init (screen_set (screen_set
        (clear_screen (fun _ _ => 0)) 0 0 (AC 65 1 0 ACF_BOLD)) 0 1 (AC 66 7 0 0)) with y := 2 } :=
    rfl
  unfold main
  rw [hr]
  simp only [Option.some.injEq, Term.init]
  rw [output_one_row _ 1 80 (by decide) (by decide)]
  · decide
  · decide
  · intro j h1 h2
    rw [pipeline_cell _ 0 j (by decide) h2]
    simp only [screen_set, clear_screen, NROWS, NCOLS] at h2 ⊢
    rw [if_neg (by omega), if_neg (by omega), if_pos (by omega)]
    exact pipeline_default
  · intro i j h0 h1 h2
    rw [pipeline_cell _ i j h1 h2]
    simp only [screen_set, clear_screen, NROWS, NCOLS] at h1 h2 ⊢
    rw [if_neg (by omega), if_neg (by omega), if_pos (by omega)]
    exact pipeline_default

/-! ## C17: the solid block example -/

/-- C17 as stated fails: after the pipeline the cell of the single input byte 0xdb
has foreground 8, the default background with the bright bit that the BgBold toggle
gives it, and not foreground 0. -/
theorem solid_block_fg_is_bright :
    ∃ t : Term, read_ansi ⟨false, false⟩ [0xdb] (clear_screen (fun _ _ => 0)) = .returned t ∧
      ACFG (normalize (cp437_to_ascii t.screen) 0 0) = 8 ∧
      ACFG (normalize (cp437_to_ascii t.screen) 0 0) ≠ default_bg :=
  ⟨_, rfl, by decide, by decide⟩

/-- C17, amended: for the single input byte 0xdb with the default rendition, after
`read_ansi`, `cp437_to_ascii` and `normalize` the cell at (0, 0) has glyph space, no
flags, foreground 8 (the default background 0 with the bright bit of BgBold) and
background 7 (the default foreground); the output is the one line made of the colour
escape for that pair, `0x03 14,15`, and a single space. -/
theorem solid_block_example :
    (∃ t : Term, read_ansi ⟨false, false⟩ [0xdb] (clear_screen (fun _ _ => 0)) = .returned t ∧
      ACCHAR (normalize (cp437_to_ascii t.screen) 0 0) = 32 ∧
      ACFLAGS (normalize (cp437_to_ascii t.screen) 0 0) = 0 ∧
      ACFG (normalize (cp437_to_ascii t.screen) 0 0) = default_bg + 8 ∧
      ACBG (normalize (cp437_to_ascii t.screen) 0 0) = default_fg) ∧
    main ⟨false, false⟩ 0 80 [0xdb] = some [3, 49, 52, 44, 49, 53, 32, 10] ∧
    [3, 49, 52, 44, 49, 53, 32, 10] =
      [3] ++ fmt02d (sgr_to_mirc.getD (default_bg + 8) 0) ++ [44] ++
        fmt02d (sgr_to_mirc.getD default_fg 0) ++ [32] ++ [10] := by
  refine ⟨⟨_, rfl, by decide, by decide, by decide, by decide⟩, ?_, by decide⟩
  have hr : read_ansi ⟨false, false⟩ [0xdb] (clear_screen (fun _ _ => 0)) =
      .returned { Term.init (screen_set (clear_screen (fun _ _ => 0)) 0 0 (AC 0xdb 7 0 0))
        with y := 1 } := rfl
  unfold main
  rw [hr]
  simp only [Option.some.injEq, Term.init]
  rw [output_one_row _ 0 80 (by decide) (by decide)]
  · decide
  · decide
  · intro j h1 h2
    rw [pipeline_cell _ 0 j (by decide) h2]
    simp only [screen_set, clear_screen, NROWS, NCOLS] at h2 ⊢
    rw [if_neg (by omega), if_pos (by omega)]
    exact pipeline_default
  · intro i j h0 h1 h2
    rw [pipeline_cell _ i j h1 h2]
    simp only [screen_set, clear_screen, NROWS, NCOLS] at h1 h2 ⊢
    rw [if_neg (by omega), if_pos (by omega)]
    exact pipeline_default

/-! ## C15: input without escape sequences -/

theorem last_scan_le (u : Screen) (n : Nat) : last_scan u n + 2 ≤ (n : Int) + 1 := by
  induction n with
  | zero => simp [last_scan]
  | succ n ih =>
    unfold last_scan
    split_ifs
    · push_cast; omega
    · push_cast; omega

/-- One byte other than ESC read with the default rendition on a plain screen. -/
theorem plain_step (cfg : Config) (all : List Nat) (t : Term) (b : Nat) (hinv : t.Inv)
    (hr : t.curfg = 7 ∧ t.curbg = 0 ∧ t.curflags = 0) (hs : PlainScreen all t.screen)
    (hb : b ∈ all) (h27 : b ≠ 27) :
    (∃ t1 : Term, step cfg ⟨t, .ground⟩ b = .next ⟨t1, .ground⟩ ∧ t1.Inv ∧
      (t1.curfg = 7 ∧ t1.curbg = 0 ∧ t1.curflags = 0) ∧ PlainScreen all t1.screen) ∨
    step cfg ⟨t, .ground⟩ b = .ret t := by
  have hsafe := step_safe cfg ⟨t, .ground⟩ b hinv
  by_cases hlf : b = 0xa
  · have hstep : step cfg ⟨t, .ground⟩ b =
        .next ⟨{ t with x := MIN (NROWS - 1) ((t.x + 1) % UINT), y := 0 }, .ground⟩ := by
      simp only [step, plain_byte]
      rw [if_pos h27, if_pos hlf]
    rw [hstep] at hsafe
    exact Or.inl ⟨_, hstep, hsafe, hr, hs⟩
  by_cases hcr : b = 0xd
  · have hstep : step cfg ⟨t, .ground⟩ b = .next ⟨{ t with y := 0 }, .ground⟩ := by
      simp only [step, plain_byte]
      rw [if_pos h27, if_neg hlf, if_pos hcr]
    rw [hstep] at hsafe
    exact Or.inl ⟨_, hstep, hsafe, hr, hs⟩
  by_cases htab : b = 0x9 ∧ cfg.expandtab = true
  · have hstep : step cfg ⟨t, .ground⟩ b =
        .next ⟨{ t with y := MIN (NCOLS - 1) ((t.y + 8) &&& 0xf8) % UCHAR }, .ground⟩ := by
      simp only [step, plain_byte]
      rw [if_pos h27, if_neg hlf, if_neg hcr, if_pos htab]
    rw [hstep] at hsafe
    exact Or.inl ⟨_, hstep, hsafe, hr, hs⟩
  by_cases heof : b = 0x1a ∧ cfg.includez = false
  · right
    simp only [step, plain_byte]
    rw [if_pos h27, if_neg hlf, if_neg hcr, if_neg htab, if_pos heof]
  · have hstep := step_plain cfg t b hinv h27 hlf hcr htab heof
    rw [hstep] at hsafe
    refine Or.inl ⟨_, hstep, hsafe, hr, ?_⟩
    intro i j hi hj
    simp only [screen_set]
    by_cases hij : i = t.x ∧ j = t.y
    · rw [if_pos hij, hr.1, hr.2.1, hr.2.2]
      exact Or.inr ⟨b, hb, rfl⟩
    · rw [if_neg hij]
      exact hs i j hi hj

theorem plain_run (cfg : Config) (all rest : List Nat) (t : Term)
    (hrest : ∀ b ∈ rest, b ∈ all ∧ b ≠ 27) (hinv : t.Inv)
    (hr : t.curfg = 7 ∧ t.curbg = 0 ∧ t.curflags = 0) (hs : PlainScreen all t.screen) :
    ∃ t1 : Term, finish (run cfg ⟨t, .ground⟩ rest) = .returned t1 ∧
      PlainScreen all t1.screen := by
  induction rest generalizing t with
  | nil => exact ⟨t, rfl, hs⟩
  | cons b bs ih =>
    have hb := hrest b (List.mem_cons_self _ _)
    rcases plain_step cfg all t b hinv hr hs hb.1 hb.2 with ⟨t1, hstep, h1, h2, h3⟩ | hret
    · rw [run_next cfg _ _ b bs hstep]
      exact ih t1 (fun x hx => hrest x (List.mem_cons_of_mem _ hx)) h1 h2 h3
    · rw [run_ret cfg _ b bs t hret]
      exact ⟨t, rfl, hs⟩

theorem store_param_pending (l : Seq) (h1 : l.nbuf ≠ []) (h2 : l.np < 3) :
    store_param l =
      { l with params := fun i => if i = l.np then atoi l.nbuf else l.params i,
               np := l.np + 1, nbuf := [] } := by
  unfold store_param
  rw [if_pos ⟨List.length_pos.mpr h1, h2⟩]

theorem store_param_np_le (l : Seq) : l.np ≤ (store_param l).np := by
  unfold store_param
  split_ifs
  · simp only []; omega
  · exact Nat.le_refl _

/-- One parameter byte read without error moves the locals from a phase to a phase. -/
theorem phase_step (cfg : Config) (t : Term) (q : List Nat) (l l1 : Seq) (p : Nat)
    (hph : SeqPhase q l) (hp : is_param_byte p = true)
    (h : step cfg ⟨t, .csi l⟩ p = .next ⟨t, .csi l1⟩) : SeqPhase (q ++ [p]) l1 := by
  simp only [step, csi_byte, MAXSEQLEN] at h
  by_cases hseq : l.curseqlen + 1 = 64
  · rw [if_pos hseq] at h; cases h
  rw [if_neg hseq] at h
  have hp26 : p ≠ 26 := by
    intro h; subst h; simp [is_param_byte, isdigit] at hp
  rw [if_neg (fun h => hp26 h.1)] at h
  by_cases hdig : isdigit p = true
  · rw [if_pos hdig] at h
    by_cases h4 : l.nbuf.length = 4
    · rw [if_pos h4] at h; cases h
    rw [if_neg h4] at h
    simp only [Step.next.injEq, Machine.mk.injEq, Mode.csi.injEq, true_and] at h
    subst h
    rcases hph with ⟨hq, hnp, hbuf, hques⟩ | ⟨pre, ds, rfl, hpre, hds, h1, h4', hnp, hbuf, hques⟩ |
      ⟨pre, ds, post, rfl, hpre, hds, h1, h4', hpost, hnp, hbuf, hpar, hques⟩ | hdead
    · right; left
      refine ⟨q, [p], rfl, hq, ?_, by simp, by simp, hnp, by simp [hbuf], hques⟩
      intro d hd
      rw [List.mem_singleton] at hd
      rw [hd]; exact hdig
    · right; left
      refine ⟨pre, ds ++ [p], by rw [List.append_assoc], hpre, ?_, by simp, ?_, hnp,
        by simp [hbuf], hques⟩
      · intro d hd
        rcases List.mem_append.mp hd with hd | hd
        · exact hds d hd
        · rw [List.mem_singleton] at hd
          rw [hd]; exact hdig
      · rw [hbuf] at h4
        simp only [List.length_append, List.length_singleton]
        omega
    · right; right; right
      right
      exact ⟨hnp, by simp⟩
    · right; right; right
      rcases hdead with h2 | ⟨h1, hne⟩
      · exact Or.inl h2
      · exact Or.inr ⟨h1, by simp⟩
  · rw [if_neg hdig] at h
    have hp2 : p = 59 ∨ p = 63 := by
      simp only [is_param_byte, Bool.or_eq_true, beq_iff_eq] at hp
      rcases hp with (hp | hp) | hp
      · exact absurd hp hdig
      · exact Or.inl hp
      · exact Or.inr hp
    rcases hp2 with rfl | rfl
    · have hsw : ∀ l0 : Seq, csi_switch t l0 59 = case_semi t l0 := fun _ => rfl
      rw [hsw] at h
      unfold case_semi at h
      simp only [Step.next.injEq, Machine.mk.injEq, Mode.csi.injEq, true_and] at h
      subst h
      rcases hph with ⟨hq, hnp, hbuf, hques⟩ |
        ⟨pre, ds, rfl, hpre, hds, h1, h4', hnp, hbuf, hques⟩ |
        ⟨pre, ds, post, rfl, hpre, hds, h1, h4', hpost, hnp, hbuf, hpar, hques⟩ | hdead
      · left
        rw [store_param_empty { l with curseqlen := l.curseqlen + 1 } hbuf]
        refine ⟨?_, hnp, hbuf, ?_⟩
        · intro x hx
          rcases List.mem_append.mp hx with hx | hx
          · exact hq x hx
          · rw [List.mem_singleton] at hx
            exact Or.inl hx
        · simp only []
          rw [hques]
          simp
      · right; right; left
        rw [store_param_pending { l with curseqlen := l.curseqlen + 1 }
          (by simp only []; rw [hbuf]; exact List.ne_nil_of_length_pos (by omega))
          (by simp only []; omega)]
        refine ⟨pre, ds, [59], rfl, hpre, hds, h1, h4', by simp, ?_, rfl, ?_, hques⟩
        · simp only []; omega
        · simp only [hnp, hbuf, if_true]
      · right; right; left
        rw [store_param_empty { l with curseqlen := l.curseqlen + 1 } hbuf]
        refine ⟨pre, ds, post ++ [59], by simp only [List.append_assoc], hpre, hds, h1, h4', ?_,
          hnp, hbuf, hpar, hques⟩
        intro x hx
        rcases List.mem_append.mp hx with hx | hx
        · exact hpost x hx
        · rw [List.mem_singleton] at hx
          exact hx
      · right; right; right
        left
        have hle := store_param_np_le { l with curseqlen := l.curseqlen + 1 }
        rcases hdead with h2 | ⟨h1, hne⟩
        · simp only [] at hle ⊢
          omega
        · rw [store_param_pending { l with curseqlen := l.curseqlen + 1 } hne
            (by simp only []; omega)]
          simp only []
          omega
    · have hsw : ∀ l0 : Seq, csi_switch t l0 63 = case_ques t l0 := fun _ => rfl
      rw [hsw] at h
      unfold case_ques at h
      by_cases hnp0 : (store_param { l with curseqlen := l.curseqlen + 1 }).np ≠ 0
      · rw [if_pos hnp0] at h; cases h
      rw [if_neg hnp0] at h
      simp only [Step.next.injEq, Machine.mk.injEq, Mode.csi.injEq, true_and] at h
      subst h
      have hle := store_param_np_le { l with curseqlen := l.curseqlen + 1 }
      simp only [not_not] at hnp0
      rcases hph with ⟨hq, hnp, hbuf, hques⟩ |
        ⟨pre, ds, rfl, hpre, hds, h1, h4', hnp, hbuf, hques⟩ |
        ⟨pre, ds, post, rfl, hpre, hds, h1, h4', hpost, hnp, hbuf, hpar, hques⟩ | hdead
      · left
        rw [store_param_empty { l with curseqlen := l.curseqlen + 1 } hbuf]
        refine ⟨?_, hnp, hbuf, ?_⟩
        · intro x hx
          rcases List.mem_append.mp hx with hx | hx
          · exact hq x hx
          · rw [List.mem_singleton] at hx
            exact Or.inr hx
        · simp
      · exfalso
        rw [store_param_pending { l with curseqlen := l.curseqlen + 1 }
          (by simp only []; rw [hbuf]; exact List.ne_nil_of_length_pos (by omega))
          (by simp only []; omega)] at hnp0
        simp only [] at hnp0
        omega
      · exfalso
        simp only [] at hle
        omega
      · exfalso
        rcases hdead with h2 | ⟨h1, hne⟩
        · simp only [] at hle
          omega
        · simp only [] at hle
          omega

/-- Parameter bytes read without error move the locals from a phase to a phase. -/
theorem phase_run (cfg : Config) (t : Term) (ps q : List Nat) (l l1 : Seq)
    (hph : SeqPhase q l) (hps : ∀ p ∈ ps, is_param_byte p = true) (hl : l.curseqlen < 64)
    (h : run cfg ⟨t, .csi l⟩ ps = .next ⟨t, .csi l1⟩) : SeqPhase (q ++ ps) l1 := by
  induction ps generalizing q l with
  | nil =>
    simp only [run, Step.next.injEq, Machine.mk.injEq, Mode.csi.injEq, true_and] at h
    subst h
    rw [List.append_nil]
    exact hph
  | cons p ps ih =>
    have hp := hps p (List.mem_cons_self _ _)
    by_cases h64 : l.curseqlen + 1 = 64
    · rw [run_fatal cfg _ p _ _ (step_at_limit cfg t l p h64)] at h
      cases h
    rcases step_param_cases cfg t l p hp h64 with ⟨e, he, _⟩ | ⟨l2, hl2, hc2⟩
    · rw [run_fatal cfg _ p _ e he] at h
      cases h
    · rw [run_next cfg _ _ p _ hl2] at h
      have := ih (q ++ [p]) l2 (phase_step cfg t q l l2 p hph hp hl2)
        (fun x hx => hps x (List.mem_cons_of_mem _ hx)) (by omega) h
      rw [List.append_assoc] at this
      exact this

theorem phase_init : SeqPhase [] Seq.init :=
  Or.inl ⟨fun _ h => absurd h (List.not_mem_nil _), rfl, rfl, by simp [Seq.init]⟩

/-- The locals at the byte `h`, after the pending digits were stored, pass the tests of
`case 'h'` only after bytes of the form: `;` and `?` with a `?`, digits of value 7,
bytes `;`. -/
theorem phase_end (ps : List Nat) (l : Seq) (hph : SeqPhase ps l)
    (hq : (store_param { l with curseqlen := l.curseqlen + 1 }).quesflag ≠ 0)
    (hnp : (store_param { l with curseqlen := l.curseqlen + 1 }).np = 1)
    (hpar : (store_param { l with curseqlen := l.curseqlen + 1 }).params 0 = 7) :
    ∃ pre ds post : List Nat, ps = pre ++ ds ++ post ∧
      (∀ p ∈ pre, p = 59 ∨ p = 63) ∧ 63 ∈ pre ∧
      (∀ d ∈ ds, isdigit d = true) ∧ 1 ≤ ds.length ∧ ds.length ≤ 4 ∧ atoi ds = 7 ∧
      (∀ p ∈ post, p = 59) := by
  rw [store_param_quesflag] at hq
  have hle := store_param_np_le { l with curseqlen := l.curseqlen + 1 }
  rcases hph with ⟨_, h0, hbuf, _⟩ | ⟨pre, ds, rfl, hpre, hds, h1, h4, h0, hbuf, hques⟩ |
    ⟨pre, ds, post, rfl, hpre, hds, h1, h4, hpost, h0, hbuf, hp0, hques⟩ | hdead
  · exfalso
    rw [store_param_empty { l with curseqlen := l.curseqlen + 1 } hbuf] at hnp
    simp only [] at hnp
    omega
  · rw [store_param_pending { l with curseqlen := l.curseqlen + 1 }
      (by simp only []; rw [hbuf]; exact List.ne_nil_of_length_pos (by omega))
      (by simp only []; omega)] at hpar
    simp only [h0, hbuf, if_true] at hpar
    exact ⟨pre, ds, [], by rw [List.append_nil], hpre, hques.mp hq, hds, h1, h4, hpar,
      fun _ h => absurd h (List.not_mem_nil _)⟩
  · rw [store_param_empty { l with curseqlen := l.curseqlen + 1 } hbuf] at hpar
    simp only [] at hpar
    exact ⟨pre, ds, post, rfl, hpre, hques.mp hq, hds, h1, h4, by rw [← hp0]; exact hpar, hpost⟩
  · exfalso
    rcases hdead with h2 | ⟨h1, hne⟩
    · simp only [] at hle
      omega
    · rw [store_param_pending { l with curseqlen := l.curseqlen + 1 } hne
        (by simp only []; omega)] at hnp
      simp only [] at hnp
      omega

/-- Bytes `;` and `?` read before any digit only count and set the `?` flag. -/
theorem run_pre (cfg : Config) (t : Term) (pre rest : List Nat) (l : Seq)
    (hpre : ∀ p ∈ pre, p = 59 ∨ p = 63) (hnp : l.np = 0) (hbuf : l.nbuf = [])
    (hseq : l.curseqlen + pre.length < 64) :
    ∃ l1 : Seq, run cfg ⟨t, .csi l⟩ (pre ++ rest) = run cfg ⟨t, .csi l1⟩ rest ∧
      l1.np = 0 ∧ l1.nbuf = [] ∧ l1.curseqlen = l.curseqlen + pre.length ∧
      (l.quesflag ≠ 0 ∨ 63 ∈ pre → l1.quesflag ≠ 0) := by
  induction pre generalizing l with
  | nil => exact ⟨l, rfl, hnp, hbuf, rfl, fun h => h.elim id (fun h => absurd h (by simp))⟩
  | cons p ps ih =>
    simp only [List.length_cons] at hseq
    rw [List.cons_append]
    rcases hpre p (List.mem_cons_self _ _) with rfl | rfl
    · have hstep : step cfg ⟨t, .csi l⟩ 59 =
          .next ⟨t, .csi { l with curseqlen := l.curseqlen + 1,
                                  semicount := l.semicount + 1 }⟩ := by
        rw [step_csi_command cfg t l 59 (by omega) (by decide) (by decide),
          store_param_empty { l with curseqlen := l.curseqlen + 1 } hbuf]
        rfl
      rw [run_next cfg _ _ 59 _ hstep]
      obtain ⟨l1, h1, h2, h3, h4, h5⟩ :=
        ih { l with curseqlen := l.curseqlen + 1, semicount := l.semicount + 1 }
          (fun x hx => hpre x (List.mem_cons_of_mem _ hx)) hnp hbuf (by simp only []; omega)
      refine ⟨l1, h1, h2, h3, by rw [h4]; simp only [List.length_cons]; omega, ?_⟩
      rintro (h | h)
      · exact h5 (Or.inl h)
      · rcases List.mem_cons.mp h with h | h
        · exact absurd h (by decide)
        · exact h5 (Or.inr h)
    · have hstep : step cfg ⟨t, .csi l⟩ 63 =
          .next ⟨t, .csi { l with curseqlen := l.curseqlen + 1, quesflag := 1 }⟩ := by
        rw [step_csi_command cfg t l 63 (by omega) (by decide) (by decide),
          store_param_empty { l with curseqlen := l.curseqlen + 1 } hbuf]
        have hsw : ∀ l0 : Seq, csi_switch t l0 63 = case_ques t l0 := fun _ => rfl
        rw [hsw]
        unfold case_ques
        rw [if_neg (by simp only []; omega)]
      rw [run_next cfg _ _ 63 _ hstep]
      obtain ⟨l1, h1, h2, h3, h4, h5⟩ :=
        ih { l with curseqlen := l.curseqlen + 1, quesflag := 1 }
          (fun x hx => hpre x (List.mem_cons_of_mem _ hx)) hnp hbuf (by simp only []; omega)
      exact ⟨l1, h1, h2, h3, by rw [h4]; simp only [List.length_cons]; omega,
        fun _ => h5 (Or.inl (by simp))⟩

theorem case_h_ok (t : Term) (l : Seq) (hq : l.quesflag ≠ 0) (hnp : l.np = 1)
    (hp : l.params 0 = 7) :
    csi_switch t l 104 = .next ⟨{ t with wrapping := 1 }, .ground⟩ := by
  have hsw : csi_switch t l 104 = case_h t l := rfl
  rw [hsw]
  unfold case_h
  rw [if_pos hq, if_neg (by simp [hnp, hp])]

theorem case_h_fatal (t : Term) (l : Seq) (h : ¬ (l.quesflag ≠ 0 ∧ l.np = 1 ∧ l.params 0 = 7)) :
    csi_switch t l 104 = .fatal .mode_set := by
  have hsw : csi_switch t l 104 = case_h t l := rfl
  rw [hsw]
  unfold case_h
  by_cases hq : l.quesflag ≠ 0
  · rw [if_pos hq, if_pos]
    by_contra hcon
    simp only [not_or, not_not] at hcon
    exact h ⟨hq, hcon.1, hcon.2⟩
  · rw [if_neg hq]

/-- A sequence of the form `ModeSetForm` is read and sets `wrapping`. -/
theorem mode_set_form_ok (cfg : Config) (t : Term) (ps : List Nat) (h : ModeSetForm ps) :
    run cfg ⟨t, .ground⟩ ([27, 91] ++ ps ++ [104]) =
      .next ⟨{ t with wrapping := 1 }, .ground⟩ := by
  obtain ⟨pre, ds, post, rfl, hpre, h63, hds, h1, h4, h7, hpost, hlen⟩ := h
  simp only [List.length_append] at hlen
  rw [List.append_assoc, List.append_assoc, List.append_assoc]
  show run cfg ⟨t, .ground⟩ (27 :: 91 :: (pre ++ (ds ++ (post ++ [104])))) = _
  rw [run_esc_csi]
  obtain ⟨l1, e1, np1, b1, c1, q1⟩ := run_pre cfg t pre (ds ++ (post ++ [104])) Seq.init hpre
    rfl rfl (by simp only [Seq.init]; omega)
  have hq1 : l1.quesflag ≠ 0 := q1 (Or.inr h63)
  have hc1 : l1.curseqlen = pre.length := by rw [c1]; simp [Seq.init]
  rw [e1]
  have hpost1 : post = List.replicate post.length 59 :=
    List.eq_replicate_iff.mpr ⟨rfl, hpost⟩
  cases hk : post.length with
  | zero =>
    rw [List.length_eq_zero.mp hk, List.nil_append,
      run_param_command cfg t l1 ds 104 [] hds h1 h4 b1 (by omega) (by omega) (by decide)
        (by decide),
      case_h_ok _ _ (by simp only []; exact hq1) (by simp only []; omega)
        (by simp only [np1, if_true]; exact h7)]
    rfl
  | succ k =>
    rw [hpost1, hk, List.replicate_succ, List.cons_append,
      run_param_command cfg t l1 ds 59 _ hds h1 h4 b1 (by omega) (by omega) (by decide)
        (by decide)]
    have hS : ∀ l : Seq, csi_switch t l 59 = case_semi t l := fun _ => rfl
    rw [hS]
    simp only [case_semi]
    obtain ⟨l2, e2, b2, np2, p2, q2, c2, s2⟩ := run_semis cfg t k [104]
      { l1 with curseqlen := l1.curseqlen + ds.length + 1,
                params := fun i => if i = l1.np then atoi ds else l1.params i,
                np := l1.np + 1, nbuf := [], semicount := l1.semicount + 1 } rfl
      (by simp only []; omega)
    rw [e2, run_cons, step_csi_command cfg t l2 104 (by rw [c2]; simp only []; omega)
      (by decide) (by decide),
      store_param_empty { l2 with curseqlen := l2.curseqlen + 1 } b2,
      case_h_ok _ _ (by simp only []; rw [q2]; exact hq1)
        (by simp only []; rw [np2]; simp only []; omega)
        (by simp only [p2, np1, if_true]; exact h7)]
    rfl

/-- Every other sequence of parameter bytes and `h` aborts. -/
theorem mode_set_other_fatal (cfg : Config) (t : Term) (ps : List Nat)
    (hps : ∀ p ∈ ps, is_param_byte p = true) (h : ¬ ModeSetForm ps) :
    ∃ e, run cfg ⟨t, .ground⟩ ([27, 91] ++ ps ++ [104]) = .fatal e := by
  rw [List.append_assoc]
  show ∃ e, run cfg ⟨t, .ground⟩ (27 :: 91 :: (ps ++ [104])) = .fatal e
  rw [run_esc_csi, run_append_cases]
  rcases run_param_total cfg t ps Seq.init hps (by decide) with ⟨e, he⟩ | ⟨l1, hl1, hc1, hlt⟩
  · rw [he]
    exact ⟨e, rfl⟩
  · have hph : SeqPhase ps l1 := by
      have := phase_run cfg t ps [] Seq.init l1 phase_init hps (by decide) hl1
      rw [List.nil_append] at this
      exact this
    rw [hl1]
    simp only []
    by_cases h64 : l1.curseqlen + 1 = 64
    · exact ⟨_, run_fatal cfg _ 104 [] _ (step_at_limit cfg t l1 104 h64)⟩
    · have hstep := step_csi_command cfg t l1 104 h64 (by decide) (by decide)
      by_cases hok : (store_param { l1 with curseqlen := l1.curseqlen + 1 }).quesflag ≠ 0 ∧
          (store_param { l1 with curseqlen := l1.curseqlen + 1 }).np = 1 ∧
          (store_param { l1 with curseqlen := l1.curseqlen + 1 }).params 0 = 7
      · exfalso
        obtain ⟨pre, ds, post, e1, e2, e3, e4, e5, e6, e7, e8⟩ :=
          phase_end ps l1 hph hok.1 hok.2.1 hok.2.2
        refine h ⟨pre, ds, post, e1, e2, e3, e4, e5, e6, e7, e8, ?_⟩
        rw [hc1] at h64 hlt
        simp only [Seq.init] at h64 hlt
        omega
      · rw [case_h_fatal t _ hok] at hstep
        exact ⟨_, run_fatal cfg _ 104 [] _ hstep⟩

/-- C18 as stated fails: `ESC [ ? 0 0 0 0 7 h` and `ESC [ ?`, 61 bytes `;`, `7 h` carry
the `?` flag and exactly one parameter equal to 7, and both abort: the first at its
fifth digit with "number too large", the second at the `h`, its 64th byte, with
"reached max sequence length". -/
theorem mode_set_long_forms_abort :
    read_ansi ⟨false, false⟩ [27, 91, 63, 48, 48, 48, 48, 55, 104] blank =
      .fatal .number_too_large ∧
    atoi [48, 48, 48, 48, 55] = 7 ∧
    read_ansi ⟨false, false⟩ ([27, 91, 63] ++ List.replicate 61 59 ++ [55, 104]) blank =
      .fatal .max_sequence_length :=
  ⟨rfl, rfl, rfl⟩

/-- C18, amended: a sequence `ESC [ ps h`, `ps` being parameter bytes (digits, `;`,
`?`), succeeds if and only if `ps` has the form `ModeSetForm`: bytes `;` and `?` with
at least one `?`, then one to four digits of value 7, then bytes `;`, at most 62 bytes
in all; it then stores 1 in `wrapping` and changes nothing else, and every other such
sequence aborts.  On the locals: at the byte `h` the `switch` succeeds exactly when the
`?` flag is set and one parameter, equal to 7, is stored.  So `CSI ? n h` succeeds for
`n = 7` only, and `CSI ? h`, `CSI n h`, `CSI ? 8 h`, `CSI 7 h` abort.  In a reachable
state `wrapping` is already 1, so `CSI ? 7 h` and every sequence that succeeds leave the
state as it was. -/
theorem mode_set (cfg : Config) (t : Term) :
    (∀ ps : List Nat, (∀ p ∈ ps, is_param_byte p = true) →
      (ModeSetForm ps →
        run cfg ⟨t, .ground⟩ ([27, 91] ++ ps ++ [104]) =
          .next ⟨{ t with wrapping := 1 }, .ground⟩) ∧
      (¬ ModeSetForm ps →
        ∃ e, run cfg ⟨t, .ground⟩ ([27, 91] ++ ps ++ [104]) = .fatal e)) ∧
    (∀ l : Seq, (∃ m, csi_switch t l 104 = .next m) ↔
      (l.quesflag ≠ 0 ∧ l.np = 1 ∧ l.params 0 = 7)) ∧
    (∀ l : Seq, ¬ (l.quesflag ≠ 0 ∧ l.np = 1 ∧ l.params 0 = 7) →
      csi_switch t l 104 = .fatal .mode_set) ∧
    run cfg ⟨t, .ground⟩ [27, 91, 63, 55, 104] = .next ⟨{ t with wrapping := 1 }, .ground⟩ ∧
    run cfg ⟨t, .ground⟩ [27, 91, 63, 56, 104] = .fatal .mode_set ∧
    run cfg ⟨t, .ground⟩ [27, 91, 55, 104] = .fatal .mode_set ∧
    run cfg ⟨t, .ground⟩ [27, 91, 63, 104] = .fatal .mode_set ∧
    (∀ n, n ≤ 9999 → n ≠ 7 →
      run cfg ⟨t, .ground⟩ ([27, 91, 63] ++ decimal n ++ [104]) = .fatal .mode_set) ∧
    (∀ n, n ≤ 9999 →
      run cfg ⟨t, .ground⟩ ([27, 91] ++ decimal n ++ [104]) = .fatal .mode_set) ∧
    (Reachable cfg ⟨t, .ground⟩ →
      t.wrapping = 1 ∧ run cfg ⟨t, .ground⟩ [27, 91, 63, 55, 104] = .next ⟨t, .ground⟩ ∧
      ∀ ps : List Nat, ModeSetForm ps →
        run cfg ⟨t, .ground⟩ ([27, 91] ++ ps ++ [104]) = .next ⟨t, .ground⟩) := by
  have hfatal := case_h_fatal t
  refine ⟨fun ps hps => ⟨mode_set_form_ok cfg t ps, mode_set_other_fatal cfg t ps hps⟩,
    ?_, hfatal, rfl, rfl, rfl, rfl, ?_, ?_, ?_⟩
  · intro l
    constructor
    · rintro ⟨m, hm⟩
      by_contra hcon
      rw [hfatal l hcon] at hm
      exact absurd hm (by simp)
    · rintro ⟨hq, hnp, hp⟩
      exact ⟨_, case_h_ok t l hq hnp hp⟩
  · intro n hn hn7
    have hnl := decimal_length n
    have h63 : run cfg ⟨t, .csi Seq.init⟩ (63 :: (decimal n ++ [104])) =
        run cfg ⟨t, .csi { Seq.init with curseqlen := 1, quesflag := 1 }⟩ (decimal n ++ [104]) :=
      rfl
    simp only [List.append_assoc, List.cons_append, List.nil_append]
    rw [run_esc_csi, h63, run_param_command cfg t _ (decimal n) 104 [] (decimal_digits n hn)
      hnl.1 hnl.2 rfl (by simp [Seq.init]) (by simp only [Seq.init]; omega) (by decide)
      (by decide)]
    rw [hfatal _ (by simp only [Seq.init, atoi_decimal n hn]; simp; omega)]
  · intro n hn
    have hnl := decimal_length n
    simp only [List.append_assoc, List.cons_append, List.nil_append]
    rw [run_esc_csi, run_param_command cfg t Seq.init (decimal n) 104 [] (decimal_digits n hn)
      hnl.1 hnl.2 rfl (by decide) (by simp only [Seq.init]; omega) (by decide) (by decide)]
    rw [hfatal _ (by simp [Seq.init])]
  · intro hreach
    have hinv : t.Inv := reachable_inv cfg _ hreach
    have hw : t.wrapping = 1 := hinv.2.2.2.2.1
    have hsame : ({ t with wrapping := 1 } : Term) = t := by rw [← hw]
    refine ⟨hw, ?_, ?_⟩
    · have h1 : run cfg ⟨t, .ground⟩ [27, 91, 63, 55, 104] =
          .next ⟨{ t with wrapping := 1 }, .ground⟩ := rfl
      rw [h1, hsame]
    · intro ps hform
      rw [mode_set_form_ok cfg t ps hform, hsame]

/-- C18 (amended) from the initial state: `CSI ? 7 h` leaves the state as it is, and
so does `CSI ; ? 0 7 ; h`, which has the form `ModeSetForm`. -/
theorem mode_set_witness :
    run ⟨false, false⟩ ⟨Term.init blank, .ground⟩ [27, 91, 63, 55, 104] =
      .next ⟨Term.init blank, .ground⟩ ∧
    ModeSetForm [59, 63, 48, 55, 59] ∧
    run ⟨false, false⟩ ⟨Term.init blank, .ground⟩ ([27, 91] ++ [59, 63, 48, 55, 59] ++ [104]) =
      .next ⟨Term.init blank, .ground⟩ :=
  have h := mode_set ⟨false, false⟩ (Term.init blank)
  have hform : ModeSetForm [59, 63, 48, 55, 59] :=
    ⟨[59, 63], [48, 55], [59], rfl, by decide, by decide, by decide, by decide, by decide,
      by decide, by decide, by decide⟩
  ⟨(h.2.2.2.2.2.2.2.2.2 ⟨blank, [], rfl⟩).2.1, hform,
   ((h.1 [59, 63, 48, 55, 59] (by decide)).1 hform).trans rfl⟩

/-! ## C19: sequence length -/

/-- C19 as stated fails: `ESC [` and 65 digits `0` abort with "number too large",
not with "reached max sequence length". -/
theorem digits_65_number_too_large :
    read_ansi ⟨false, false⟩ ([27, 91] ++ List.replicate 65 48) blank =
      .fatal .number_too_large ∧
    Fatal.number_too_large ≠ Fatal.max_sequence_length :=
  ⟨rfl, by decide⟩

/-- C19, amended: `ESC [` followed by 65 digits aborts with "number too large"; the
error is raised at the fifth digit, whatever follows it, so before any command letter
is read.  "reached max sequence length" is raised exactly at the 64th byte after
`ESC [`: when 63 parameter bytes (digits, `;`, `?`) were read without error, any 64th
byte `b` raises it; after fewer than 63 parameter bytes no byte raises it.  So `ESC [`,
63 bytes `;` and `H` abort with it, while `ESC [`, 62 bytes `;` and `H` are read and
put the cursor at (0, 0). -/
theorem five_digits_abort (cfg : Config) (screen : Screen) (ds : List Nat)
    (hd : ∀ d ∈ ds, isdigit d = true) (hlen : ds.length = 65) :
    read_ansi cfg ([27, 91] ++ ds) screen = .fatal .number_too_large ∧
    (∀ rest, read_ansi cfg ([27, 91] ++ ds.take 5 ++ rest) screen = .fatal .number_too_large) ∧
    (∀ (t : Term) (ps : List Nat) (b : Nat) (rest : List Nat),
      (∀ p ∈ ps, is_param_byte p = true) →
      (ps.length = 63 → (∀ e, run cfg ⟨t, .ground⟩ ([27, 91] ++ ps) ≠ .fatal e) →
        run cfg ⟨t, .ground⟩ ([27, 91] ++ ps ++ [b] ++ rest) = .fatal .max_sequence_length) ∧
      (ps.length < 63 →
        run cfg ⟨t, .ground⟩ ([27, 91] ++ ps) ≠ .fatal .max_sequence_length ∧
        run cfg ⟨t, .ground⟩ ([27, 91] ++ ps ++ [b]) ≠ .fatal .max_sequence_length)) ∧
    (∀ t : Term, run cfg ⟨t, .ground⟩ ([27, 91] ++ List.replicate 63 59 ++ [72]) =
      .fatal .max_sequence_length) ∧
    (∀ t : Term, run cfg ⟨t, .ground⟩ ([27, 91] ++ List.replicate 62 59 ++ [72]) =
      .next ⟨{ t with x := 0, y := 0 }, .ground⟩) := by
  have key : ∀ (xs rest : List Nat), (∀ d ∈ xs, isdigit d = true) → xs.length = 5 →
      read_ansi cfg ([27, 91] ++ xs ++ rest) screen = .fatal .number_too_large := by
    intro xs rest hx hl
    rcases xs with _ | ⟨d1, _ | ⟨d2, _ | ⟨d3, _ | ⟨d4, _ | ⟨d5, _ | ⟨d6, tl⟩⟩⟩⟩⟩⟩ <;>
      simp only [List.length_cons, List.length_nil] at hl <;> try omega
    have h4 : ∀ d ∈ [d1, d2, d3, d4], isdigit d = true :=
      fun d hdm => hx d (by simp only [List.mem_cons] at hdm ⊢; tauto)
    have h5 : isdigit d5 = true := hx d5 (by simp)
    have hstep : ∀ l : Seq, l.nbuf.length = 4 → l.curseqlen + 1 ≠ 64 →
        step cfg ⟨Term.init screen, .csi l⟩ d5 = .fatal .number_too_large := by
      intro l hl4 hl64
      simp only [step, csi_byte, MAXSEQLEN]
      rw [if_neg hl64, if_neg (fun h => isdigit_ne_eof d5 h5 h.1), if_pos h5, if_pos hl4]
    unfold read_ansi
    have hrun : run cfg ⟨Term.init screen, .ground⟩ ([27, 91] ++ [d1, d2, d3, d4, d5] ++ rest) =
        .fatal .number_too_large := by
      show run cfg ⟨Term.init screen, .ground⟩ (27 :: 91 :: ([d1, d2, d3, d4] ++ d5 :: rest)) = _
      rw [run_esc_csi, run_digits cfg _ [d1, d2, d3, d4] Seq.init (d5 :: rest) h4
        (by simp [Seq.init]) (by simp [Seq.init]),
        run_fatal cfg _ d5 rest _ (hstep _ (by simp [Seq.init]) (by simp [Seq.init]))]
    rw [hrun]
    rfl
  have htake : ds = ds.take 5 ++ ds.drop 5 := (List.take_append_drop 5 ds).symm
  have hl5 : (ds.take 5).length = 5 := by
    rw [List.length_take]; omega
  have hd5 : ∀ d ∈ ds.take 5, isdigit d = true := fun d hdm => hd d (List.mem_of_mem_take hdm)
  refine ⟨?_, fun rest => key _ rest hd5 hl5, ?_, fun t => rfl, fun t => rfl⟩
  · have := key (ds.take 5) (ds.drop 5) hd5 hl5
    rw [List.append_assoc, ← htake] at this
    exact this
  · intro t ps b rest hps
    have hesc : ∀ xs : List Nat, run cfg ⟨t, .ground⟩ ([27, 91] ++ xs) =
        run cfg ⟨t, .csi Seq.init⟩ xs := fun xs => run_esc_csi cfg t xs
    constructor
    · intro h63 hok
      rw [List.append_assoc, List.append_assoc, hesc, run_append_cases]
      rw [hesc] at hok
      rcases run_param_cases cfg t ps Seq.init hps (by simp only [Seq.init]; omega) with
        ⟨e, he, _⟩ | ⟨l1, hl1, hc1⟩
      · exact absurd he (hok e)
      · rw [hl1]
        simp only []
        rw [List.singleton_append,
          run_fatal cfg _ b rest _ (step_at_limit cfg t l1 b (by rw [hc1, h63]; rfl))]
    · intro hlt
      rw [List.append_assoc, hesc, hesc, run_append_cases]
      rcases run_param_cases cfg t ps Seq.init hps (by simp only [Seq.init]; omega) with
        ⟨e, he, hne⟩ | ⟨l1, hl1, hc1⟩
      · rw [he]
        simp only []
        exact ⟨fun h => hne (by cases h; rfl), fun h => hne (by cases h; rfl)⟩
      · rw [hl1]
        refine ⟨(fun h => nomatch h), ?_⟩
        simp only []
        rw [run_cons]
        have hb := step_below_limit cfg t l1 b (by rw [hc1]; simp only [Seq.init]; omega)
        cases hs : step cfg ⟨t, .csi l1⟩ b with
        | next m2 => simp only [run]; intro h; cases h
        | ret t1 => simp only []; intro h; cases h
        | fatal e => simp only []; rw [hs] at hb; exact hb
        | oob => simp only []; intro h; cases h

/-- C19 (amended) at 65 digits `7`, and at `ESC [ 6 3 ; ... ;` with any 64th byte. -/
theorem five_digits_abort_witness :
    read_ansi ⟨false, false⟩ ([27, 91] ++ List.replicate 65 55) blank =
      .fatal .number_too_large ∧
    run ⟨false, false⟩ ⟨Term.init blank, .ground⟩
      ([27, 91] ++ ([54, 51] ++ List.replicate 61 59) ++ [109] ++ [65]) =
      .fatal .max_sequence_length ∧
    run ⟨false, false⟩ ⟨Term.init blank, .ground⟩
      ([27, 91] ++ ([54, 51] ++ List.replicate 60 59) ++ [109]) ≠
      .fatal .max_sequence_length :=
  have h := five_digits_abort ⟨false, false⟩ blank (List.replicate 65 55) (by decide)
    (by decide)
  ⟨h.1,
   (h.2.2.1 (Term.init blank) ([54, 51] ++ List.replicate 61 59) 109 [65] (by decide)).1
     (by decide) (fun e => by
       have hr : run ⟨false, false⟩ ⟨Term.init blank, .ground⟩
           ([27, 91] ++ ([54, 51] ++ List.replicate 61 59)) =
           .next ⟨Term.init blank, .csi { Seq.init with
             params := fun i => if i = 0 then 63 else -1, np := 1,
             semicount := 61, curseqlen := 63 }⟩ := rfl
       rw [hr]
       intro hc
       cases hc),
   ((h.2.2.1 (Term.init blank) ([54, 51] ++ List.replicate 60 59) 109 [] (by decide)).2
     (by decide)).2⟩

/-! ## C20: Inverse twice -/

theorem testBit_AC (ch fg bg F i : Nat) :
    (AC ch fg bg F).testBit i =
      if i < 8 then ch.testBit i
      else if i < 12 then fg.testBit (i - 8)
      else if i < 16 then bg.testBit (i - 12)
      else if i < 32 then F.testBit i
      else false := by
  unfold AC
  rw [show (0xffff0000 : Nat) = (2 ^ 16 - 1) <<< 16 by decide,
    show (0xff : Nat) = 2 ^ 8 - 1 by norm_num, show (0xf : Nat) = 2 ^ 4 - 1 by norm_num]
  simp only [Nat.testBit_and, Nat.testBit_or, Nat.testBit_shiftLeft, Nat.testBit_two_pow_sub_one]
  by_cases h8 : i < 8
  · simp [h8, show ¬ (8 ≤ i) by omega, show ¬ (12 ≤ i) by omega, show ¬ (16 ≤ i) by omega]
  by_cases h12 : i < 12
  · simp [h8, h12, show 8 ≤ i by omega, show ¬ (12 ≤ i) by omega, show ¬ (16 ≤ i) by omega,
      show i - 8 < 4 by omega]
  by_cases h16 : i < 16
  · simp [h8, h12, h16, show 8 ≤ i by omega, show 12 ≤ i by omega, show ¬ (16 ≤ i) by omega,
      show ¬ (i - 8 < 4) by omega, show i - 12 < 4 by omega]
  by_cases h32 : i < 32
  · simp [h8, h12, h16, h32, show 8 ≤ i by omega, show 12 ≤ i by omega, show 16 ≤ i by omega,
      show ¬ (i - 8 < 4) by omega, show ¬ (i - 12 < 4) by omega, show i - 16 < 16 by omega]
  · simp [h8, h12, h16, h32, show 8 ≤ i by omega, show 12 ≤ i by omega, show 16 ≤ i by omega,
      show ¬ (i - 8 < 4) by omega, show ¬ (i - 12 < 4) by omega, show ¬ (i - 16 < 16) by omega]

/-- For a glyph without an attribute side effect `cp437_to_ascii` changes the glyph
only. -/
theorem cp437_cell_AC (b fg bg F : Nat) (hb : b < 256)
    (hs : b ≠ 0x02 ∧ b ≠ 0xb1 ∧ b ≠ 0xb2 ∧ b ≠ 0xdb) :
    cp437_cell (AC b fg bg F) = AC (cp437_to_ascii_map.getD b 0) fg bg F := by
  have hch : ACCHAR (AC b fg bg F) = b := by rw [ACCHAR_AC, Nat.mod_eq_of_lt hb]
  have hm : cp437_to_ascii_map.getD b 0 < 256 := lt_trans (map_lt b) (by norm_num)
  rw [cp437_cell_eq, hch, if_neg (by simp [hs.1, hs.2.2.1, hs.2.2.2]), if_neg hs.2.1]
  apply Nat.eq_of_testBit_eq
  intro i
  rw [testBit_rebuilt _ 0 _ i (by decide) hm, testBit_AC, testBit_AC]
  by_cases h8 : i < 8
  · simp [h8]
  by_cases h12 : i < 12
  · simp [h8, h12, show i < 16 by omega]
  by_cases h16 : i < 16
  · simp [h8, h12, h16]
  by_cases h32 : i < 32
  · simp [h8, h12, h16, h32]
  · simp [h8, h12, h16, h32]

theorem normalize_cell_inverse (g fg bg : Nat) (hg : g < 256) (hfg : fg ≤ 7) (hbg : bg ≤ 7) :
    normalize_cell (AC g fg bg ACF_INVERSE) = AC g bg fg 0 := by
  have hne : AC g fg bg ACF_INVERSE ≠ default_char := by
    intro h
    have h1 := congrArg ACFLAGS h
    rw [ACFLAGS_AC] at h1
    exact absurd h1 (by decide)
  unfold normalize_cell
  rw [if_neg hne]
  simp only [ACFLAGS_AC, ACCHAR_AC, ACFG_AC, ACBG_AC]
  have h1 : ¬ (ACF_INVERSE &&& 0xffff0000 &&& ACF_BOLD ≠ 0) := by decide
  have h2 : ¬ (ACF_INVERSE &&& 0xffff0000 &&& ACF_BGBOLD ≠ 0) := by decide
  have h3 : ACF_INVERSE &&& 0xffff0000 &&& ACF_INVERSE ≠ 0 := by decide
  rw [if_neg h1, if_neg h2, if_pos h3, Nat.mod_eq_of_lt hg,
    Nat.mod_eq_of_lt (by omega : fg < 16), Nat.mod_eq_of_lt (by omega : bg < 16)]

theorem handle_sgr_keeps_inverse (c : Int) (r : Rendition) (hr : r.curflags = ACF_INVERSE)
    (hc : c ≠ 0 ∧ c ≠ 1 ∧ c ≠ 4 ∧ c ≠ 5) : (handle_sgr c r).curflags = ACF_INVERSE := by
  unfold handle_sgr
  rw [if_neg hc.1, if_neg hc.2.1, if_neg hc.2.2.1, if_neg hc.2.2.2]
  split_ifs <;> first | rfl | exact hr

theorem foldl_keeps_inverse (cs : List Int) (r : Rendition) (hr : r.curflags = ACF_INVERSE)
    (hc : ∀ c ∈ cs, c ≠ 0 ∧ c ≠ 1 ∧ c ≠ 4 ∧ c ≠ 5) :
    (cs.foldl (fun r c => handle_sgr c r) r).curflags = ACF_INVERSE := by
  induction cs generalizing r with
  | nil => exact hr
  | cons c cs ih =>
    exact ih _ (handle_sgr_keeps_inverse c r hr (hc c (List.mem_cons_self _ _)))
      (fun x hx => hc x (List.mem_cons_of_mem _ hx))

theorem foldl_codes_inv (cs : List Int) (r : Rendition) (hr : r.Inv) :
    (cs.foldl (fun r c => handle_sgr c r) r).Inv := by
  induction cs generalizing r with
  | nil => exact hr
  | cons c cs ih => exact ih _ (handle_sgr_inv c r hr)

theorem handle_sgr_keeps_colors (c : Int) (r : Rendition)
    (hc : c ≠ 0 ∧ ¬ (30 ≤ c ∧ c ≤ 37) ∧ c ≠ 39 ∧ ¬ (40 ≤ c ∧ c ≤ 47)) :
    (handle_sgr c r).curfg = r.curfg ∧ (handle_sgr c r).curbg = r.curbg := by
  unfold handle_sgr
  rw [if_neg hc.1]
  split_ifs <;> first | exact ⟨rfl, rfl⟩ | tauto

theorem foldl_keeps_colors (cs : List Int) (r : Rendition)
    (hc : ∀ c ∈ cs, c ≠ 0 ∧ ¬ (30 ≤ c ∧ c ≤ 37) ∧ c ≠ 39 ∧ ¬ (40 ≤ c ∧ c ≤ 47)) :
    (cs.foldl (fun r c => handle_sgr c r) r).curfg = r.curfg ∧
    (cs.foldl (fun r c => handle_sgr c r) r).curbg = r.curbg := by
  induction cs generalizing r with
  | nil => exact ⟨rfl, rfl⟩
  | cons c cs ih =>
    have h1 := handle_sgr_keeps_colors c r (hc c (List.mem_cons_self _ _))
    have h2 := ih (handle_sgr c r) (fun x hx => hc x (List.mem_cons_of_mem _ hx))
    exact ⟨h2.1.trans h1.1, h2.2.trans h1.2⟩

/-- C20 as stated fails: after `ESC [ 7 m ESC [ 7 m` the byte `A` written with the
default colours (7, 0) has, after the pipeline, foreground 0 and background 7, the
swapped pair. -/
theorem inverse_twice_swapped :
    ∃ t : Term, read_ansi ⟨false, false⟩ [27, 91, 55, 109, 27, 91, 55, 109, 65]
        (clear_screen (fun _ _ => 0)) = .returned t ∧
      (ACFG (normalize (cp437_to_ascii t.screen) 0 0),
        ACBG (normalize (cp437_to_ascii t.screen) 0 0)) = (0, 7) ∧
      (ACFG (normalize (cp437_to_ascii t.screen) 0 0),
        ACBG (normalize (cp437_to_ascii t.screen) 0 0)) ≠ (7, 0) :=
  ⟨_, rfl, by decide, by decide⟩

/-- C20, amended: let a sequence of SGR codes contain the code 7 with no code 0, 1, 4
or 5 after it (as does every sequence that contains 7 exactly twice and no reset or
other flag-setting code after the first 7), and let it be applied to a rendition with
colours in 0..7.  Then the flags are Inverse alone, as after a single 7 (the code
replaces the flags, it does not toggle), and a glyph `b` without attribute side effect
written with the resulting colours `fg`, `bg` is, after `cp437_to_ascii` and
`normalize`, the glyph `cp437_to_ascii_map[b]` with foreground `bg` and background
`fg`: the swapped pair.  When the sequence has no colour code and no reset at all,
`fg`, `bg` are the colours before it. -/
theorem inverse_twice (r : Rendition) (pre rest : List Int) (b : Nat) (hr : r.Inv)
    (hrest : ∀ c ∈ rest, c ≠ 0 ∧ c ≠ 1 ∧ c ≠ 4 ∧ c ≠ 5)
    (hb : b < 256) (hs : b ≠ 0x02 ∧ b ≠ 0xb1 ∧ b ≠ 0xb2 ∧ b ≠ 0xdb) :
    ((pre ++ 7 :: rest).foldl (fun r c => handle_sgr c r) r).curflags = ACF_INVERSE ∧
    normalize_cell (cp437_cell (AC b
        ((pre ++ 7 :: rest).foldl (fun r c => handle_sgr c r) r).curfg
        ((pre ++ 7 :: rest).foldl (fun r c => handle_sgr c r) r).curbg
        ((pre ++ 7 :: rest).foldl (fun r c => handle_sgr c r) r).curflags)) =
      AC (cp437_to_ascii_map.getD b 0)
        ((pre ++ 7 :: rest).foldl (fun r c => handle_sgr c r) r).curbg
        ((pre ++ 7 :: rest).foldl (fun r c => handle_sgr c r) r).curfg 0 ∧
    ((∀ c ∈ pre ++ 7 :: rest, c ≠ 0 ∧ ¬ (30 ≤ c ∧ c ≤ 37) ∧ c ≠ 39 ∧ ¬ (40 ≤ c ∧ c ≤ 47)) →
      ((pre ++ 7 :: rest).foldl (fun r c => handle_sgr c r) r).curfg = r.curfg ∧
      ((pre ++ 7 :: rest).foldl (fun r c => handle_sgr c r) r).curbg = r.curbg) := by
  have hinv := foldl_codes_inv (pre ++ 7 :: rest) r hr
  have hfl : ((pre ++ 7 :: rest).foldl (fun r c => handle_sgr c r) r).curflags = ACF_INVERSE := by
    rw [List.foldl_append, List.foldl_cons]
    exact foldl_keeps_inverse rest _ rfl hrest
  have hm : cp437_to_ascii_map.getD b 0 < 256 := lt_trans (map_lt b) (by norm_num)
  refine ⟨hfl, ?_, foldl_keeps_colors _ r⟩
  rw [hfl, cp437_cell_AC b _ _ _ hb hs, normalize_cell_inverse _ _ _ hm hinv.1 hinv.2.1]

/-- C20 (amended) at the codes 7, 8, 7 applied to red on blue and the glyph `A`: the
flags are Inverse, the colours are still red (1) on blue (4), and the resolved cell has
foreground 4 and background 1. -/
theorem inverse_twice_witness :
    ([7, 8, 7].foldl (fun r c => handle_sgr c r) ⟨1, 4, 0⟩) = ⟨1, 4, ACF_INVERSE⟩ ∧
    normalize_cell (cp437_cell (AC 65 1 4 ACF_INVERSE)) = AC 65 4 1 0 :=
  ⟨by decide,
   (inverse_twice ⟨1, 4, 0⟩ [] [8, 7] 65 ⟨by decide, by decide, Or.inl rfl⟩ (by decide)
    (by decide) (by decide)).2.1⟩

/-! ## C21: parameters beyond the third -/

theorem store_param_full (l : Seq) (hnp : l.np = 3) : store_param l = l := by
  unfold store_param
  rw [if_neg (by omega)]

/-- With the three slots taken, digits and `;` only lengthen `nbuf` and count. -/
theorem run_dropped (cfg : Config) (t : Term) (tail rest : List Nat) (l : Seq)
    (hnp : l.np = 3) (htail : ∀ p ∈ tail, isdigit p = true ∨ p = 59)
    (hdig : l.nbuf.length + (tail.filter isdigit).length ≤ 4)
    (hseq : l.curseqlen + tail.length < 64) :
    ∃ l1 : Seq, run cfg ⟨t, .csi l⟩ (tail ++ rest) = run cfg ⟨t, .csi l1⟩ rest ∧
      l1.np = 3 ∧ l1.params = l.params ∧ l1.quesflag = l.quesflag ∧
      l1.curseqlen = l.curseqlen + tail.length := by
  induction tail generalizing l with
  | nil => exact ⟨l, rfl, hnp, rfl, rfl, rfl⟩
  | cons p ps ih =>
    simp only [List.length_cons] at hseq
    rw [List.cons_append]
    rcases htail p (List.mem_cons_self _ _) with hp | hp
    · have hstep : step cfg ⟨t, .csi l⟩ p =
          .next ⟨t, .csi { l with curseqlen := l.curseqlen + 1, nbuf := l.nbuf ++ [p] }⟩ := by
        simp only [List.filter_cons, hp, if_true, List.length_cons] at hdig
        simp only [step, csi_byte, MAXSEQLEN]
        rw [if_neg (by omega), if_neg (fun h => isdigit_ne_eof p hp h.1), if_pos hp,
          if_neg (by omega)]
      rw [run_next cfg _ _ p _ hstep]
      obtain ⟨l1, h1, h2, h3, h4, h5⟩ := ih
        { l with curseqlen := l.curseqlen + 1, nbuf := l.nbuf ++ [p] } hnp
        (fun x hx => htail x (List.mem_cons_of_mem _ hx))
        (by
          simp only [List.filter_cons, hp, if_true, List.length_cons] at hdig
          simp only [List.length_append, List.length_singleton]
          omega)
        (by simp only []; omega)
      exact ⟨l1, h1, h2, h3, h4, by rw [h5]; simp only [List.length_cons]; omega⟩
    · subst hp
      have hstep : step cfg ⟨t, .csi l⟩ 59 =
          .next ⟨t, .csi { l with curseqlen := l.curseqlen + 1,
                                  semicount := l.semicount + 1 }⟩ := by
        rw [step_csi_command cfg t l 59 (by omega) (by decide) (by decide),
          store_param_full { l with curseqlen := l.curseqlen + 1 } hnp]
        rfl
      rw [run_next cfg _ _ 59 _ hstep]
      obtain ⟨l1, h1, h2, h3, h4, h5⟩ := ih
        { l with curseqlen := l.curseqlen + 1, semicount := l.semicount + 1 } hnp
        (fun x hx => htail x (List.mem_cons_of_mem _ hx))
        (by
          simp only [List.filter_cons, show isdigit 59 = false by decide] at hdig
          simpa using hdig)
        (by simp only []; omega)
      exact ⟨l1, h1, h2, h3, h4, by rw [h5]; simp only [List.length_cons]; omega⟩

theorem sgr_params_three (params : Nat → Int) (r : Rendition) :
    sgr_params params 3 r =
      handle_sgr (params 2) (handle_sgr (params 1) (handle_sgr (params 0) r)) := rfl

/-- The locals after `p1 ; p2 ; p3 ;` were read from the start of a sequence. -/
theorem run_three_params (cfg : Config) (t : Term) (p1 p2 p3 : Nat) (rest : List Nat)
    (h1 : p1 ≤ 9999) (h2 : p2 ≤ 9999) (h3 : p3 ≤ 9999) :
    ∃ l : Seq, run cfg ⟨t, .ground⟩
        ([27, 91] ++ decimal p1 ++ [59] ++ decimal p2 ++ [59] ++ decimal p3 ++ [59] ++ rest) =
        run cfg ⟨t, .csi l⟩ rest ∧
      l.np = 3 ∧ l.params 0 = p1 ∧ l.params 1 = p2 ∧ l.params 2 = p3 ∧ l.quesflag = 0 ∧
      l.nbuf = [] ∧
      l.curseqlen = (decimal p1).length + (decimal p2).length + (decimal p3).length + 3 := by
  have hl1 := decimal_length p1
  have hl2 := decimal_length p2
  have hl3 := decimal_length p3
  simp only [List.append_assoc, List.cons_append, List.nil_append]
  rw [run_esc_csi, run_param_command cfg t Seq.init (decimal p1) 59 _ (decimal_digits p1 h1)
    hl1.1 hl1.2 rfl (by decide) (by simp only [Seq.init]; omega) (by decide) (by decide)]
  simp only [csi_switch, case_semi, Seq.init]
  simp only [reduceIte, Nat.reduceEqDiff]
  rw [run_param_command cfg t _ (decimal p2) 59 _ (decimal_digits p2 h2)
    hl2.1 hl2.2 rfl (by simp) (by simp only []; omega) (by decide) (by decide)]
  simp only [csi_switch, case_semi]
  simp only [reduceIte, Nat.reduceEqDiff]
  rw [run_param_command cfg t _ (decimal p3) 59 _ (decimal_digits p3 h3)
    hl3.1 hl3.2 rfl (by simp) (by simp only []; omega) (by decide) (by decide)]
  simp only [csi_switch, case_semi]
  simp only [reduceIte, Nat.reduceEqDiff]
  refine ⟨_, rfl, rfl, ?_, ?_, ?_, rfl, rfl, ?_⟩
  · simp [atoi_decimal p1 h1]
  · simp [atoi_decimal p2 h2]
  · simp [atoi_decimal p3 h3]
  · simp only []
    omega

/-- What holds of the claim C21: when the digits of the parameters after the third
number at most four in all, `CSI p1 ; p2 ; p3 ; tail m` is read without error and
leaves the state that `CSI p1 ; p2 ; p3 m` leaves: the three stored codes applied from
left to right. -/
theorem extra_params_dropped (cfg : Config) (t : Term) (p1 p2 p3 : Nat) (tail : List Nat)
    (h1 : p1 ≤ 9999) (h2 : p2 ≤ 9999) (h3 : p3 ≤ 9999)
    (htail : ∀ p ∈ tail, isdigit p = true ∨ p = 59)
    (hdig : (tail.filter isdigit).length ≤ 4)
    (hlen : (decimal p1).length + (decimal p2).length + (decimal p3).length + 3 +
      tail.length + 1 < 64) :
    run cfg ⟨t, .ground⟩
        ([27, 91] ++ decimal p1 ++ [59] ++ decimal p2 ++ [59] ++ decimal p3 ++ [59] ++
          (tail ++ [109])) =
      .next ⟨t.set_rendition
        (handle_sgr p3 (handle_sgr p2 (handle_sgr p1 t.rendition))), .ground⟩ ∧
    run cfg ⟨t, .ground⟩
        ([27, 91] ++ decimal p1 ++ [59] ++ decimal p2 ++ [59] ++ decimal p3 ++ [109]) =
      .next ⟨t.set_rendition
        (handle_sgr p3 (handle_sgr p2 (handle_sgr p1 t.rendition))), .ground⟩ := by
  have hm : ∀ l : Seq, l.np = 3 → l.quesflag = 0 → l.curseqlen + 1 ≠ 64 →
      run cfg ⟨t, .csi l⟩ [109] = .next ⟨t.set_rendition
        (handle_sgr (l.params 2) (handle_sgr (l.params 1) (handle_sgr (l.params 0)
          t.rendition))), .ground⟩ := by
    intro l hnp hq hseq
    rw [run_cons, step_csi_command cfg t l 109 hseq (by decide) (by decide),
      store_param_full { l with curseqlen := l.curseqlen + 1 } hnp]
    have hsw : ∀ l1 : Seq, csi_switch t l1 109 = case_m t l1 := fun _ => rfl
    rw [hsw]
    unfold case_m
    simp only []
    rw [if_neg (by simp [hq]), if_neg (by omega), hnp, sgr_params_three]
    rfl
  refine ⟨?_, ?_⟩
  · obtain ⟨l, hrun, hnp, hp1, hp2, hp3, hq, hbuf, hcs⟩ :=
      run_three_params cfg t p1 p2 p3 (tail ++ [109]) h1 h2 h3
    rw [hrun]
    obtain ⟨l1, hrun1, hnp1, hpar, hq1, hcs1⟩ := run_dropped cfg t tail [109] l hnp htail
      (by rw [hbuf]; simpa using hdig) (by omega)
    rw [hrun1, hm l1 hnp1 (by rw [hq1, hq]) (by omega), hpar, hp1, hp2, hp3]
  · have hl1 := decimal_length p1
    have hl2 := decimal_length p2
    have hl3 := decimal_length p3
    simp only [List.append_assoc, List.cons_append, List.nil_append]
    rw [run_esc_csi, run_param_command cfg t Seq.init (decimal p1) 59 _ (decimal_digits p1 h1)
      hl1.1 hl1.2 rfl (by decide) (by simp only [Seq.init]; omega) (by decide) (by decide)]
    simp only [csi_switch, case_semi, Seq.init]
    simp only [reduceIte, Nat.reduceEqDiff]
    rw [run_param_command cfg t _ (decimal p2) 59 _ (decimal_digits p2 h2)
      hl2.1 hl2.2 rfl (by simp) (by simp only []; omega) (by decide) (by decide)]
    simp only [csi_switch, case_semi]
    simp only [reduceIte, Nat.reduceEqDiff]
    rw [run_param_command cfg t _ (decimal p3) 109 [] (decimal_digits p3 h3)
      hl3.1 hl3.2 rfl (by simp) (by simp only []; omega) (by decide) (by decide)]
    have hsw : ∀ l1 : Seq, csi_switch t l1 109 = case_m t l1 := fun _ => rfl
    rw [hsw]
    unfold case_m
    simp only []
    rw [if_neg (by simp), if_neg (by omega), sgr_params_three]
    simp [atoi_decimal p1 h1, atoi_decimal p2 h2, atoi_decimal p3 h3, run]

theorem extra_params_dropped_example :
    run ⟨false, false⟩ ⟨Term.init blank, .ground⟩
        ([27, 91] ++ decimal 1 ++ [59] ++ decimal 31 ++ [59] ++ decimal 42 ++ [59] ++
          ([55, 59, 48] ++ [109])) =
      run ⟨false, false⟩ ⟨Term.init blank, .ground⟩
        ([27, 91] ++ decimal 1 ++ [59] ++ decimal 31 ++ [59] ++ decimal 42 ++ [109]) :=
  have h := extra_params_dropped ⟨false, false⟩ (Term.init blank) 1 31 42 [55, 59, 48]
    (by decide) (by decide) (by decide) (by decide) (by decide) (by decide)
  h.1.trans h.2.symm

/-- C21 at `CSI 1 ; 2 ; 3 ; 4444 ; 5 m` (five parameters of one to four digits, 15
bytes after `ESC [`): with the three slots taken the digits of the fourth and fifth
parameter pile up in `nbuf`, which is not reset, and the digit `5` aborts with "number
too large", where the claim has no failure and the state of `CSI 1 ; 2 ; 3 m`.  The
same sequence without `; 5`, and `CSI 1 ; 2 ; 3 m`, are read without error. -/
theorem fifth_param_aborts :
    read_ansi ⟨false, false⟩
      [27, 91, 49, 59, 50, 59, 51, 59, 52, 52, 52, 52, 59, 53, 109] blank =
      .fatal .number_too_large ∧
    (∃ t : Term,
      read_ansi ⟨false, false⟩ [27, 91, 49, 59, 50, 59, 51, 59, 52, 52, 52, 52, 109] blank =
        .returned t ∧ (t.curfg, t.curbg, t.curflags) = (7, 0, ACF_BOLD)) ∧
    (∃ t : Term,
      read_ansi ⟨false, false⟩ [27, 91, 49, 59, 50, 59, 51, 109] blank =
        .returned t ∧ (t.curfg, t.curbg, t.curflags) = (7, 0, ACF_BOLD)) :=
  ⟨rfl, ⟨_, rfl, rfl⟩, ⟨_, rfl, rfl⟩⟩

/-! ## C22: the default cell -/

theorem default_bit : default_char.testBit 21 = true := by decide

theorem AC_bit (b : Nat) (r : Rendition) (h : r.Inv) :
    (AC b r.curfg r.curbg r.curflags).testBit 21 = false := by
  rw [testBit_AC, if_neg (by decide), if_neg (by decide), if_neg (by decide), if_pos (by decide)]
  obtain ⟨_, _, h0 | h0 | h0 | h0 | h0⟩ := h <;> rw [h0] <;> decide

theorem cp437_cell_bit (c : Nat) : (cp437_cell c).testBit 21 = c.testBit 21 := by
  have hm : cp437_to_ascii_map.getD (ACCHAR c) 0 < 256 := lt_trans (map_lt _) (by norm_num)
  rw [cp437_cell_eq, testBit_rebuilt _ _ _ 21 (toggle_is_flags _) hm, if_neg (by decide),
    if_neg (by decide), if_pos (by decide)]
  have h1 : (ACF_BGBOLD ||| ACF_INVERSE).testBit 21 = false := by decide
  have h2 : ACF_BOLD.testBit 21 = false := by decide
  have h3 : Nat.testBit 0 21 = false := by decide
  split_ifs
  · rw [h1, Bool.xor_false]
  · rw [h2, Bool.xor_false]
  · rw [h3, Bool.xor_false]

theorem normalize_cell_ne (c : Nat) (h : c ≠ default_char) : normalize_cell c ≠ default_char := by
  unfold normalize_cell
  rw [if_neg h]
  simp only []
  split_ifs <;> exact AC_zero_ne_default _ _ _

/-- Of the cases of the `switch`, only `J` stores into the array. -/
theorem csi_switch_screen (t : Term) (l : Seq) (d : Nat) (m1 : Machine) (hd : d ≠ 74)
    (h : csi_switch t l d = .next m1) : m1.t.screen = t.screen := by
  unfold csi_switch at h
  by_cases h1 : d = 63
  · rw [if_pos h1] at h; unfold case_ques at h; split_ifs at h; cases h; rfl
  rw [if_neg h1] at h
  by_cases h2 : d = 59
  · rw [if_pos h2] at h; unfold case_semi at h; cases h; rfl
  rw [if_neg h2] at h
  by_cases h3 : d = 109
  · rw [if_pos h3] at h; unfold case_m at h; split_ifs at h <;> cases h <;> rfl
  rw [if_neg h3, if_neg hd] at h
  by_cases h5 : d = 104
  · rw [if_pos h5] at h; unfold case_h at h; split_ifs at h; cases h; rfl
  rw [if_neg h5] at h
  by_cases h6 : d = 72
  · rw [if_pos h6] at h; unfold case_H at h; split_ifs at h <;> cases h <;> rfl
  rw [if_neg h6] at h
  by_cases h7 : d = 115
  · rw [if_pos h7] at h; unfold case_s at h; split_ifs at h; cases h; rfl
  rw [if_neg h7] at h
  by_cases h8 : d = 117
  · rw [if_pos h8] at h; unfold case_u at h; split_ifs at h; cases h; rfl
  rw [if_neg h8] at h
  by_cases h9 : d = 65
  · rw [if_pos h9] at h; unfold case_A at h; simp only [] at h; split_ifs at h <;> cases h <;> rfl
  rw [if_neg h9] at h
  by_cases h10 : d = 66
  · rw [if_pos h10] at h; unfold case_B at h; simp only [] at h; split_ifs at h; cases h; rfl
  rw [if_neg h10] at h
  by_cases h11 : d = 67
  · rw [if_pos h11] at h; unfold case_C at h; simp only [] at h; split_ifs at h; cases h; rfl
  rw [if_neg h11] at h
  by_cases h12 : d = 68
  · rw [if_pos h12] at h; unfold case_D at h; simp only [] at h; split_ifs at h <;> cases h <;> rfl
  rw [if_neg h12] at h
  cases h

theorem case_J_screen (t : Term) (l : Seq) (m1 : Machine) (h : case_J t l = .next m1) :
    m1.t.screen = clear_screen t.screen := by
  unfold case_J at h
  split_ifs at h
  cases h
  rfl

/-- The array after one byte: cleared by the `J` of `CSI 2 J`, with one more cell
stored by a write, and as it was otherwise. -/
theorem step_screen (cfg : Config) (m m1 : Machine) (b : Nat) (h : step cfg m b = .next m1) :
    m1.t.screen =
      if is_clear cfg m b = true then clear_screen m.t.screen
      else if is_write cfg m b = true then
        screen_set m.t.screen m.t.x m.t.y (AC b m.t.curfg m.t.curbg m.t.curflags)
      else m.t.screen := by
  obtain ⟨t, mode⟩ := m
  cases mode with
  | ground =>
    have hc : is_clear cfg ⟨t, .ground⟩ b = false := rfl
    rw [hc, if_neg (by decide)]
    simp only [step] at h
    simp only [is_write]
    by_cases h27 : b = 27
    · rw [if_neg (by simp [h27])] at h
      cases h
      rw [if_neg (by simp [h27])]
    rw [if_pos h27] at h
    unfold plain_byte at h
    by_cases ha : b = 0xa
    · rw [if_pos ha] at h
      cases h
      rw [if_neg (by simp [ha])]
    rw [if_neg ha] at h
    by_cases hd : b = 0xd
    · rw [if_pos hd] at h
      cases h
      rw [if_neg (by simp [hd])]
    rw [if_neg hd] at h
    by_cases h9 : b = 0x9 ∧ cfg.expandtab = true
    · rw [if_pos h9] at h
      cases h
      rw [if_neg (by simp [h9.1, h9.2])]
    rw [if_neg h9] at h
    by_cases hz : b = 0x1a ∧ cfg.includez = false
    · rw [if_pos hz] at h
      cases h
    rw [if_neg hz] at h
    rw [if_pos (by simp only [decide_eq_true_eq]; exact ⟨h27, ha, hd, h9, hz⟩)]
    simp only [] at h
    split_ifs at h <;> cases h <;> rfl
  | esc =>
    have hc : is_clear cfg ⟨t, .esc⟩ b = false := rfl
    have hw : is_write cfg ⟨t, .esc⟩ b = false := rfl
    rw [hc, hw, if_neg (by decide), if_neg (by decide)]
    simp only [step, esc_byte] at h
    split_ifs at h
    cases h
    rfl
  | csi l =>
    have hw : is_write cfg ⟨t, .csi l⟩ b = false := rfl
    have hc : is_clear cfg ⟨t, .csi l⟩ b = (b == 74) := by
      simp only [is_clear, h]
    rw [hw, hc]
    simp only [step, csi_byte] at h
    split_ifs at h with h1 h2 h3 h4
    · cases h
      rw [if_neg (by
        intro hb
        rw [beq_iff_eq] at hb
        subst hb
        exact absurd h3 (by decide))]
      rfl
    · by_cases h74 : b = 74
      · subst h74
        rw [if_pos (by decide)]
        exact case_J_screen _ _ _ h
      · rw [if_neg (by simpa using h74)]
        exact csi_switch_screen _ _ _ _ h74 h

theorem csi_switch_no_ret (t : Term) (l : Seq) (d : Nat) (t1 : Term) :
    csi_switch t l d ≠ .ret t1 := by
  intro h
  unfold csi_switch at h
  by_cases h1 : d = 63
  · rw [if_pos h1] at h; unfold case_ques at h; split_ifs at h
  rw [if_neg h1] at h
  by_cases h2 : d = 59
  · rw [if_pos h2] at h; unfold case_semi at h; cases h
  rw [if_neg h2] at h
  by_cases h3 : d = 109
  · rw [if_pos h3] at h; unfold case_m at h; split_ifs at h
  rw [if_neg h3] at h
  by_cases h4 : d = 74
  · rw [if_pos h4] at h; unfold case_J at h; split_ifs at h
  rw [if_neg h4] at h
  by_cases h5 : d = 104
  · rw [if_pos h5] at h; unfold case_h at h; split_ifs at h
  rw [if_neg h5] at h
  by_cases h6 : d = 72
  · rw [if_pos h6] at h; unfold case_H at h; split_ifs at h
  rw [if_neg h6] at h
  by_cases h7 : d = 115
  · rw [if_pos h7] at h; unfold case_s at h; split_ifs at h
  rw [if_neg h7] at h
  by_cases h8 : d = 117
  · rw [if_pos h8] at h; unfold case_u at h; split_ifs at h
  rw [if_neg h8] at h
  by_cases h9 : d = 65
  · rw [if_pos h9] at h; unfold case_A at h; simp only [] at h; split_ifs at h
  rw [if_neg h9] at h
  by_cases h10 : d = 66
  · rw [if_pos h10] at h; unfold case_B at h; simp only [] at h; split_ifs at h
  rw [if_neg h10] at h
  by_cases h11 : d = 67
  · rw [if_pos h11] at h; unfold case_C at h; simp only [] at h; split_ifs at h
  rw [if_neg h11] at h
  by_cases h12 : d = 68
  · rw [if_pos h12] at h; unfold case_D at h; simp only [] at h; split_ifs at h
  rw [if_neg h12] at h
  cases h

/-- The step that returns leaves the variables as they were. -/
theorem step_ret (cfg : Config) (m : Machine) (b : Nat) (t1 : Term)
    (h : step cfg m b = .ret t1) : t1 = m.t := by
  obtain ⟨t, mode⟩ := m
  cases mode with
  | ground =>
    simp only [step, plain_byte] at h
    split_ifs at h
    cases h
    rfl
  | esc =>
    simp only [step, esc_byte] at h
    split_ifs at h
    cases h
    rfl
  | csi l =>
    simp only [step, csi_byte] at h
    split_ifs at h
    · cases h
      rfl
    · exact absurd h (csi_switch_no_ret _ _ _ _)

theorem tracks_step (cfg : Config) (m m1 : Machine) (b : Nat) (w : Nat → Nat → Bool)
    (hinv : m.t.Inv) (hT : Tracks w m.t.screen) (h : step cfg m b = .next m1) :
    Tracks (mark cfg m b w) m1.t.screen := by
  intro i j hi hj
  rw [step_screen cfg m m1 b h]
  unfold mark
  by_cases hc : is_clear cfg m b = true
  · rw [if_pos hc, if_pos hc]
    simp only [clear_screen, if_pos (And.intro hi hj)]
    rw [if_neg (by decide)]
    trivial
  rw [if_neg hc, if_neg hc]
  by_cases hw : is_write cfg m b = true
  · rw [if_pos hw, if_pos hw]
    simp only [screen_set]
    by_cases hxy : i = m.t.x ∧ j = m.t.y
    · rw [if_pos hxy, if_pos hxy, if_pos rfl]
      exact AC_bit b m.t.rendition hinv.2.2.2.2.2
    · rw [if_neg hxy, if_neg hxy]
      exact hT i j hi hj
  · rw [if_neg hw, if_neg hw]
    exact hT i j hi hj

/-- When `read_ansi` returns, the array agrees with the record of the written cells. -/
theorem tracks_run (cfg : Config) (input : List Nat) (m : Machine) (w : Nat → Nat → Bool)
    (t : Term) (hinv : m.t.Inv) (hT : Tracks w m.t.screen)
    (h : finish (run cfg m input) = .returned t) :
    Tracks (written cfg m input w) t.screen := by
  induction input generalizing m w with
  | nil =>
    simp only [run, finish, at_eof] at h
    simp only [written]
    split at h
    · cases h; exact hT
    · cases h
    · cases h; exact hT
  | cons b bs ih =>
    cases hstep : step cfg m b with
    | next m1 =>
      rw [run_next cfg m m1 b bs hstep] at h
      have hs := step_safe cfg m b hinv
      rw [hstep] at hs
      simp only [written, hstep]
      exact ih m1 _ hs (tracks_step cfg m m1 b w hinv hT hstep) h
    | ret t1 =>
      rw [run_ret cfg m b bs t1 hstep] at h
      simp only [finish] at h
      cases h
      simp only [written, hstep]
      rw [step_ret cfg m b _ hstep]
      exact hT
    | fatal e =>
      rw [run_fatal cfg m b bs e hstep] at h
      cases h
    | oob =>
      simp only [run, hstep, finish] at h
      cases h

theorem tracks_clear (g : Screen) : Tracks (fun _ _ => false) (clear_screen g) := by
  intro i j hi hj
  simp only [clear_screen, if_pos (And.intro hi hj)]
  rw [if_neg (by decide)]
  trivial

/-- C22: `default_char` compares equal only to itself at every stage.  For every byte
`b` and every rendition the SGR sequences reach (colours up to 7, flags one of none,
bold, underline, blink, inverse) the cell a write stores differs from `default_char`,
and still differs after `cp437_to_ascii`, after `normalize`, and after both;
`cp437_to_ascii` and `normalize` map `default_char` to itself.  Hence, when `read_ansi`
returns on the cleared array, a cell of the grid equals `default_char` after the
pipeline if and only if no byte was written to it since the last clear. -/
theorem default_cell_only_itself (cfg : Config) (input : List Nat) (g : Screen) (t : Term)
    (hret : read_ansi cfg input (clear_screen g) = .returned t) :
    (∀ (b : Nat) (r : Rendition), r.Inv →
      AC b r.curfg r.curbg r.curflags ≠ default_char ∧
      cp437_cell (AC b r.curfg r.curbg r.curflags) ≠ default_char ∧
      normalize_cell (AC b r.curfg r.curbg r.curflags) ≠ default_char ∧
      normalize_cell (cp437_cell (AC b r.curfg r.curbg r.curflags)) ≠ default_char) ∧
    cp437_cell default_char = default_char ∧
    normalize_cell default_char = default_char ∧
    (∀ i j, i < NROWS → j < NCOLS →
      (normalize (cp437_to_ascii t.screen) i j = default_char ↔
        never_written cfg input (clear_screen g) i j)) := by
  have hne : ∀ c : Nat, c.testBit 21 = false → c ≠ default_char := by
    intro c hc heq
    rw [heq, default_bit] at hc
    cases hc
  refine ⟨?_, by decide, by decide, ?_⟩
  · intro b r hr
    have h1 := AC_bit b r hr
    have h2 : (cp437_cell (AC b r.curfg r.curbg r.curflags)).testBit 21 = false := by
      rw [cp437_cell_bit, h1]
    exact ⟨hne _ h1, hne _ h2, normalize_cell_ne _ (hne _ h1), normalize_cell_ne _ (hne _ h2)⟩
  · intro i j hi hj
    have hT := tracks_run cfg input ⟨Term.init (clear_screen g), .ground⟩ (fun _ _ => false) t
      (init_inv _) (tracks_clear g) hret i j hi hj
    rw [pipeline_cell _ i j hi hj]
    unfold never_written
    by_cases hw : written cfg ⟨Term.init (clear_screen g), .ground⟩ input
        (fun _ _ => false) i j = true
    · rw [if_pos hw] at hT
      have h2 : (cp437_cell (t.screen i j)).testBit 21 = false := by rw [cp437_cell_bit, hT]
      constructor
      · intro h
        exact absurd h (normalize_cell_ne _ (hne _ h2))
      · intro h
        rw [hw] at h
        cases h
    · rw [if_neg hw] at hT
      rw [hT]
      constructor
      · intro _
        simpa using hw
      · intro _
        exact pipeline_default

theorem default_cell_only_itself_witness :
    ∃ t : Term,
      read_ansi ⟨false, false⟩ [32, 65, 27, 91, 50, 74, 32] (clear_screen blank) =
        .returned t ∧
      AC 32 7 0 0 ≠ default_char ∧
      ¬ never_written ⟨false, false⟩ [32, 65, 27, 91, 50, 74, 32] (clear_screen blank) 0 0 ∧
      normalize (cp437_to_ascii t.screen) 0 0 ≠ default_char ∧
      never_written ⟨false, false⟩ [32, 65, 27, 91, 50, 74, 32] (clear_screen blank) 0 1 ∧
      normalize (cp437_to_ascii t.screen) 0 1 = default_char :=
  have hr : read_ansi ⟨false, false⟩ [32, 65, 27, 91, 50, 74, 32] (clear_screen blank) =
      .returned { Term.init (screen_set (clear_screen (screen_set (screen_set
        (clear_screen blank) 0 0 (AC 32 7 0 0)) 0 1 (AC 65 7 0 0))) 0 0 (AC 32 7 0 0))
        with y := 1 } := rfl
  have h := default_cell_only_itself ⟨false, false⟩ [32, 65, 27, 91, 50, 74, 32] blank _ hr
  have h00 : written ⟨false, false⟩ ⟨Term.init (clear_screen blank), .ground⟩
      [32, 65, 27, 91, 50, 74, 32] (fun _ _ => false) 0 0 = true := rfl
  have h01 : never_written ⟨false, false⟩ [32, 65, 27, 91, 50, 74, 32] (clear_screen blank)
      0 1 := rfl
  have hn : ¬ never_written ⟨false, false⟩ [32, 65, 27, 91, 50, 74, 32] (clear_screen blank)
      0 0 := fun e => Bool.noConfusion (h00.symm.trans e)
  ⟨_, hr, (h.1 32 ⟨7, 0, 0⟩ ⟨by decide, by decide, Or.inl rfl⟩).1, hn,
    fun e => hn ((h.2.2.2 0 0 (by decide) (by decide)).1 e), h01,
    (h.2.2.2 0 1 (by decide) (by decide)).2 h01⟩

end Noansi
